import Mathlib

/-! # Robin-hood open-addressing hash map (`src/hash_map.h`)

A shallow embedding of the class template `HashMap<KeyType, ValueType, Hash>`.

* The slot array `_data` is a `List` of cells; a `Cell*` is an index into it.
* The `Ptr` nodes of the enumeration list live on the free store, modelled by
  `HashMap.nodes`: a `Ptr*` is an index into that store, `nullptr` is `none`,
  `new Ptr` appends a node, `delete` overwrites the node with `none`.
* Every operation returns `Except Error _`.  Reading through a null or freed
  `Ptr*`, indexing `_data` out of bounds and `hash % 0` are `Error.undefined`;
  a `while (true)` loop that never leaves is `Error.no_return`;
  `std::out_of_range` is `Error.out_of_range`.
* `size_t` counters are natural numbers (they are bounded by the array length);
  the two decrements and the subtraction in `get_delta_` wrap modulo `2 ^ 64`
  as in the source.  `new Cell[n]` is taken to succeed.
* `_added + _deleted >= _capacity * 0.75` is the comparison
  `4 * (_added + _deleted) ≥ 3 * _capacity`; the product with `0.75` is exact in
  `long double` for every capacity below `2 ^ 51`.
-/

namespace Cifoviko

/-- The `size_t` modulus. -/
def SIZE : Nat := 2 ^ 64

/-- The ways an operation can fail to return a value. -/
inductive Error where
  | out_of_range
  | undefined
  | no_return
deriving DecidableEq, Repr

/-- The enum `Cell::State`. -/
inductive State where
  | EMPTY
  | FULL
  | DELETED
deriving DecidableEq, Repr

/-- The struct `Ptr`: a node of the doubly linked enumeration list. -/
structure Ptr where
  cell : Nat
  next : Option Nat
  previous : Option Nat
deriving DecidableEq, Repr

/-- The struct `Cell`: one slot of the table. -/
structure Cell (K V : Type) where
  element : K × V
  hash : Nat
  validation : State
  ptr : Option Nat
deriving DecidableEq, Repr

/-- The data members of `HashMap` (the hasher is a parameter of the operations),
together with the free store `nodes` that holds the `Ptr` objects. -/
structure HashMap (K V : Type) where
  _capacity : Nat
  _added : Nat
  _deleted : Nat
  _data : List (Cell K V)
  _ptr : Option Nat
  nodes : List (Option Ptr)
deriving DecidableEq, Repr

/-- A default-constructed `Cell`, as produced by `new Cell[n]`. -/
def Cell.fresh (K V : Type) [Inhabited K] [Inhabited V] : Cell K V :=
  { element := (default, default), hash := 0, validation := State.EMPTY, ptr := none }

/-- The value `_hasher(key)`, a `size_t`. -/
def hashOf {K : Type} (hasher : K → Nat) (key : K) : Nat := hasher key % SIZE

/-- The static constant `_STARTING_CAPACITY`. -/
def _STARTING_CAPACITY : Nat := 128

/-- The static constant `_CAPACITY_MULTIPLIER`. -/
def _CAPACITY_MULTIPLIER : Nat := 2

/-- The test `count >= capacity * _MAX_FILL_PORTION` with `_MAX_FILL_PORTION = 0.75`. -/
def reaches_MAX_FILL_PORTION (count capacity : Nat) : Bool :=
  decide (3 * capacity ≤ 4 * count)

/-- The effect of `x--` on a `size_t`. -/
def decr (x : Nat) : Nat := if x = 0 then SIZE - 1 else x - 1

/-- Dereference of a `Ptr*`. -/
def readPtr (nodes : List (Option Ptr)) (p : Option Nat) : Except Error Ptr :=
  match p with
  | none => Except.error Error.undefined
  | some a =>
    match nodes[a]? with
    | some (some n) => Except.ok n
    | _ => Except.error Error.undefined

/-- The read `_data[position]`. -/
def readCell {K V : Type} (data : List (Cell K V)) (position : Nat) : Except Error (Cell K V) :=
  match data[position]? with
  | some c => Except.ok c
  | none => Except.error Error.undefined

/-- The statement `if (p != nullptr) p->next = t;`. -/
def write_next (nodes : List (Option Ptr)) (p t : Option Nat) : Except Error (List (Option Ptr)) :=
  match p with
  | none => pure nodes
  | some p => do
    let pn ← readPtr nodes (some p)
    pure (nodes.set p (some { pn with next := t }))

/-- The statement `if (q != nullptr) q->previous = t;`. -/
def write_previous (nodes : List (Option Ptr)) (q t : Option Nat) :
    Except Error (List (Option Ptr)) :=
  match q with
  | none => pure nodes
  | some q => do
    let qn ← readPtr nodes (some q)
    pure (nodes.set q (some { qn with previous := t }))

/-- The statements that take the node `*a` out of the list and release it; they occur
verbatim in `place_` and in `delete_`, with `p` the pointer `_data[position].ptr`:
`if (p->previous != nullptr) p->previous->next = p->next;
 if (p->next != nullptr) p->next->previous = p->previous;
 if (_ptr == p) _ptr = p->next;  delete p;`. -/
def unlink_ (nodes : List (Option Ptr)) (head : Option Nat) (a : Nat) :
    Except Error (List (Option Ptr) × Option Nat) := do
  let n ← readPtr nodes (some a)
  let nodes1 ← write_next nodes n.previous n.next
  let n1 ← readPtr nodes1 (some a)
  let nodes2 ← write_previous nodes1 n1.next n1.previous
  let n2 ← readPtr nodes2 (some a)
  let head2 := if head = some a then n2.next else head
  pure (nodes2.set a none, head2)

/-- The statements of `place_` that create the node of the cell at `position` and put it in
front of the list: `ptr = new Ptr(&_data[position]);
 if (_ptr != nullptr) { ptr->next = _ptr; _ptr->previous = ptr; }`.  The new node gets the
address `nodes.length`. -/
def push_front_ (nodes : List (Option Ptr)) (head : Option Nat) (position : Nat) :
    Except Error (List (Option Ptr)) :=
  let nodes2 := nodes ++ [some { cell := position, next := none, previous := none }]
  match head with
  | none => pure nodes2
  | some h => do
    let hn ← readPtr nodes (some h)
    pure ((nodes2.set nodes.length (some { cell := position, next := some h, previous := none })).set
      h (some { hn with previous := some nodes.length }))

namespace HashMap

variable {K V : Type}

/-- The member function `size`. -/
def size (m : HashMap K V) : Nat := m._added

/-- The member function `empty`. -/
def empty (m : HashMap K V) : Bool := decide (m._added = 0)

/-- The member function `get_delta_`: `(position - (hash % _capacity) + _capacity) % _capacity`
in `size_t` arithmetic. -/
def get_delta_ (m : HashMap K V) (hash position : Nat) : Except Error Nat :=
  if m._capacity = 0 then Except.error Error.undefined
  else Except.ok ((((position + SIZE - hash % m._capacity) % SIZE + m._capacity) % SIZE) % m._capacity)

/-- The member function `place_`. -/
def place_ (m : HashMap K V) (hash_value position : Nat) (element : K × V) :
    Except Error (HashMap K V) := do
  let c ← readCell m._data position
  -- Recalculate elements count
  let (added, deleted) := match c.validation with
    | State.EMPTY => (m._added + 1, m._deleted)
    | State.DELETED => (m._added + 1, decr m._deleted)
    | State.FULL => (m._added, m._deleted)
  -- Clearing old ptr
  let (nodes1, head1) ← match c.ptr with
    | none => pure (m.nodes, m._ptr)
    | some a => unlink_ m.nodes m._ptr a
  -- Creating new ptr, and adding it to the start
  let nodes3 ← push_front_ nodes1 head1 position
  pure { m with
    _added := added, _deleted := deleted,
    _data := m._data.set position
      { element := element, hash := hash_value, validation := State.FULL,
        ptr := some nodes1.length },
    _ptr := some nodes1.length, nodes := nodes3 }

/-- The loop of the member function `find_place_`; `fuel` bounds the number of iterations. -/
def find_place_loop : Nat → HashMap K V → Nat → Nat → K × V → Except Error (HashMap K V)
  | 0, _, _, _, _ => Except.error Error.no_return
  | fuel + 1, m, hash_value, position, element => do
    let c ← readCell m._data position
    match c.validation with
    | State.EMPTY => place_ m hash_value position element
    | State.DELETED => place_ m hash_value position element
    | State.FULL =>
      let d1 ← get_delta_ m hash_value position
      let d2 ← get_delta_ m c.hash position
      if d2 < d1 then
        find_place_loop fuel
          { m with _data := m._data.set position { c with hash := hash_value, element := element } }
          c.hash ((position + 1) % m._capacity) c.element
      else
        find_place_loop fuel m hash_value ((position + 1) % m._capacity) element

/-- The member function `find_place_`.  The tags of the cells do not change while the
loop runs, so a scan that has not stopped after `_capacity` iterations never stops. -/
def find_place_ (m : HashMap K V) (hash_value position : Nat) (element : K × V) :
    Except Error (HashMap K V) :=
  find_place_loop m._capacity m hash_value position element

/-- The body of the member function `hard_insert_with_hash_`, with the member function
`resize_` it calls passed in as `resize`. -/
def hard_insert_with_hash_body (resize : HashMap K V → Nat → Except Error (HashMap K V))
    (m : HashMap K V) (element : K × V) (hash : Nat) : Except Error (HashMap K V) := do
  -- Checks if needs to increase capacity
  let m1 ← if reaches_MAX_FILL_PORTION (m._added + m._deleted) m._capacity
    then resize m (m._capacity * _CAPACITY_MULTIPLIER) else pure m
  -- Adds element
  if m1._capacity = 0 then Except.error Error.undefined
  else find_place_ m1 hash (hash % m1._capacity) element

/-- The loop of the member function `_deletePtrs` and of `clear`: every node of the list is
released after the `ptr` of its cell is nulled; `clear` (`reset = true`) also sets the
tag of the cell to `EMPTY`.  `data` is the array the nodes point into. -/
def release_loop (reset : Bool) : Nat → List (Option Ptr) → List (Cell K V) → Option Nat →
    Except Error (List (Option Ptr) × List (Cell K V))
  | _, nodes, data, none => Except.ok (nodes, data)
  | 0, _, _, some _ => Except.error Error.no_return
  | fuel + 1, nodes, data, some a => do
    let n ← readPtr nodes (some a)
    let c ← readCell data n.cell
    let c1 := if reset then { c with validation := State.EMPTY } else c
    release_loop reset fuel (nodes.set a none) (data.set n.cell { c1 with ptr := none }) n.next

/-- The member function `_deletePtrs`, acting on the array `data` the nodes point into.
Every iteration releases a live node, so there are at most `nodes.length` of them. -/
def _deletePtrs (m : HashMap K V) (data : List (Cell K V)) :
    Except Error (List (Option Ptr) × List (Cell K V)) :=
  release_loop false m.nodes.length m.nodes data m._ptr

/-- The loop `for (i = 0; i < old_capacity; ++i)` of `resize_`, started at `i` with `n`
iterations left; `hard_insert` is `hard_insert_with_hash_`. -/
def reinsert_loop (hard_insert : HashMap K V → K × V → Nat → Except Error (HashMap K V))
    (new_data : List (Cell K V)) : Nat → Nat → HashMap K V → Except Error (HashMap K V)
  | 0, _, m => Except.ok m
  | n + 1, i, m => do
    let c ← readCell new_data i
    let m1 ← if c.validation = State.FULL then hard_insert m c.element c.hash else pure m
    reinsert_loop hard_insert new_data n (i + 1) m1

/-- The member function `resize_`.  `depth` bounds the nesting of `resize_` inside the
`hard_insert_with_hash_` calls of its own loop.  The allocation `new Cell[new_capacity]` is
taken to succeed: the `catch` branch of the source, which runs when the allocation fails
(it releases the array and the nodes, sets `_capacity`, `_added` and `_deleted` to 0 and
rethrows), is not part of this definition, and `new_capacity` is not bounded by the size of
the address space.  What is proved of `resize_` is therefore about calls whose allocation
succeeds. -/
def resize_ [Inhabited K] [Inhabited V] :
    Nat → HashMap K V → Nat → Except Error (HashMap K V)
  | 0, _, _ => Except.error Error.no_return
  | depth + 1, m, new_capacity => do
    -- Swapping datas & clearing old ptrs
    let (nodes1, new_data) ← _deletePtrs m m._data
    let m1 : HashMap K V :=
      { _capacity := new_capacity, _added := 0, _deleted := 0,
        _data := List.replicate new_capacity (Cell.fresh K V), _ptr := none, nodes := nodes1 }
    -- Insert all from old data
    reinsert_loop (hard_insert_with_hash_body (resize_ depth)) new_data m._capacity 0 m1

/-- The nesting `resize_` can reach: the loop of a `resize_` may call `resize_` through
`hard_insert_with_hash_`, and the loop of that inner call never does. -/
def RESIZE_DEPTH : Nat := 2

/-- The member function `hard_insert_with_hash_`. -/
def hard_insert_with_hash_ [Inhabited K] [Inhabited V] (m : HashMap K V) (element : K × V)
    (hash : Nat) : Except Error (HashMap K V) :=
  hard_insert_with_hash_body (resize_ RESIZE_DEPTH) m element hash

/-- The member function `hard_insert_`. -/
def hard_insert_ [Inhabited K] [Inhabited V] (hasher : K → Nat) (m : HashMap K V)
    (element : K × V) : Except Error (HashMap K V) :=
  hard_insert_with_hash_ m element (hashOf hasher element.1)

/-- The loop of the member function `find_element_with_hash_`. -/
def find_element_loop [DecidableEq K] (m : HashMap K V) (key : K) :
    Nat → Nat → Except Error (Bool × Nat)
  | 0, _ => Except.error Error.no_return
  | fuel + 1, position => do
    let c ← readCell m._data position
    match c.validation with
    | State.EMPTY => pure (false, position)
    | State.DELETED => find_element_loop m key fuel ((position + 1) % m._capacity)
    | State.FULL =>
      if c.element.1 = key then pure (true, position)
      else find_element_loop m key fuel ((position + 1) % m._capacity)

/-- The member function `find_element_with_hash_`.  The table does not change while the
loop runs, so a scan that has not stopped after `_capacity` iterations never stops. -/
def find_element_with_hash_ [DecidableEq K] (m : HashMap K V) (key : K) (hash : Nat) :
    Except Error (Bool × Nat) :=
  if m._capacity = 0 then Except.error Error.undefined
  else find_element_loop m key m._capacity (hash % m._capacity)

/-- The member function `find_element_`. -/
def find_element_ [DecidableEq K] (hasher : K → Nat) (m : HashMap K V) (key : K) :
    Except Error (Bool × Nat) :=
  find_element_with_hash_ m key (hashOf hasher key)

/-- The member function `delete_`. -/
def delete_ (m : HashMap K V) (position : Nat) : Except Error (HashMap K V) := do
  let c ← readCell m._data position
  match c.validation with
  | State.EMPTY => pure m
  | State.DELETED => pure m
  | State.FULL =>
    match c.ptr with
    | none => Except.error Error.undefined
    | some a => do
      let (nodes1, head1) ← unlink_ m.nodes m._ptr a
      pure { m with
        _added := decr m._added, _deleted := m._deleted + 1,
        _data := m._data.set position { c with validation := State.DELETED, ptr := none },
        _ptr := head1, nodes := nodes1 }

/-- The object before the body of a constructor runs: every data member has the value of
its default member initializer, and no `Ptr` has been allocated. -/
def initial (K V : Type) : HashMap K V :=
  { _capacity := 0, _added := 0, _deleted := 0, _data := [], _ptr := none, nodes := [] }

/-- The constructor `HashMap(const Hash& hasher = Hash())`: the data members take their
default member initializers, then `resize_(_STARTING_CAPACITY)` runs. -/
def construct (K V : Type) [Inhabited K] [Inhabited V] : Except Error (HashMap K V) :=
  resize_ RESIZE_DEPTH (initial K V) _STARTING_CAPACITY

/-- The member function `insert`. -/
def insert [DecidableEq K] [Inhabited K] [Inhabited V] (hasher : K → Nat) (m : HashMap K V)
    (element : K × V) : Except Error (HashMap K V) := do
  -- Calculates hash
  let hash := hashOf hasher element.1
  -- Tries to find target element
  let position ← find_element_with_hash_ m element.1 hash
  -- Checks if there is such element
  if !position.1 then hard_insert_with_hash_ m element hash else pure m

/-- The member function `erase`. -/
def erase [DecidableEq K] (hasher : K → Nat) (m : HashMap K V) (key : K) :
    Except Error (HashMap K V) := do
  -- Tries to find target element
  let position ← find_element_ hasher m key
  -- Checks if there is target element & deletes it
  if position.1 then delete_ m position.2 else pure m

/-- The member function `find`; an iterator is the `Ptr*` it holds, `end()` is `none`. -/
def find [DecidableEq K] (hasher : K → Nat) (m : HashMap K V) (key : K) :
    Except Error (Option Nat) := do
  let position ← find_element_ hasher m key
  if position.1 then do
    let c ← readCell m._data position.2
    pure c.ptr
  else pure none

/-- The iterator member `operator*`: the element `_it->cell->element`. -/
def deref (m : HashMap K V) (it : Option Nat) : Except Error (K × V) := do
  let n ← readPtr m.nodes it
  let c ← readCell m._data n.cell
  pure c.element

/-- The answer of `find(key)` as a caller sees it: `none` when the iterator returned is
`end()`, otherwise the pair the iterator points at. -/
def find_entry [DecidableEq K] (hasher : K → Nat) (m : HashMap K V) (key : K) :
    Except Error (Option (K × V)) := do
  let it ← find hasher m key
  match it with
  | none => pure none
  | some a => do
    let e ← deref m (some a)
    pure (some e)

/-- The member function `at`. -/
def at_ [DecidableEq K] (hasher : K → Nat) (m : HashMap K V) (key : K) : Except Error V := do
  -- Finds target element
  let position ← find_element_ hasher m key
  -- Checks if there is such element
  if position.1 then do
    let c ← readCell m._data position.2
    pure c.element.2
  else Except.error Error.out_of_range

/-- The member function `operator[]`; the reference it returns is read at once. -/
def operator_brackets [DecidableEq K] [Inhabited K] [Inhabited V] (hasher : K → Nat)
    (m : HashMap K V) (key : K) : Except Error (V × HashMap K V) := do
  -- Calculates hash
  let hash := hashOf hasher key
  -- Finds target element
  let position ← find_element_with_hash_ m key hash
  if position.1 then do
    let c ← readCell m._data position.2
    pure (c.element.2, m)
  else do
    let m1 ← hard_insert_with_hash_ m (key, default) hash
    let position1 ← find_element_with_hash_ m1 key hash
    let c ← readCell m1._data position1.2
    pure (c.element.2, m1)

/-- The member function `clear`. -/
def clear (m : HashMap K V) : Except Error (HashMap K V) := do
  let (nodes1, data1) ← release_loop true m.nodes.length m.nodes m._data m._ptr
  pure { m with _added := 0, _data := data1, _ptr := none, nodes := nodes1 }

/-- A full iteration `for (it = begin(); it != end(); ++it)` collecting `*it`; `fuel`
bounds the number of steps. -/
def iterate_loop (m : HashMap K V) : Nat → Option Nat → Except Error (List (K × V))
  | _, none => Except.ok []
  | 0, some _ => Except.error Error.no_return
  | fuel + 1, some a => do
    let e ← deref m (some a)
    let n ← readPtr m.nodes (some a)
    let rest ← iterate_loop m fuel n.next
    pure (e :: rest)

/-- The entries visited by a full iteration from `begin()` to `end()`.  A walk longer
than the number of nodes in the store has entered a cycle and never ends. -/
def iterate (m : HashMap K V) : Except Error (List (K × V)) :=
  iterate_loop m m.nodes.length m._ptr

/-- The loop `while (it != map.end()) { hard_insert_(*it); ++it; }` of the copy
constructor, reading the source `map` and inserting into `m`. -/
def copy_loop [Inhabited K] [Inhabited V] (hasher : K → Nat) (map : HashMap K V) :
    Nat → Option Nat → HashMap K V → Except Error (HashMap K V)
  | _, none, m => Except.ok m
  | 0, some _, _ => Except.error Error.no_return
  | fuel + 1, some a, m => do
    let e ← deref map (some a)
    let m1 ← hard_insert_ hasher m e
    let n ← readPtr map.nodes (some a)
    copy_loop hasher map fuel n.next m1

/-- The copy constructor `HashMap(const HashMap& map)`.  The new object hashes with a
default-constructed `Hash`, which is the hasher of a table made by the default constructor. -/
def copy_construct [Inhabited K] [Inhabited V] (hasher : K → Nat) (map : HashMap K V) :
    Except Error (HashMap K V) := do
  -- Copying capacity
  let m0 ← resize_ RESIZE_DEPTH (initial K V) map._capacity
  -- Copying elements
  copy_loop hasher map map.nodes.length map._ptr m0

/-- The loop `for (const auto& elemet : initializer_list) insert(elemet);` of the fixed-list
constructor, which is also the loop `while (begin != end) { insert(*begin); ++begin; }` of
the range constructor. -/
def insert_each [DecidableEq K] [Inhabited K] [Inhabited V] (hasher : K → Nat) :
    List (K × V) → HashMap K V → Except Error (HashMap K V)
  | [], m => Except.ok m
  | element :: rest, m => do
    let m1 ← insert hasher m element
    insert_each hasher rest m1

/-- The constructor `HashMap(Iterator begin, Iterator end, const Hash& hasher = Hash())`;
the range `[begin, end)` is given as the list of its elements. -/
def construct_range [DecidableEq K] [Inhabited K] [Inhabited V] (hasher : K → Nat)
    (range : List (K × V)) : Except Error (HashMap K V) := do
  let m ← resize_ RESIZE_DEPTH (initial K V) _STARTING_CAPACITY
  insert_each hasher range m

/-- The constructor `HashMap(const std::initializer_list<...>& initializer_list, const
Hash& hasher = Hash())`. -/
def construct_list [DecidableEq K] [Inhabited K] [Inhabited V] (hasher : K → Nat)
    (initializer_list : List (K × V)) : Except Error (HashMap K V) := do
  let m ← resize_ RESIZE_DEPTH (initial K V) (initializer_list.length * _CAPACITY_MULTIPLIER)
  insert_each hasher initializer_list m

/-- The member function `operator=` of the object `m` with the argument `map`, a different
object. -/
def operator_assign [Inhabited K] [Inhabited V] (hasher : K → Nat) (m map : HashMap K V) :
    Except Error (HashMap K V) := do
  -- Copying capacity
  let m0 ← resize_ RESIZE_DEPTH m map._capacity
  -- Copying elements
  copy_loop hasher map map.nodes.length map._ptr m0

/-- A full iteration `for (it = begin(); it != end(); ++it)` collecting, instead of `*it`,
the position of the cell `_it->cell` of each node visited. -/
def iterate_cells_loop (m : HashMap K V) : Nat → Option Nat → Except Error (List Nat)
  | _, none => Except.ok []
  | 0, some _ => Except.error Error.no_return
  | fuel + 1, some a => do
    let n ← readPtr m.nodes (some a)
    let rest ← iterate_cells_loop m fuel n.next
    pure (n.cell :: rest)

/-- The positions of the cells in the order a full iteration from `begin()` to `end()`
visits them. -/
def iterate_cells (m : HashMap K V) : Except Error (List Nat) :=
  iterate_cells_loop m m.nodes.length m._ptr

end HashMap

/-! ## Representation invariants -/

/-- The occupancy tags of the slot array, in array order. -/
def tags {K V : Type} (data : List (Cell K V)) : List State := data.map (fun c => c.validation)

/-- The `ptr` members of the slot array, in array order. -/
def links {K V : Type} (data : List (Cell K V)) : List (Option Nat) := data.map (fun c => c.ptr)

/-- On the store `nodes`, following `next` from `cur` visits exactly the nodes `L` and
arrives at `last`; the `previous` of every node is the node visited before it (`prev` for
the first one). -/
def Chain (nodes : List (Option Ptr)) : Option Nat → Option Nat → List Nat → Option Nat → Prop
  | _, cur, [], last => cur = last
  | prev, cur, a :: L, last =>
    cur = some a ∧ ∃ n, nodes[a]? = some (some n) ∧ n.previous = prev ∧
      Chain nodes (some a) n.next L last

/-- The enumeration list of `m` consists of the nodes `L`, one for each `FULL` cell, and
cell and node point at each other. -/
structure Linked {K V : Type} (m : HashMap K V) (L : List Nat) : Prop where
  chain : Chain m.nodes none m._ptr L none
  nodup : L.Nodup
  back : ∀ a ∈ L, ∃ n : Ptr, m.nodes[a]? = some (some n) ∧ (links m._data)[n.cell]? = some (some a)
  full : ∀ p : Nat, (tags m._data)[p]? = some State.FULL →
    ∃ (a : Nat) (n : Ptr), (links m._data)[p]? = some (some a) ∧ a ∈ L ∧ m.nodes[a]? = some (some n) ∧ n.cell = p
  free : ∀ (p : Nat) (t : State), (tags m._data)[p]? = some t → t ≠ State.FULL → (links m._data)[p]? = some none

/-- The part of the invariant that only concerns tags, links, counters and the list. -/
structure WFList {K V : Type} (m : HashMap K V) : Prop where
  len : m._data.length = m._capacity
  added : m._added = (tags m._data).count State.FULL
  deleted : m._deleted = (tags m._data).count State.DELETED
  linked : ∃ L, Linked m L

/-- The cell at `p` exists and is not `EMPTY`. -/
def NonEmptyAt {K V : Type} (data : List (Cell K V)) (p : Nat) : Prop :=
  ∃ c : Cell K V, data[p]? = some c ∧ c.validation ≠ State.EMPTY

/-- Position `p` is reached from the ideal position of `hash` by a probe that meets no
`EMPTY` cell before `p`. -/
def Path {K V : Type} (data : List (Cell K V)) (capacity hash p : Nat) : Prop :=
  ∃ n, (hash % capacity + n) % capacity = p ∧
    ∀ j, j < n → NonEmptyAt data ((hash % capacity + j) % capacity)

/-- The part of the invariant that concerns the stored entries: cached hashes are the hashes
of the keys, every entry is reachable by a probe from its ideal position, keys are unique. -/
structure WFContent {K V : Type} (hasher : K → Nat) (m : HashMap K V) : Prop where
  hash_ok : ∀ (p : Nat) (c : Cell K V), m._data[p]? = some c → c.validation = State.FULL →
    c.hash = hashOf hasher c.element.1
  probe : ∀ (p : Nat) (c : Cell K V), m._data[p]? = some c → c.validation = State.FULL →
    Path m._data m._capacity c.hash p
  uniq : ∀ (p q : Nat) (cp cq : Cell K V), m._data[p]? = some cp → m._data[q]? = some cq →
    cp.validation = State.FULL → cq.validation = State.FULL →
    cp.element.1 = cq.element.1 → p = q

/-- The representation invariant of the table. -/
structure WF {K V : Type} (hasher : K → Nat) (m : HashMap K V) : Prop where
  list : WFList m
  content : WFContent hasher m
  cap : 4 ≤ m._capacity
  load : 4 * (m._added + m._deleted) < 3 * m._capacity + 4

/-- The pair `e` is held by a `FULL` cell of `m`. -/
def Stored {K V : Type} (m : HashMap K V) (e : K × V) : Prop :=
  ∃ (p : Nat) (c : Cell K V), m._data[p]? = some c ∧ c.validation = State.FULL ∧ c.element = e

/-- The key `k` is held by a `FULL` cell of `m`. -/
def HasKey {K V : Type} (m : HashMap K V) (k : K) : Prop :=
  ∃ v, Stored m (k, v)

/-- The tables obtained from the default constructor by `insert`, `erase`, `operator[]`
and `clear`. -/
inductive Reachable {K V : Type} [DecidableEq K] [Inhabited K] [Inhabited V] (hasher : K → Nat) :
    HashMap K V → Prop
  | construct (m : HashMap K V) : HashMap.construct K V = Except.ok m → Reachable hasher m
  | insert (m m1 : HashMap K V) (e : K × V) :
    Reachable hasher m → HashMap.insert hasher m e = Except.ok m1 → Reachable hasher m1
  | erase (m m1 : HashMap K V) (k : K) :
    Reachable hasher m → HashMap.erase hasher m k = Except.ok m1 → Reachable hasher m1
  | operator_brackets (m m1 : HashMap K V) (k : K) (v : V) :
    Reachable hasher m → HashMap.operator_brackets hasher m k = Except.ok (v, m1) →
    Reachable hasher m1
  | clear (m m1 : HashMap K V) :
    Reachable hasher m → HashMap.clear m = Except.ok m1 → Reachable hasher m1

/-- The state of the loop of `find_place_` at position `pos`: the table is well formed, and
the entry `e` being carried is not in it, has cached hash `hash`, and has met no `EMPTY`
cell between its ideal position and `pos`. -/
structure Candidate {K V : Type} (hasher : K → Nat) (m : HashMap K V) (hash : Nat) (e : K × V)
    (pos : Nat) : Prop where
  list : WFList m
  content : WFContent hasher m
  cap : 0 < m._capacity
  hash_eq : hash = hashOf hasher e.1
  fresh : ¬ HasKey m e.1
  path : Path m._data m._capacity hash pos

/-- What one round of the loop of `clear` (`reset = true`) or of `_deletePtrs`
(`reset = false`) leaves in the cell of the node it releases. -/
def released {K V : Type} (reset : Bool) (c : Cell K V) : Cell K V :=
  { (if reset then { c with validation := State.EMPTY } else c) with ptr := none }

/-- The invariant of the loop of `resize_` before iteration `i`: the new table `m` is well
formed, has no `DELETED` cell and holds exactly the entries of the `FULL` cells of the
previous array `old` below index `i`. -/
structure Reinserted {K V : Type} (hasher : K → Nat) (old : List (Cell K V)) (i : Nat)
    (m : HashMap K V) : Prop where
  list : WFList m
  content : WFContent hasher m
  deleted : m._deleted = 0
  added : m._added = ((tags old).take i).count State.FULL
  stored : ∀ e : K × V, Stored m e ↔
    ∃ (p : Nat) (c : Cell K V), p < i ∧ old[p]? = some c ∧ c.validation = State.FULL ∧ c.element = e

/-- The last node of the list segment `L`, or `prev` when the segment is empty. -/
def lastOr : List Nat → Option Nat → Option Nat
  | [], prev => prev
  | a :: L, _ => lastOr L (some a)

/-- The node at address `a` of `m` points at a cell that holds the pair `e`. -/
def EntryAt {K V : Type} (m : HashMap K V) (a : Nat) (e : K × V) : Prop :=
  ∃ (n : Ptr) (c : Cell K V), m.nodes[a]? = some (some n) ∧ m._data[n.cell]? = some c ∧
    c.element = e

/-! ## Concrete tables over `Nat` keys with the identity hasher -/

/-- The table `HashMap<Nat, Nat>()`. -/
def exEmpty : HashMap Nat Nat :=
  { _capacity := 128, _added := 0, _deleted := 0,
    _data := List.replicate 128 (Cell.fresh Nat Nat), _ptr := none, nodes := [] }

/-- The table after `insert({1, 10})` on `exEmpty`. -/
def exOne : HashMap Nat Nat :=
  { _capacity := 128, _added := 1, _deleted := 0,
    _data := (List.replicate 128 (Cell.fresh Nat Nat)).set 1
      { element := (1, 10), hash := 1, validation := State.FULL, ptr := some 0 },
    _ptr := some 0, nodes := [some { cell := 1, next := none, previous := none }] }

/-- The table after `erase(1)` on `exOne`. -/
def exErased : HashMap Nat Nat :=
  { _capacity := 128, _added := 0, _deleted := 1,
    _data := (List.replicate 128 (Cell.fresh Nat Nat)).set 1
      { element := (1, 10), hash := 1, validation := State.DELETED, ptr := none },
    _ptr := none, nodes := [none] }

/-- The table after `insert({2, 20})` on `exOne`. -/
def exTwo : HashMap Nat Nat :=
  { _capacity := 128, _added := 2, _deleted := 0,
    _data := ((List.replicate 128 (Cell.fresh Nat Nat)).set 1
      { element := (1, 10), hash := 1, validation := State.FULL, ptr := some 0 }).set 2
      { element := (2, 20), hash := 2, validation := State.FULL, ptr := some 1 },
    _ptr := some 1,
    nodes := [some { cell := 1, next := none, previous := some 1 },
      some { cell := 2, next := some 0, previous := none }] }

/-- The table after `insert({3, 30})` on `exTwo`. -/
def exThree : HashMap Nat Nat :=
  { _capacity := 128, _added := 3, _deleted := 0,
    _data := (((List.replicate 128 (Cell.fresh Nat Nat)).set 1
      { element := (1, 10), hash := 1, validation := State.FULL, ptr := some 0 }).set 2
      { element := (2, 20), hash := 2, validation := State.FULL, ptr := some 1 }).set 3
      { element := (3, 30), hash := 3, validation := State.FULL, ptr := some 2 },
    _ptr := some 2,
    nodes := [some { cell := 1, next := none, previous := some 1 },
      some { cell := 2, next := some 0, previous := some 2 },
      some { cell := 3, next := some 1, previous := none }] }

/-- The table after `resize_(2)` on `exTwo`, which is what `exTwo = exSevenErased` runs. -/
def exTwoResized : HashMap Nat Nat :=
  { _capacity := 2, _added := 2, _deleted := 0,
    _data := [{ element := (2, 20), hash := 2, validation := State.FULL, ptr := some 3 },
      { element := (1, 10), hash := 1, validation := State.FULL, ptr := some 2 }],
    _ptr := some 3,
    nodes := [none, none, some { cell := 1, next := none, previous := some 3 },
      some { cell := 0, next := some 2, previous := none }] }

/-- The table `HashMap<Nat, Nat>({{7, 70}})`, built with the fixed-list constructor. -/
def exSeven : HashMap Nat Nat :=
  { _capacity := 2, _added := 1, _deleted := 0,
    _data := [Cell.fresh Nat Nat,
      { element := (7, 70), hash := 7, validation := State.FULL, ptr := some 0 }],
    _ptr := some 0, nodes := [some { cell := 1, next := none, previous := none }] }

/-- The table after `erase(7)` on `exSeven`: it is empty and has capacity 2. -/
def exSevenErased : HashMap Nat Nat :=
  { _capacity := 2, _added := 0, _deleted := 1,
    _data := [Cell.fresh Nat Nat,
      { element := (7, 70), hash := 7, validation := State.DELETED, ptr := none }],
    _ptr := none, nodes := [none] }

/-- The invariant of a table of any capacity: the list and content invariants, and a cell
that is still `EMPTY`. -/
structure WFRoom {K V : Type} (hasher : K → Nat) (m : HashMap K V) : Prop where
  list : WFList m
  content : WFContent hasher m
  room : m._added + m._deleted < m._capacity

/-- The table `HashMap<Nat, Nat>({{1, 10}})`, built with the fixed-list constructor. -/
def exList : HashMap Nat Nat :=
  { _capacity := 2, _added := 1, _deleted := 0,
    _data := [Cell.fresh Nat Nat,
      { element := (1, 10), hash := 1, validation := State.FULL, ptr := some 0 }],
    _ptr := some 0, nodes := [some { cell := 1, next := none, previous := none }] }

/-- The table after `insert({3, 30})` on `exList`. -/
def exListFull : HashMap Nat Nat :=
  { _capacity := 2, _added := 2, _deleted := 0,
    _data := [{ element := (3, 30), hash := 3, validation := State.FULL, ptr := some 1 },
      { element := (1, 10), hash := 1, validation := State.FULL, ptr := some 0 }],
    _ptr := some 1,
    nodes := [some { cell := 1, next := none, previous := some 1 },
      some { cell := 0, next := some 0, previous := none }] }

/-- The table `exOne` after the assignment `= exEmpty`. -/
def exAssigned : HashMap Nat Nat :=
  { _capacity := 128, _added := 1, _deleted := 0,
    _data := (List.replicate 128 (Cell.fresh Nat Nat)).set 1
      { element := (1, 10), hash := 1, validation := State.FULL, ptr := some 1 },
    _ptr := some 1, nodes := [none, some { cell := 1, next := none, previous := none }] }

/-- The table `exOne` after the assignment of a second table with the state of `exOne`. -/
def exAssignedTwice : HashMap Nat Nat :=
  { _capacity := 128, _added := 2, _deleted := 0,
    _data := ((List.replicate 128 (Cell.fresh Nat Nat)).set 1
      { element := (1, 10), hash := 1, validation := State.FULL, ptr := some 1 }).set 2
      { element := (1, 10), hash := 1, validation := State.FULL, ptr := some 2 },
    _ptr := some 2,
    nodes := [none, some { cell := 1, next := none, previous := some 2 },
      some { cell := 2, next := some 1, previous := none }] }

/-- The table after `insert({2, 20})` on the default-constructed table (identity hasher). -/
def exOnlyTwo : HashMap Nat Nat :=
  { _capacity := 128, _added := 1, _deleted := 0,
    _data := (List.replicate 128 (Cell.fresh Nat Nat)).set 2
      { element := (2, 20), hash := 2, validation := State.FULL, ptr := some 0 },
    _ptr := some 0,
    nodes := [some { cell := 2, next := none, previous := none }] }

/-- The table after `insert({1, 10})` on `exOnlyTwo`. -/
def exPair : HashMap Nat Nat :=
  { _capacity := 128, _added := 2, _deleted := 0,
    _data := ((List.replicate 128 (Cell.fresh Nat Nat)).set 2
      { element := (2, 20), hash := 2, validation := State.FULL, ptr := some 0 }).set 1
      { element := (1, 10), hash := 1, validation := State.FULL, ptr := some 1 },
    _ptr := some 1,
    nodes := [some { cell := 2, next := none, previous := some 1 },
      some { cell := 1, next := some 0, previous := none }] }

/-- The table after `insert({129, 7})` on `exPair`: the candidate passes cell 1, is swapped
into cell 2, and the displaced entry `(2, 20)` is placed in cell 3. -/
def exPairSwapped : HashMap Nat Nat :=
  { _capacity := 128, _added := 3, _deleted := 0,
    _data := (((List.replicate 128 (Cell.fresh Nat Nat)).set 2
      { element := (129, 7), hash := 129, validation := State.FULL, ptr := some 0 }).set 1
      { element := (1, 10), hash := 1, validation := State.FULL, ptr := some 1 }).set 3
      { element := (2, 20), hash := 2, validation := State.FULL, ptr := some 2 },
    _ptr := some 2,
    nodes := [some { cell := 2, next := none, previous := some 1 },
      some { cell := 1, next := some 0, previous := some 2 },
      some { cell := 3, next := some 1, previous := none }] }

/-- The tables obtained from the default constructor by `insert` and `operator[]` only. -/
inductive InsertOnly {K V : Type} [DecidableEq K] [Inhabited K] [Inhabited V] (hasher : K → Nat) :
    HashMap K V → Prop
  | construct (m : HashMap K V) : HashMap.construct K V = Except.ok m → InsertOnly hasher m
  | insert (m m1 : HashMap K V) (e : K × V) :
    InsertOnly hasher m → HashMap.insert hasher m e = Except.ok m1 → InsertOnly hasher m1
  | operator_brackets (m m1 : HashMap K V) (k : K) (v : V) :
    InsertOnly hasher m → HashMap.operator_brackets hasher m k = Except.ok (v, m1) →
    InsertOnly hasher m1

/-- The robin-hood ordering of the array: a `FULL` cell, at the position after `q`, for
which `get_delta_` returns `d > 0` comes after a `FULL` cell, at `q`, for which
`get_delta_` returns at least `d - 1`. -/
def RobinHood {K V : Type} (m : HashMap K V) : Prop :=
  ∀ (q : Nat) (c : Cell K V) (d : Nat), q < m._capacity →
    m._data[(q + 1) % m._capacity]? = some c → c.validation = State.FULL →
    m.get_delta_ c.hash ((q + 1) % m._capacity) = Except.ok d → 0 < d →
    ∃ (c1 : Cell K V) (d1 : Nat), m._data[q]? = some c1 ∧ c1.validation = State.FULL ∧
      m.get_delta_ c1.hash q = Except.ok d1 ∧ d ≤ d1 + 1

/-- The entry with cached hash `hash` that the loop of `find_place_` carries to `pos` would
keep the robin-hood ordering if it were written there. -/
def Pushed {K V : Type} (m : HashMap K V) (hash pos : Nat) : Prop :=
  ∀ d : Nat, m.get_delta_ hash pos = Except.ok d → 0 < d →
    ∃ (q : Nat) (c1 : Cell K V) (d1 : Nat), q < m._capacity ∧ (q + 1) % m._capacity = pos ∧
      m._data[q]? = some c1 ∧ c1.validation = State.FULL ∧
      m.get_delta_ c1.hash q = Except.ok d1 ∧ d ≤ d1 + 1

/-- The table after `insert({129, 7})` on `exOne`: the new entry is pushed one cell on. -/
def exChainTwo : HashMap Nat Nat :=
  { _capacity := 128, _added := 2, _deleted := 0,
    _data := ((List.replicate 128 (Cell.fresh Nat Nat)).set 1
      { element := (1, 10), hash := 1, validation := State.FULL, ptr := some 0 }).set 2
      { element := (129, 7), hash := 129, validation := State.FULL, ptr := some 1 },
    _ptr := some 1,
    nodes := [some { cell := 1, next := none, previous := some 1 },
      some { cell := 2, next := some 0, previous := none }] }

/-- The table after `insert({257, 9})` on `exChainTwo`: the new entry is pushed two cells
on. -/
def exChainThree : HashMap Nat Nat :=
  { _capacity := 128, _added := 3, _deleted := 0,
    _data := (((List.replicate 128 (Cell.fresh Nat Nat)).set 1
      { element := (1, 10), hash := 1, validation := State.FULL, ptr := some 0 }).set 2
      { element := (129, 7), hash := 129, validation := State.FULL, ptr := some 1 }).set 3
      { element := (257, 9), hash := 257, validation := State.FULL, ptr := some 2 },
    _ptr := some 2,
    nodes := [some { cell := 1, next := none, previous := some 1 },
      some { cell := 2, next := some 0, previous := some 2 },
      some { cell := 3, next := some 1, previous := none }] }

open HashMap

variable {K V : Type}

/-! ## Basic facts -/

theorem ok_bind {ε α β : Type} (a : α) (f : α → Except ε β) :
    (Except.ok a >>= f) = f a := rfl

theorem error_bind {ε α β : Type} (e : ε) (f : α → Except ε β) :
    (Except.error e >>= f) = Except.error e := rfl

theorem readCell_eq_ok {K V : Type} {data : List (Cell K V)} {p : Nat} {c : Cell K V}
    (h : data[p]? = some c) : readCell data p = Except.ok c := by
  simp [readCell, h]

theorem readPtr_eq_ok {nodes : List (Option Ptr)} {a : Nat} {n : Ptr}
    (h : nodes[a]? = some (some n)) : readPtr nodes (some a) = Except.ok n := by
  simp [readPtr, h]

theorem count_tags_total (ts : List State) :
    ts.count State.FULL + ts.count State.DELETED + ts.count State.EMPTY = ts.length := by
  induction ts with
  | nil => simp
  | cons t ts ih =>
    cases t <;> simp [List.count_cons] <;> omega

theorem exists_EMPTY_of_count (data : List (Cell K V))
    (h : (tags data).count State.FULL + (tags data).count State.DELETED < data.length) :
    ∃ (p : Nat) (c : Cell K V), data[p]? = some c ∧ c.validation = State.EMPTY := by
  have h1 := count_tags_total (tags data)
  have h2 : (tags data).length = data.length := by simp [tags]
  have h3 : 0 < (tags data).count State.EMPTY := by omega
  rw [List.count_pos_iff, List.mem_iff_getElem?] at h3
  obtain ⟨p, hp⟩ := h3
  simp only [tags, List.getElem?_map, Option.map_eq_some'] at hp
  obtain ⟨c, hc, hv⟩ := hp
  exact ⟨p, c, hc, hv⟩

theorem mod_cover (cap a e : Nat) (ha : a < cap) (he : e < cap) :
    ∃ j, j < cap ∧ (a + j) % cap = e := by
  by_cases h : a ≤ e
  · exact ⟨e - a, by omega, by rw [show a + (e - a) = e by omega]; exact Nat.mod_eq_of_lt he⟩
  · refine ⟨e + cap - a, by omega, ?_⟩
    rw [show a + (e + cap - a) = e + cap by omega, Nat.add_mod_right]
    exact Nat.mod_eq_of_lt he

/-- A predicate that holds somewhere holds at a first index. -/
theorem exists_first (P : Nat → Prop) (n : Nat) (h : P n) :
    ∃ k, k ≤ n ∧ P k ∧ ∀ i, i < k → ¬ P i := by
  classical
  exact ⟨Nat.find ⟨n, h⟩, Nat.find_min' ⟨n, h⟩ h, Nat.find_spec ⟨n, h⟩,
    fun i hi => Nat.find_min ⟨n, h⟩ hi⟩

/-- The lookup loop, started `n` probes before the first cell that is `EMPTY` or holds
`key`, returns what it sees at that cell. -/
theorem find_element_loop_spec [DecidableEq K] (m : HashMap K V) (key : K) (r : Bool × Nat) :
    ∀ (n s fuel : Nat), n < fuel →
    (∀ i, i < n → ∃ c : Cell K V, m._data[(s + i) % m._capacity]? = some c ∧
      c.validation ≠ State.EMPTY ∧ ¬ (c.validation = State.FULL ∧ c.element.1 = key)) →
    (∃ c : Cell K V, m._data[(s + n) % m._capacity]? = some c ∧
      ((c.validation = State.EMPTY ∧ r = (false, (s + n) % m._capacity)) ∨
       (c.validation = State.FULL ∧ c.element.1 = key ∧ r = (true, (s + n) % m._capacity)))) →
    find_element_loop m key fuel (s % m._capacity) = Except.ok r := by
  intro n
  induction n with
  | zero =>
    intro s fuel hf _ hstop
    obtain ⟨c, hc, hr⟩ := hstop
    obtain ⟨f, rfl⟩ : ∃ f, fuel = f + 1 := ⟨fuel - 1, by omega⟩
    simp only [Nat.add_zero] at hc hr
    rcases hr with ⟨hv, rfl⟩ | ⟨hv, hk, rfl⟩
    · simp [find_element_loop, readCell_eq_ok hc, ok_bind, hv, pure, Except.pure]
    · simp [find_element_loop, readCell_eq_ok hc, ok_bind, hv, hk, pure, Except.pure]
  | succ n ih =>
    intro s fuel hf hpass hstop
    obtain ⟨f, rfl⟩ : ∃ f, fuel = f + 1 := ⟨fuel - 1, by omega⟩
    obtain ⟨c, hc, hne, hnk⟩ := hpass 0 (by omega)
    simp only [Nat.add_zero] at hc
    have hrec : find_element_loop m key f ((s + 1) % m._capacity) = Except.ok r := by
      apply ih (s + 1) f (by omega)
      · intro i hi
        have := hpass (i + 1) (by omega)
        rwa [show s + (i + 1) = s + 1 + i by omega] at this
      · rwa [show s + (n + 1) = s + 1 + n by omega] at hstop
    cases hv : c.validation with
    | EMPTY => exact absurd hv hne
    | DELETED =>
      simp [find_element_loop, readCell_eq_ok hc, ok_bind, hv, hrec]
    | FULL =>
      have hk : ¬ c.element.1 = key := fun hk => hnk ⟨hv, hk⟩
      simp [find_element_loop, readCell_eq_ok hc, ok_bind, hv, hk, hrec]

theorem WF.cap_pos {hasher : K → Nat} {m : HashMap K V} (h : WF hasher m) : 0 < m._capacity := by
  have := h.cap
  omega

theorem WF.exists_EMPTY {hasher : K → Nat} {m : HashMap K V} (h : WF hasher m) :
    ∃ (p : Nat) (c : Cell K V), m._data[p]? = some c ∧ c.validation = State.EMPTY := by
  apply exists_EMPTY_of_count
  have h1 := h.list.added
  have h2 := h.list.deleted
  have h3 := h.list.len
  have h4 := h.load
  have h5 := h.cap
  omega

theorem lt_of_getElem?_eq_some {α : Type} {l : List α} {p : Nat} {a : α} (h : l[p]? = some a) :
    p < l.length := by
  rcases List.getElem?_eq_some.1 h with ⟨hp, _⟩
  exact hp

theorem exists_cell_of_lt (data : List (Cell K V)) (p : Nat) (h : p < data.length) :
    ∃ c : Cell K V, data[p]? = some c :=
  ⟨data[p], List.getElem?_eq_some.2 ⟨h, rfl⟩⟩

/-- A probe path in a table that has an `EMPTY` cell is shorter than the capacity. -/
theorem path_length_lt {data : List (Cell K V)} {cap h n : Nat} (hlen : data.length = cap)
    (hE : ∃ (p : Nat) (c : Cell K V), data[p]? = some c ∧ c.validation = State.EMPTY)
    (hpath : ∀ j, j < n → NonEmptyAt data ((h % cap + j) % cap)) : n < cap := by
  obtain ⟨e, ce, hce, hve⟩ := hE
  have he : e < cap := hlen ▸ lt_of_getElem?_eq_some hce
  have hcap : 0 < cap := by omega
  by_contra hn
  obtain ⟨j, hj, hje⟩ := mod_cover cap (h % cap) e (Nat.mod_lt _ hcap) he
  obtain ⟨c, hc, hv⟩ := hpath j (by omega)
  rw [hje, hce] at hc
  cases hc
  exact hv hve

/-! ## Lookup in a table of any capacity that has an `EMPTY` cell -/

theorem WF.to_room {hasher : K → Nat} {m : HashMap K V} (h : WF hasher m) : WFRoom hasher m := by
  refine ⟨h.list, h.content, ?_⟩
  have h1 := h.load
  have h2 := h.cap
  omega

theorem WFRoom.capacity_pos {hasher : K → Nat} {m : HashMap K V} (h : WFRoom hasher m) :
    0 < m._capacity := by
  have := h.room
  omega

theorem WFRoom.has_EMPTY {hasher : K → Nat} {m : HashMap K V} (h : WFRoom hasher m) :
    ∃ (p : Nat) (c : Cell K V), m._data[p]? = some c ∧ c.validation = State.EMPTY := by
  apply exists_EMPTY_of_count
  have h1 := h.list.added
  have h2 := h.list.deleted
  have h3 := h.list.len
  have h4 := h.room
  omega


/-- In a table with an `EMPTY` cell, lookup of a stored key returns the position of the cell that holds it. -/
theorem find_element_present_room [DecidableEq K] {hasher : K → Nat} {m : HashMap K V}
    (hwf : WFRoom hasher m) {p : Nat} {c : Cell K V} (hc : m._data[p]? = some c)
    (hv : c.validation = State.FULL) :
    find_element_with_hash_ m c.element.1 (hashOf hasher c.element.1) = Except.ok (true, p) := by
  have hcap := hwf.capacity_pos
  have hh := hwf.content.hash_ok p c hc hv
  obtain ⟨n, hn, hpath⟩ := hwf.content.probe p c hc hv
  rw [hh] at hn hpath
  have hnlt := path_length_lt hwf.list.len hwf.has_EMPTY hpath
  generalize hashOf hasher c.element.1 = h at hn hpath
  obtain ⟨k, hk, hPk, hmin⟩ := exists_first
    (fun i => ∃ c' : Cell K V, m._data[(h % m._capacity + i) % m._capacity]? = some c' ∧
      (c'.validation = State.EMPTY ∨ (c'.validation = State.FULL ∧ c'.element.1 = c.element.1)))
    n ⟨c, by rw [hn]; exact hc, Or.inr ⟨hv, rfl⟩⟩
  obtain ⟨c', hc', hstop⟩ := hPk
  have hkey : c'.validation = State.FULL ∧ c'.element.1 = c.element.1 := by
    rcases hstop with hE | hF
    · exfalso
      rcases Nat.lt_or_eq_of_le hk with hlt | heq
      · obtain ⟨c2, hc2, hv2⟩ := hpath k hlt
        rw [hc'] at hc2
        cases hc2
        exact hv2 hE
      · rw [heq, hn, hc] at hc'
        cases hc'
        rw [hv] at hE
        cases hE
    · exact hF
  have hpos : (h % m._capacity + k) % m._capacity = p :=
    hwf.content.uniq _ _ c' c hc' hc hkey.1 hv hkey.2
  have hloop := find_element_loop_spec m c.element.1 (true, p) k (h % m._capacity) m._capacity
    (by omega)
    (by
      intro i hi
      obtain ⟨c2, hc2, hv2⟩ := hpath i (by omega)
      exact ⟨c2, hc2, hv2, fun hF => hmin i hi ⟨c2, hc2, Or.inr hF⟩⟩)
    ⟨c', hc', Or.inr ⟨hkey.1, hkey.2, by rw [hpos]⟩⟩
  rw [Nat.mod_mod] at hloop
  simp [find_element_with_hash_, Nat.pos_iff_ne_zero.1 hcap, hloop]

/-- In a table with an `EMPTY` cell, lookup of a key that is not stored stops at an `EMPTY` cell. -/
theorem find_element_absent_room [DecidableEq K] {hasher : K → Nat} {m : HashMap K V}
    (hwf : WFRoom hasher m) (key : K) (hash : Nat) (habs : ¬ HasKey m key) :
    ∃ (q : Nat) (c : Cell K V), find_element_with_hash_ m key hash = Except.ok (false, q) ∧
      m._data[q]? = some c ∧ c.validation = State.EMPTY := by
  have hcap := hwf.capacity_pos
  obtain ⟨e, ce, hce, hve⟩ := hwf.has_EMPTY
  have he : e < m._capacity := hwf.list.len ▸ lt_of_getElem?_eq_some hce
  obtain ⟨j, hj, hje⟩ := mod_cover m._capacity (hash % m._capacity) e (Nat.mod_lt _ hcap) he
  obtain ⟨k, hk, hPk, hmin⟩ := exists_first
    (fun i => ∃ c' : Cell K V, m._data[(hash % m._capacity + i) % m._capacity]? = some c' ∧
      (c'.validation = State.EMPTY ∨ (c'.validation = State.FULL ∧ c'.element.1 = key)))
    j ⟨ce, by rw [hje]; exact hce, Or.inl hve⟩
  obtain ⟨c', hc', hstop⟩ := hPk
  have hE : c'.validation = State.EMPTY := by
    rcases hstop with hE | hF
    · exact hE
    · exact absurd ⟨c'.element.2, _, c', hc', hF.1, by rw [← hF.2]⟩ habs
  have hloop := find_element_loop_spec m key (false, (hash % m._capacity + k) % m._capacity) k
    (hash % m._capacity) m._capacity (by omega)
    (by
      intro i hi
      obtain ⟨c2, hc2⟩ := exists_cell_of_lt m._data ((hash % m._capacity + i) % m._capacity)
        (by rw [hwf.list.len]; exact Nat.mod_lt _ hcap)
      refine ⟨c2, hc2, fun hE2 => hmin i hi ⟨c2, hc2, Or.inl hE2⟩,
        fun hF => hmin i hi ⟨c2, hc2, Or.inr hF⟩⟩)
    ⟨c', hc', Or.inl ⟨hE, rfl⟩⟩
  rw [Nat.mod_mod] at hloop
  refine ⟨_, c', ?_, hc', hE⟩
  simp [find_element_with_hash_, Nat.pos_iff_ne_zero.1 hcap, hloop]

/-- Lookup of a stored key returns the position of the cell that holds it. -/
theorem find_element_present [DecidableEq K] {hasher : K → Nat} {m : HashMap K V}
    (hwf : WF hasher m) {p : Nat} {c : Cell K V} (hc : m._data[p]? = some c)
    (hv : c.validation = State.FULL) :
    find_element_with_hash_ m c.element.1 (hashOf hasher c.element.1) = Except.ok (true, p) :=
  find_element_present_room hwf.to_room hc hv

/-- Lookup of a key that is not stored stops at an `EMPTY` cell. -/
theorem find_element_absent [DecidableEq K] {hasher : K → Nat} {m : HashMap K V}
    (hwf : WF hasher m) (key : K) (hash : Nat) (habs : ¬ HasKey m key) :
    ∃ (q : Nat) (c : Cell K V), find_element_with_hash_ m key hash = Except.ok (false, q) ∧
      m._data[q]? = some c ∧ c.validation = State.EMPTY :=
  find_element_absent_room hwf.to_room key hash habs

/-! ## Lists of tags and chains of nodes -/

theorem set_eq_self {α : Type} (l : List α) (p : Nat) (x : α) (h : l[p]? = some x) :
    l.set p x = l := by
  induction l generalizing p with
  | nil => simp
  | cons y l ih =>
    cases p with
    | zero =>
      simp at h
      simp [h]
    | succ p =>
      simp at h
      simp [ih p h]

theorem count_set (ts : List State) (q : Nat) (t t1 s : State) (h : ts[q]? = some t) :
    (ts.set q t1).count s + (if t = s then 1 else 0) =
      ts.count s + (if t1 = s then 1 else 0) := by
  induction ts generalizing q with
  | nil => simp at h
  | cons y ts ih =>
    cases q with
    | zero =>
      simp at h
      subst h
      simp only [List.set_cons_zero, List.count_cons, beq_iff_eq]
      omega
    | succ q =>
      simp at h
      have := ih q h
      simp only [List.set_cons_succ, List.count_cons]
      omega

theorem tags_set (data : List (Cell K V)) (q : Nat) (c : Cell K V) :
    tags (data.set q c) = (tags data).set q c.validation := by
  simp [tags]

theorem links_set (data : List (Cell K V)) (q : Nat) (c : Cell K V) :
    links (data.set q c) = (links data).set q c.ptr := by
  simp [links]

theorem tags_getElem? (data : List (Cell K V)) (p : Nat) :
    (tags data)[p]? = (data[p]?).map (fun c => c.validation) := by
  simp [tags]

theorem links_getElem? (data : List (Cell K V)) (p : Nat) :
    (links data)[p]? = (data[p]?).map (fun c => c.ptr) := by
  simp [links]

/-- Overwriting a cell without touching its tag and link changes neither list. -/
theorem tags_links_set_same (data : List (Cell K V)) (p : Nat) (c c1 : Cell K V)
    (h : data[p]? = some c) (hv : c1.validation = c.validation) (hp : c1.ptr = c.ptr) :
    tags (data.set p c1) = tags data ∧ links (data.set p c1) = links data := by
  constructor
  · rw [tags_set, hv]
    exact set_eq_self _ _ _ (by rw [tags_getElem?, h]; rfl)
  · rw [links_set, hp]
    exact set_eq_self _ _ _ (by rw [links_getElem?, h]; rfl)

/-- A chain only depends on the nodes it visits. -/
theorem Chain.congr {nodes nodes1 : List (Option Ptr)} :
    ∀ (L : List Nat) (prev cur last : Option Nat),
      (∀ x, x ∈ L → nodes1[x]? = nodes[x]?) →
      Chain nodes prev cur L last → Chain nodes1 prev cur L last := by
  intro L
  induction L with
  | nil => intro prev cur last _ h; exact h
  | cons a L ih =>
    intro prev cur last hagree h
    obtain ⟨hcur, n, hn, hprev, hrest⟩ := h
    refine ⟨hcur, n, ?_, hprev, ih _ _ _ (fun x hx => hagree x (List.mem_cons_of_mem _ hx)) hrest⟩
    rw [hagree a (List.mem_cons_self _ _)]
    exact hn

/-- Every node of a chain is live. -/
theorem Chain.live {nodes : List (Option Ptr)} :
    ∀ (L : List Nat) (prev cur last : Option Nat), Chain nodes prev cur L last →
      ∀ x, x ∈ L → ∃ n : Ptr, nodes[x]? = some (some n) := by
  intro L
  induction L with
  | nil => intro _ _ _ _ x hx; cases hx
  | cons a L ih =>
    intro prev cur last h x hx
    obtain ⟨_, n, hn, _, hrest⟩ := h
    rcases List.mem_cons.1 hx with rfl | hx
    · exact ⟨n, hn⟩
    · exact ih _ _ _ hrest x hx

/-- The effect of `push_front_` on a well-formed list. -/
theorem push_front_spec (nodes : List (Option Ptr)) (head : Option Nat) (L : List Nat) (q : Nat)
    (hchain : Chain nodes none head L none) (hnd : L.Nodup) :
    ∃ nodes1 : List (Option Ptr),
      push_front_ nodes head q = Except.ok nodes1 ∧
      nodes1[nodes.length]? = some (some { cell := q, next := head, previous := none }) ∧
      (∀ x, x ∈ L → ∃ n n1 : Ptr, nodes[x]? = some (some n) ∧ nodes1[x]? = some (some n1) ∧
        n1.cell = n.cell ∧ n1.next = n.next) ∧
      Chain nodes1 (some nodes.length) head L none := by
  cases L with
  | nil =>
    have hh : head = none := hchain
    subst hh
    refine ⟨_, rfl, ?_, ?_, rfl⟩
    · simp
    · intro x hx; cases hx
  | cons h L =>
    obtain ⟨hcur, n, hn, hprev, hrest⟩ := hchain
    subst hcur
    have hlt : h < nodes.length := lt_of_getElem?_eq_some hn
    have hnotin : h ∉ L := (List.nodup_cons.1 hnd).1
    have hother : ∀ x, x ∈ L →
        (((nodes ++ [some ({ cell := q, next := none, previous := none } : Ptr)]).set nodes.length
          (some { cell := q, next := some h, previous := none })).set h
            (some { n with previous := some nodes.length }))[x]? = nodes[x]? := by
      intro x hx
      obtain ⟨nx, hnx⟩ := Chain.live _ _ _ _ hrest x hx
      have hxlt : x < nodes.length := lt_of_getElem?_eq_some hnx
      have hxh : h ≠ x := fun e => hnotin (e ▸ hx)
      rw [List.getElem?_set_ne hxh, List.getElem?_set_ne (by omega),
        List.getElem?_append_left hxlt]
    refine ⟨_, by simp only [push_front_, readPtr_eq_ok hn, ok_bind]; rfl, ?_, ?_, ?_⟩
    · rw [List.getElem?_set_ne (by omega), List.getElem?_set_self (by simp)]
    · intro x hx
      rcases List.mem_cons.1 hx with rfl | hx
      · exact ⟨n, { n with previous := some nodes.length }, hn,
          by rw [List.getElem?_set_self (by simp; omega)], rfl, rfl⟩
      · obtain ⟨nx, hnx⟩ := Chain.live _ _ _ _ hrest x hx
        exact ⟨nx, nx, hnx, (hother x hx).trans hnx, rfl, rfl⟩
    · refine ⟨rfl, { n with previous := some nodes.length },
        by rw [List.getElem?_set_self (by simp; omega)], rfl, ?_⟩
      exact Chain.congr L _ _ _ hother hrest

/-! ## `place_` on a free cell -/

theorem decr_of_pos {x : Nat} (h : 0 < x) : decr x = x - 1 := by
  simp [decr, Nat.pos_iff_ne_zero.1 h]

/-- The nodes of the list of `m` are addresses below the end of the store. -/
theorem Linked.lt_length {m : HashMap K V} {L : List Nat} (h : Linked m L) :
    ∀ x, x ∈ L → x < m.nodes.length := by
  intro x hx
  obtain ⟨n, hn⟩ := Chain.live _ _ _ _ h.chain x hx
  exact lt_of_getElem?_eq_some hn

/-- Writing a `FULL` cell at the free position `q` and pushing a node for it in front of
the list gives the list with that node in front. -/
theorem Linked.push_front {m m1 : HashMap K V} {q : Nat} {c c1 : Cell K V} {L : List Nat}
    (hL : Linked m L) (hc : m._data[q]? = some c) (hv : c.validation ≠ State.FULL)
    (hc1v : c1.validation = State.FULL) (hc1p : c1.ptr = some m.nodes.length)
    (hdata : m1._data = m._data.set q c1) (hptr : m1._ptr = some m.nodes.length)
    (hpush : push_front_ m.nodes m._ptr q = Except.ok m1.nodes) :
    Linked m1 (m.nodes.length :: L) := by
  have hqlt : q < m._data.length := lt_of_getElem?_eq_some hc
  have htag : (tags m._data)[q]? = some c.validation := by rw [tags_getElem?, hc]; rfl
  have hlink : (links m._data)[q]? = some none := hL.free q _ htag hv
  obtain ⟨nodes2, hpush2, hnew2, hold2, hchain2⟩ :=
    push_front_spec m.nodes m._ptr L q hL.chain hL.nodup
  rw [hpush] at hpush2
  cases hpush2
  have hcell_ne : ∀ x, x ∈ L → ∀ n : Ptr, m.nodes[x]? = some (some n) → n.cell ≠ q := by
    intro x hx n hn hcq
    obtain ⟨n2, hn2, hb⟩ := hL.back x hx
    rw [hn] at hn2
    cases hn2
    rw [hcq, hlink] at hb
    cases hb
  constructor
  · rw [hptr]
    exact ⟨rfl, _, hnew2, rfl, hchain2⟩
  · refine List.nodup_cons.2 ⟨fun hmem => ?_, hL.nodup⟩
    exact Nat.lt_irrefl _ (hL.lt_length _ hmem)
  · intro a ha
    rw [hdata]
    rcases List.mem_cons.1 ha with rfl | ha
    · refine ⟨_, hnew2, ?_⟩
      rw [links_set, List.getElem?_set_self (by simpa [links] using hqlt), hc1p]
    · obtain ⟨n, n1, hn, hn1, hcell, _⟩ := hold2 a ha
      obtain ⟨n2, hn2, hb⟩ := hL.back a ha
      rw [hn] at hn2
      cases hn2
      refine ⟨n1, hn1, ?_⟩
      rw [links_set, hcell, List.getElem?_set_ne (fun e => hcell_ne a ha n hn e.symm)]
      exact hb
  · intro p hp
    rw [hdata] at hp ⊢
    by_cases hpq : p = q
    · subst hpq
      refine ⟨m.nodes.length, _, ?_, List.mem_cons_self _ _, hnew2, rfl⟩
      rw [links_set, List.getElem?_set_self (by simpa [links] using hqlt), hc1p]
    · rw [tags_set, List.getElem?_set_ne (fun e => hpq e.symm)] at hp
      obtain ⟨a, n, hl, ha, hn, hcell⟩ := hL.full p hp
      obtain ⟨n0, n1, hn0, hn1, hcell1, _⟩ := hold2 a ha
      rw [hn] at hn0
      cases hn0
      refine ⟨a, n1, ?_, List.mem_cons_of_mem _ ha, hn1, hcell1.trans hcell⟩
      rw [links_set, List.getElem?_set_ne (fun e => hpq e.symm)]
      exact hl
  · intro p t hp ht
    rw [hdata] at hp ⊢
    by_cases hpq : p = q
    · subst hpq
      rw [tags_set, List.getElem?_set_self (by simpa [tags] using hqlt), hc1v] at hp
      cases hp
      exact absurd rfl ht
    · rw [tags_set, List.getElem?_set_ne (fun e => hpq e.symm)] at hp
      rw [links_set, List.getElem?_set_ne (fun e => hpq e.symm)]
      exact hL.free p t hp ht

/-- On a cell that is not `FULL`, `place_` writes the entry, adds a node for the cell in
front of the list and adjusts the counters. -/
theorem place_spec (m : HashMap K V) (hash q : Nat) (e : K × V) (c : Cell K V)
    (hwf : WFList m) (hc : m._data[q]? = some c) (hv : c.validation ≠ State.FULL) :
    ∃ m1 : HashMap K V, place_ m hash q e = Except.ok m1 ∧
      m1._capacity = m._capacity ∧ m1._added = m._added + 1 ∧
      (c.validation = State.EMPTY → m1._deleted = m._deleted) ∧
      (c.validation = State.DELETED → m1._deleted + 1 = m._deleted) ∧
      m1._data = m._data.set q
        { element := e, hash := hash, validation := State.FULL, ptr := some m.nodes.length } ∧
      WFList m1 ∧
      (∀ L, Linked m L → Linked m1 (m.nodes.length :: L)) := by
  obtain ⟨L0, hL0⟩ := hwf.linked
  have hqlt : q < m._data.length := lt_of_getElem?_eq_some hc
  have htag : (tags m._data)[q]? = some c.validation := by rw [tags_getElem?, hc]; rfl
  have hlink : (links m._data)[q]? = some none := hL0.free q _ htag hv
  have hcptr : c.ptr = none := by
    rw [links_getElem?, hc] at hlink
    simpa using hlink
  obtain ⟨nodes1, hpush, _, _, _⟩ :=
    push_front_spec m.nodes m._ptr L0 q hL0.chain hL0.nodup
  have hdel : 0 < m._deleted ∨ c.validation = State.EMPTY := by
    cases hcv : c.validation with
    | EMPTY => exact Or.inr rfl
    | FULL => exact absurd hcv hv
    | DELETED =>
      left
      rw [hwf.deleted, List.count_pos_iff, List.mem_iff_getElem?]
      exact ⟨q, by rw [htag, hcv]⟩
  have hplace : ∃ m1 : HashMap K V, place_ m hash q e = Except.ok m1 ∧
      m1._capacity = m._capacity ∧ m1._added = m._added + 1 ∧
      m1._deleted = (if c.validation = State.DELETED then m._deleted - 1 else m._deleted) ∧
      m1._data = m._data.set q
        { element := e, hash := hash, validation := State.FULL, ptr := some m.nodes.length } ∧
      m1._ptr = some m.nodes.length ∧ m1.nodes = nodes1 := by
    simp only [place_, readCell_eq_ok hc, ok_bind, hcptr, pure, Except.pure, hpush]
    cases hcv : c.validation with
    | EMPTY => exact ⟨_, rfl, rfl, rfl, rfl, rfl, rfl, rfl⟩
    | FULL => exact absurd hcv hv
    | DELETED =>
      rcases hdel with hpos | hE
      · exact ⟨_, rfl, rfl, rfl, by simp [decr_of_pos hpos], rfl, rfl, rfl⟩
      · rw [hE] at hcv
        cases hcv
  obtain ⟨m1, hm1, hcap, hadd, hdeleted, hdata, hptr, hnodes⟩ := hplace
  have hlinked : ∀ L, Linked m L → Linked m1 (m.nodes.length :: L) := fun L hL =>
    hL.push_front hc hv rfl rfl hdata hptr (by rw [hnodes]; exact hpush)
  refine ⟨m1, hm1, hcap, hadd, ?_, ?_, hdata, ?_, hlinked⟩
  · intro hE
    simp [hdeleted, hE]
  · intro hD
    rcases hdel with hpos | hE
    · simp only [hdeleted, hD, if_true]
      omega
    · rw [hE] at hD
      cases hD
  · constructor
    · rw [hdata, List.length_set, hcap]
      exact hwf.len
    · have := count_set (tags m._data) q c.validation State.FULL State.FULL htag
      rw [hdata, tags_set, hadd, hwf.added]
      dsimp only
      simp only [if_neg hv, if_true] at this
      omega
    · have := count_set (tags m._data) q c.validation State.FULL State.DELETED htag
      rw [hdata, tags_set, hdeleted]
      rcases hdel with hpos | hE
      · cases hcv : c.validation with
        | EMPTY => simp [hcv] at this ⊢; rw [this]; exact hwf.deleted
        | FULL => exact absurd hcv hv
        | DELETED =>
          simp [hcv] at this ⊢
          rw [hwf.deleted]
          omega
      · simp [hE] at this ⊢
        rw [this]
        exact hwf.deleted
    · exact ⟨_, hlinked L0 hL0⟩

/-! ## Writing the carried entry into a cell -/

theorem NonEmptyAt.after_set {data : List (Cell K V)} {p s : Nat} {c1 : Cell K V}
    (h : NonEmptyAt data p) (hv : c1.validation ≠ State.EMPTY) :
    NonEmptyAt (data.set s c1) p := by
  obtain ⟨c, hc, hne⟩ := h
  by_cases hsp : s = p
  · subst hsp
    exact ⟨c1, by rw [List.getElem?_set_self (lt_of_getElem?_eq_some hc)], hv⟩
  · exact ⟨c, by rw [List.getElem?_set_ne hsp]; exact hc, hne⟩

theorem Path.over_set {data : List (Cell K V)} {cap hash p s : Nat} {c1 : Cell K V}
    (h : Path data cap hash p) (hv : c1.validation ≠ State.EMPTY) :
    Path (data.set s c1) cap hash p := by
  obtain ⟨n, hn, hpath⟩ := h
  exact ⟨n, hn, fun j hj => (hpath j hj).after_set hv⟩

/-- A probe that has reached a cell which is not `EMPTY` reaches the next position. -/
theorem Path.advance {data : List (Cell K V)} {cap hash p : Nat} (h : Path data cap hash p)
    (hp : NonEmptyAt data p) : Path data cap hash ((p + 1) % cap) := by
  obtain ⟨n, hn, hpath⟩ := h
  refine ⟨n + 1, ?_, ?_⟩
  · rw [← hn, ← Nat.add_assoc, Nat.mod_add_mod]
  · intro j hj
    rcases Nat.lt_succ_iff_lt_or_eq.1 hj with hlt | rfl
    · exact hpath j hlt
    · rw [hn]
      exact hp

/-- The content invariant survives writing the carried entry over the cell at `s`. -/
theorem WFContent.write {hasher : K → Nat} {m m1 : HashMap K V} {hash s : Nat} {e : K × V}
    {c1 : Cell K V} (hwf : WFContent hasher m) (hh : hash = hashOf hasher e.1)
    (hfresh : ¬ HasKey m e.1) (hpath : Path m._data m._capacity hash s)
    (hs : s < m._data.length) (hcap : m1._capacity = m._capacity)
    (hdata : m1._data = m._data.set s c1) (hv : c1.validation = State.FULL)
    (hc1h : c1.hash = hash) (hc1e : c1.element = e) : WFContent hasher m1 := by
  have hne : c1.validation ≠ State.EMPTY := by rw [hv]; intro h; cases h
  have hget : ∀ (p : Nat) (c : Cell K V), m1._data[p]? = some c →
      (p = s ∧ c = c1) ∨ (p ≠ s ∧ m._data[p]? = some c) := by
    intro p c hc
    rw [hdata] at hc
    by_cases hps : p = s
    · subst hps
      rw [List.getElem?_set_self hs] at hc
      cases hc
      exact Or.inl ⟨rfl, rfl⟩
    · rw [List.getElem?_set_ne (fun h => hps h.symm)] at hc
      exact Or.inr ⟨hps, hc⟩
  have hnokey : ∀ (p : Nat) (c : Cell K V), m._data[p]? = some c → c.validation = State.FULL →
      c.element.1 ≠ e.1 := by
    intro p c hc hcv hk
    exact hfresh ⟨c.element.2, p, c, hc, hcv, by rw [← hk]⟩
  constructor
  · intro p c hc hcv
    rcases hget p c hc with ⟨_, rfl⟩ | ⟨_, hc0⟩
    · rw [hc1h, hc1e, hh]
    · exact hwf.hash_ok p c hc0 hcv
  · intro p c hc hcv
    rw [hdata, hcap]
    rcases hget p c hc with ⟨rfl, rfl⟩ | ⟨_, hc0⟩
    · rw [hc1h]
      exact hpath.over_set hne
    · exact (hwf.probe p c hc0 hcv).over_set hne
  · intro p q cp cq hp hq hpv hqv hk
    rcases hget p cp hp with ⟨rfl, rfl⟩ | ⟨hps, hp0⟩
    · rcases hget q cq hq with ⟨rfl, _⟩ | ⟨_, hq0⟩
      · rfl
      · rw [hc1e] at hk
        exact absurd hk.symm (hnokey q cq hq0 hqv)
    · rcases hget q cq hq with ⟨rfl, rfl⟩ | ⟨_, hq0⟩
      · rw [hc1e] at hk
        exact absurd hk (hnokey p cp hp0 hpv)
      · exact hwf.uniq p q cp cq hp0 hq0 hpv hqv hk

/-- Writing the entry `e` over a cell that is not `FULL` adds `e` to the stored pairs. -/
theorem Stored.write_free {m m1 : HashMap K V} {s : Nat} {c c1 : Cell K V} {e : K × V}
    (hc : m._data[s]? = some c) (hcv : c.validation ≠ State.FULL)
    (hdata : m1._data = m._data.set s c1) (hv : c1.validation = State.FULL)
    (hc1e : c1.element = e) (e1 : K × V) : Stored m1 e1 ↔ Stored m e1 ∨ e1 = e := by
  have hs : s < m._data.length := lt_of_getElem?_eq_some hc
  constructor
  · rintro ⟨p, cp, hp, hpv, hpe⟩
    rw [hdata] at hp
    by_cases hps : p = s
    · subst hps
      rw [List.getElem?_set_self hs] at hp
      cases hp
      exact Or.inr (hpe.symm.trans hc1e)
    · rw [List.getElem?_set_ne (fun h => hps h.symm)] at hp
      exact Or.inl ⟨p, cp, hp, hpv, hpe⟩
  · rintro (⟨p, cp, hp, hpv, hpe⟩ | rfl)
    · have hps : p ≠ s := by
        rintro rfl
        rw [hc] at hp
        cases hp
        exact hcv hpv
      exact ⟨p, cp, by rw [hdata, List.getElem?_set_ne (fun h => hps h.symm)]; exact hp, hpv, hpe⟩
    · exact ⟨s, c1, by rw [hdata, List.getElem?_set_self hs], hv, hc1e⟩

/-- Exchanging the carried entry `e` with the entry of the `FULL` cell at `s` keeps the
stored pairs together with the carried one the same. -/
theorem Stored.write_swap {m m1 : HashMap K V} {s : Nat} {c : Cell K V} (c1 : Cell K V)
    {e : K × V} (hc : m._data[s]? = some c) (hcv : c.validation = State.FULL)
    (hdata : m1._data = m._data.set s c1) (hv : c1.validation = State.FULL)
    (hc1e : c1.element = e) (e1 : K × V) :
    (Stored m1 e1 ∨ e1 = c.element) ↔ (Stored m e1 ∨ e1 = e) := by
  have hs : s < m._data.length := lt_of_getElem?_eq_some hc
  constructor
  · rintro (⟨p, cp, hp, hpv, hpe⟩ | rfl)
    · rw [hdata] at hp
      by_cases hps : p = s
      · subst hps
        rw [List.getElem?_set_self hs] at hp
        cases hp
        exact Or.inr (hpe.symm.trans hc1e)
      · rw [List.getElem?_set_ne (fun h => hps h.symm)] at hp
        exact Or.inl ⟨p, cp, hp, hpv, hpe⟩
    · exact Or.inl ⟨s, c, hc, hcv, rfl⟩
  · rintro (⟨p, cp, hp, hpv, hpe⟩ | rfl)
    · by_cases hps : p = s
      · subst hps
        rw [hc] at hp
        cases hp
        exact Or.inr hpe.symm
      · exact Or.inl
          ⟨p, cp, by rw [hdata, List.getElem?_set_ne (fun h => hps h.symm)]; exact hp, hpv, hpe⟩
    · exact Or.inl ⟨s, c1, by rw [hdata, List.getElem?_set_self hs], hv, hc1e⟩

/-- The list invariant only depends on tags, links, counters and the node store. -/
theorem WFList.same_shape {m m1 : HashMap K V} (h : WFList m)
    (hcap : m1._capacity = m._capacity) (hadd : m1._added = m._added)
    (hdel : m1._deleted = m._deleted) (htags : tags m1._data = tags m._data)
    (hlinks : links m1._data = links m._data) (hptr : m1._ptr = m._ptr)
    (hnodes : m1.nodes = m.nodes) : WFList m1 := by
  obtain ⟨L, hL⟩ := h.linked
  constructor
  · have h1 : (tags m1._data).length = (tags m._data).length := by rw [htags]
    simp only [tags, List.length_map] at h1
    rw [h1, hcap]
    exact h.len
  · rw [hadd, htags]
    exact h.added
  · rw [hdel, htags]
    exact h.deleted
  · refine ⟨L, ?_⟩
    constructor
    · rw [hnodes, hptr]
      exact hL.chain
    · exact hL.nodup
    · rw [hnodes, hlinks]
      exact hL.back
    · rw [hnodes, hlinks, htags]
      exact hL.full
    · rw [hlinks, htags]
      exact hL.free

theorem get_delta_ok (m : HashMap K V) (hash position : Nat) (hcap : 0 < m._capacity) :
    ∃ d, get_delta_ m hash position = Except.ok d := by
  simp [get_delta_, Nat.pos_iff_ne_zero.1 hcap]

/-! ## The loop of `find_place_` -/

theorem full_after_set {data : List (Cell K V)} {x p : Nat} {c1 : Cell K V}
    (h : ∃ c : Cell K V, data[x]? = some c ∧ c.validation = State.FULL)
    (hv : c1.validation = State.FULL) :
    ∃ c : Cell K V, (data.set p c1)[x]? = some c ∧ c.validation = State.FULL := by
  obtain ⟨c, hc, hcv⟩ := h
  by_cases hpx : p = x
  · subst hpx
    exact ⟨c1, by rw [List.getElem?_set_self (lt_of_getElem?_eq_some hc)], hv⟩
  · exact ⟨c, by rw [List.getElem?_set_ne hpx]; exact hc, hcv⟩

theorem free_after_set {data : List (Cell K V)} {x p : Nat} {c0 c1 : Cell K V}
    (h : ∃ c : Cell K V, data[x]? = some c ∧ c.validation ≠ State.FULL)
    (hp : data[p]? = some c0) (hv0 : c0.validation = State.FULL) :
    ∃ c : Cell K V, (data.set p c1)[x]? = some c ∧ c.validation ≠ State.FULL := by
  obtain ⟨c, hc, hcv⟩ := h
  have hpx : p ≠ x := by
    rintro rfl
    rw [hp] at hc
    cases hc
    exact hcv hv0
  exact ⟨c, by rw [List.getElem?_set_ne hpx]; exact hc, hcv⟩

/-- One round of the loop on a `FULL` cell: whichever entry is carried on, the loop
invariant holds at the next position. -/
theorem Candidate.next {hasher : K → Nat} {m : HashMap K V} {hash p : Nat} {e : K × V}
    {c : Cell K V} (h : Candidate hasher m hash e p) (hc : m._data[p]? = some c)
    (hv : c.validation = State.FULL) :
    Candidate hasher m hash e ((p + 1) % m._capacity) ∧
    Candidate hasher
      { m with _data := m._data.set p { c with hash := hash, element := e } }
      c.hash c.element ((p + 1) % m._capacity) := by
  have hne : NonEmptyAt m._data p := ⟨c, hc, by rw [hv]; intro h; cases h⟩
  have hs : p < m._data.length := lt_of_getElem?_eq_some hc
  constructor
  · exact ⟨h.list, h.content, h.cap, h.hash_eq, h.fresh, h.path.advance hne⟩
  · have hshape := tags_links_set_same m._data p c { c with hash := hash, element := e } hc rfl rfl
    refine ⟨h.list.same_shape rfl rfl rfl hshape.1 hshape.2 rfl rfl,
      h.content.write h.hash_eq h.fresh h.path hs rfl rfl hv rfl rfl, h.cap,
      h.content.hash_ok p c hc hv, ?_, ?_⟩
    · rintro ⟨v, q, cq, hq, hqv, hqe⟩
      have hq : (m._data.set p { c with hash := hash, element := e })[q]? = some cq := hq
      by_cases hqp : q = p
      · subst hqp
        rw [List.getElem?_set_self hs] at hq
        cases hq
        have hk : e.1 = c.element.1 := by
          have : e = (c.element.1, v) := hqe
          rw [this]
        exact h.fresh ⟨c.element.2, q, c, hc, hv, by rw [hk]⟩
      · rw [List.getElem?_set_ne (fun h => hqp h.symm)] at hq
        have hk : cq.element.1 = c.element.1 := by rw [hqe]
        exact hqp (h.content.uniq q p cq c hq hc hqv hv hk)
    · have hp0 : Path m._data m._capacity c.hash p := h.content.probe p c hc hv
      have hp1 : Path (m._data.set p { c with hash := hash, element := e }) m._capacity c.hash p :=
        hp0.over_set (by rw [hv]; intro h; cases h)
      exact hp1.advance (hne.after_set (by rw [hv]; intro h; cases h))

/-- The loop of `find_place_`, started `n` probes before the first cell that is not `FULL`,
returns a well-formed table that holds the carried entry in addition to the old ones. -/
theorem find_place_loop_spec (hasher : K → Nat) :
    ∀ (n s fuel : Nat) (m : HashMap K V) (hash : Nat) (e : K × V), n < fuel →
    Candidate hasher m hash e (s % m._capacity) →
    (∀ i, i < n → ∃ c : Cell K V, m._data[(s + i) % m._capacity]? = some c ∧
      c.validation = State.FULL) →
    (∃ c : Cell K V, m._data[(s + n) % m._capacity]? = some c ∧ c.validation ≠ State.FULL) →
    ∃ m1 : HashMap K V, find_place_loop fuel m hash (s % m._capacity) e = Except.ok m1 ∧
      WFList m1 ∧ WFContent hasher m1 ∧ m1._capacity = m._capacity ∧
      m1._added = m._added + 1 ∧ m1._added + m1._deleted ≤ m._added + m._deleted + 1 ∧
      ∀ e1, Stored m1 e1 ↔ Stored m e1 ∨ e1 = e := by
  intro n
  induction n with
  | zero =>
    intro s fuel m hash e hf hcand _ hfree
    obtain ⟨f, rfl⟩ : ∃ f, fuel = f + 1 := ⟨fuel - 1, by omega⟩
    obtain ⟨c, hc, hv⟩ := hfree
    simp only [Nat.add_zero] at hc
    obtain ⟨m1, hm1, hcap, hadd, hE, hD, hdata, hlist, _⟩ :=
      place_spec m hash (s % m._capacity) e c hcand.list hc hv
    refine ⟨m1, ?_, hlist,
      hcand.content.write hcand.hash_eq hcand.fresh hcand.path (lt_of_getElem?_eq_some hc)
        hcap hdata rfl rfl rfl,
      hcap, hadd, ?_, Stored.write_free hc hv hdata rfl rfl⟩
    · cases hcv : c.validation with
      | EMPTY => simp [find_place_loop, readCell_eq_ok hc, ok_bind, hcv, hm1]
      | DELETED => simp [find_place_loop, readCell_eq_ok hc, ok_bind, hcv, hm1]
      | FULL => exact absurd hcv hv
    · cases hcv : c.validation with
      | EMPTY => have := hE hcv; omega
      | DELETED => have := hD hcv; omega
      | FULL => exact absurd hcv hv
  | succ n ih =>
    intro s fuel m hash e hf hcand hfull hfree
    obtain ⟨f, rfl⟩ : ∃ f, fuel = f + 1 := ⟨fuel - 1, by omega⟩
    obtain ⟨c, hc, hv⟩ := hfull 0 (by omega)
    simp only [Nat.add_zero] at hc
    obtain ⟨d1, hd1⟩ := get_delta_ok m hash (s % m._capacity) hcand.cap
    obtain ⟨d2, hd2⟩ := get_delta_ok m c.hash (s % m._capacity) hcand.cap
    obtain ⟨hkeep, hswap⟩ := hcand.next hc hv
    rw [Nat.mod_add_mod] at hkeep hswap
    have hfull1 : ∀ i, i < n → ∃ c : Cell K V, m._data[(s + 1 + i) % m._capacity]? = some c ∧
        c.validation = State.FULL := by
      intro i hi
      have := hfull (i + 1) (by omega)
      rwa [show s + (i + 1) = s + 1 + i by omega] at this
    have hfree1 : ∃ c : Cell K V, m._data[(s + 1 + n) % m._capacity]? = some c ∧
        c.validation ≠ State.FULL := by
      rwa [show s + (n + 1) = s + 1 + n by omega] at hfree
    by_cases hlt : d2 < d1
    · obtain ⟨m1, hm1, hlist, hcont, hcap, hadd, hload, hst⟩ :=
        ih (s + 1) f _ c.hash c.element (by omega) hswap
          (fun i hi => full_after_set (hfull1 i hi) hv)
          (free_after_set hfree1 hc hv)
      refine ⟨m1, ?_, hlist, hcont, hcap, hadd, hload, ?_⟩
      · simp only [find_place_loop, readCell_eq_ok hc, ok_bind, hv, hd1, hd2, if_pos hlt,
          Nat.mod_add_mod]
        simpa only [hv] using hm1
      · intro e1
        rw [hst e1]
        refine Stored.write_swap { c with hash := hash, element := e } hc hv ?_ hv ?_ e1
        · rfl
        · rfl
    · obtain ⟨m1, hm1, hlist, hcont, hcap, hadd, hload, hst⟩ :=
        ih (s + 1) f m hash e (by omega) hkeep hfull1 hfree1
      refine ⟨m1, ?_, hlist, hcont, hcap, hadd, hload, hst⟩
      simp only [find_place_loop, readCell_eq_ok hc, ok_bind, hv, hd1, hd2, if_neg hlt,
        Nat.mod_add_mod]
      exact hm1

/-! ## `find_place_` -/

theorem exists_free_of_count (data : List (Cell K V))
    (h : (tags data).count State.FULL < data.length) :
    ∃ (p : Nat) (c : Cell K V), data[p]? = some c ∧ c.validation ≠ State.FULL := by
  have h1 := count_tags_total (tags data)
  have h2 : (tags data).length = data.length := by simp [tags]
  have h3 : 0 < (tags data).count State.DELETED ∨ 0 < (tags data).count State.EMPTY := by omega
  have h4 : ∃ t, t ≠ State.FULL ∧ t ∈ tags data := by
    rcases h3 with h3 | h3
    · exact ⟨State.DELETED, (by intro h; cases h), List.count_pos_iff.1 h3⟩
    · exact ⟨State.EMPTY, (by intro h; cases h), List.count_pos_iff.1 h3⟩
  obtain ⟨t, ht, hmem⟩ := h4
  obtain ⟨p, hp⟩ := List.mem_iff_getElem?.1 hmem
  simp only [tags, List.getElem?_map, Option.map_eq_some'] at hp
  obtain ⟨c, hc, hv⟩ := hp
  exact ⟨p, c, hc, by rw [hv]; exact ht⟩

/-- In a well-formed table with a cell that is not `FULL`, `find_place_` started at the
ideal position of a key that is not stored returns a well-formed table that holds the
new entry in addition to the old ones. -/
theorem find_place_spec (hasher : K → Nat) (m : HashMap K V) (e : K × V)
    (hlist : WFList m) (hcont : WFContent hasher m) (hroom : m._added < m._capacity)
    (hfresh : ¬ HasKey m e.1) :
    ∃ m1 : HashMap K V,
      find_place_ m (hashOf hasher e.1) (hashOf hasher e.1 % m._capacity) e = Except.ok m1 ∧
      WFList m1 ∧ WFContent hasher m1 ∧ m1._capacity = m._capacity ∧
      m1._added = m._added + 1 ∧ m1._added + m1._deleted ≤ m._added + m._deleted + 1 ∧
      ∀ e1, Stored m1 e1 ↔ Stored m e1 ∨ e1 = e := by
  have hcap : 0 < m._capacity := by omega
  obtain ⟨x, cx, hcx, hvx⟩ := exists_free_of_count m._data
    (by rw [← hlist.added, hlist.len]; exact hroom)
  have hx : x < m._capacity := hlist.len ▸ lt_of_getElem?_eq_some hcx
  obtain ⟨j, hj, hjx⟩ := mod_cover m._capacity (hashOf hasher e.1 % m._capacity) x
    (Nat.mod_lt _ hcap) hx
  obtain ⟨n, hn, hPn, hmin⟩ := exists_first
    (fun i => ∃ c : Cell K V,
      m._data[(hashOf hasher e.1 % m._capacity + i) % m._capacity]? = some c ∧
      c.validation ≠ State.FULL)
    j ⟨cx, by rw [hjx]; exact hcx, hvx⟩
  have hcand : Candidate hasher m (hashOf hasher e.1) e
      (hashOf hasher e.1 % m._capacity % m._capacity) :=
    ⟨hlist, hcont, hcap, rfl, hfresh, 0, by simp, fun j hj => absurd hj (Nat.not_lt_zero _)⟩
  have h := find_place_loop_spec hasher n (hashOf hasher e.1 % m._capacity) m._capacity m
    (hashOf hasher e.1) e (by omega) hcand
    (by
      intro i hi
      obtain ⟨c, hc⟩ := exists_cell_of_lt m._data ((hashOf hasher e.1 % m._capacity + i) % m._capacity)
        (by rw [hlist.len]; exact Nat.mod_lt _ hcap)
      refine ⟨c, hc, ?_⟩
      by_contra hv
      exact hmin i hi ⟨c, hc, hv⟩)
    hPn
  rw [Nat.mod_mod] at h
  exact h

/-! ## The loops of `clear` and `_deletePtrs` -/

theorem released_released (reset : Bool) (c : Cell K V) :
    released reset (released reset c) = released reset c := by
  cases reset <;> rfl

theorem released_element (reset : Bool) (c : Cell K V) :
    (released reset c).element = c.element ∧ (released reset c).hash = c.hash ∧
      (released reset c).ptr = none := by
  cases reset <;> exact ⟨rfl, rfl, rfl⟩

/-- The release loop on a well-formed list ends, and it has changed exactly the cells of the
nodes in the list. -/
theorem release_loop_spec (reset : Bool) :
    ∀ (L : List Nat) (fuel : Nat) (nodes : List (Option Ptr)) (data : List (Cell K V))
      (prev cur : Option Nat), L.length ≤ fuel → Chain nodes prev cur L none → L.Nodup →
      (∀ a, a ∈ L → ∀ n : Ptr, nodes[a]? = some (some n) → n.cell < data.length) →
      ∃ (nodes1 : List (Option Ptr)) (data1 : List (Cell K V)),
        release_loop reset fuel nodes data cur = Except.ok (nodes1, data1) ∧
        data1.length = data.length ∧
        (∀ p, (∃ a, a ∈ L ∧ ∃ n : Ptr, nodes[a]? = some (some n) ∧ n.cell = p) →
          data1[p]? = (data[p]?).map (released reset)) ∧
        (∀ p, ¬ (∃ a, a ∈ L ∧ ∃ n : Ptr, nodes[a]? = some (some n) ∧ n.cell = p) →
          data1[p]? = data[p]?) := by
  intro L
  induction L with
  | nil =>
    intro fuel nodes data prev cur _ hchain _ _
    have hcur : cur = none := hchain
    subst hcur
    refine ⟨nodes, data, ?_, rfl, ?_, fun _ _ => rfl⟩
    · cases fuel <;> simp [release_loop]
    · rintro p ⟨a, ha, _⟩
      cases ha
  | cons a L ih =>
    intro fuel nodes data prev cur hfuel hchain hnd hcells
    obtain ⟨hcur, n, hn, _, hrest⟩ := hchain
    subst hcur
    obtain ⟨f, rfl⟩ : ∃ f, fuel = f + 1 := ⟨fuel - 1, by simp at hfuel; omega⟩
    have hnotin : a ∉ L := (List.nodup_cons.1 hnd).1
    have hlt : n.cell < data.length := hcells a (List.mem_cons_self _ _) n hn
    obtain ⟨c, hc⟩ := exists_cell_of_lt _ _ hlt
    have hagree : ∀ x, x ∈ L → (nodes.set a none)[x]? = nodes[x]? := by
      intro x hx
      have hax : a ≠ x := by
        rintro rfl
        exact hnotin hx
      rw [List.getElem?_set_ne hax]
    obtain ⟨nodes1, data1, hloop, hlen, hin, hout⟩ :=
      ih f (nodes.set a none) (data.set n.cell (released reset c)) (some a) n.next
        (by simp at hfuel; omega)
        (Chain.congr L _ _ _ hagree hrest) (List.nodup_cons.1 hnd).2
        (by
          intro x hx nx hnx
          rw [hagree x hx] at hnx
          rw [List.length_set]
          exact hcells x (List.mem_cons_of_mem _ hx) nx hnx)
    have hcond : ∀ p, (∃ x, x ∈ L ∧ ∃ nx : Ptr, (nodes.set a none)[x]? = some (some nx) ∧
        nx.cell = p) ↔ (∃ x, x ∈ L ∧ ∃ nx : Ptr, nodes[x]? = some (some nx) ∧ nx.cell = p) := by
      intro p
      constructor
      · rintro ⟨x, hx, nx, hnx, hp⟩
        exact ⟨x, hx, nx, by rw [← hagree x hx]; exact hnx, hp⟩
      · rintro ⟨x, hx, nx, hnx, hp⟩
        exact ⟨x, hx, nx, by rw [hagree x hx]; exact hnx, hp⟩
    refine ⟨nodes1, data1, ?_, by rw [hlen, List.length_set], ?_, ?_⟩
    · rw [← hloop]
      simp only [release_loop, readPtr_eq_ok hn, readCell_eq_ok hc, ok_bind]
      cases reset <;> rfl
    · rintro p ⟨x, hx, nx, hnx, hp⟩
      by_cases hpc : p = n.cell
      · subst hpc
        by_cases hL : ∃ x, x ∈ L ∧ ∃ nx : Ptr, nodes[x]? = some (some nx) ∧ nx.cell = n.cell
        · rw [hin _ ((hcond _).2 hL), List.getElem?_set_self hlt, hc]
          simp [released_released]
        · rw [hout _ (fun h => hL ((hcond _).1 h)), List.getElem?_set_self hlt, hc]
          rfl
      · have hxL : x ∈ L := by
          rcases List.mem_cons.1 hx with rfl | hxL
          · rw [hn] at hnx
            cases hnx
            exact absurd hp.symm hpc
          · exact hxL
        rw [hin p ((hcond p).2 ⟨x, hxL, nx, hnx, hp⟩),
          List.getElem?_set_ne (fun e => hpc e.symm)]
    · intro p hp
      have hpc : p ≠ n.cell := fun e => hp ⟨a, List.mem_cons_self _ _, n, hn, e.symm⟩
      rw [hout p (fun h => hp (by
        obtain ⟨x, hx, hrest⟩ := (hcond p).1 h
        exact ⟨x, List.mem_cons_of_mem _ hx, hrest⟩)),
        List.getElem?_set_ne (fun e => hpc e.symm)]

/-! ## `_deletePtrs` and the loop of `resize_` -/

/-- The cells that nodes of the list point to are exactly the `FULL` cells. -/
theorem Linked.cell_iff {m : HashMap K V} {L : List Nat} (h : Linked m L) (p : Nat) :
    (∃ a, a ∈ L ∧ ∃ n : Ptr, m.nodes[a]? = some (some n) ∧ n.cell = p) ↔
      (tags m._data)[p]? = some State.FULL := by
  constructor
  · rintro ⟨a, ha, n, hn, rfl⟩
    obtain ⟨n1, hn1, hb⟩ := h.back a ha
    rw [hn] at hn1
    cases hn1
    rw [links_getElem?] at hb
    cases hc : m._data[n.cell]? with
    | none => rw [hc] at hb; cases hb
    | some c =>
      rw [hc] at hb
      have hptr : c.ptr = some a := by simpa using hb
      have htag : (tags m._data)[n.cell]? = some c.validation := by rw [tags_getElem?, hc]; rfl
      by_contra hne
      have hcv : c.validation ≠ State.FULL := by
        intro hcv
        rw [hcv] at htag
        exact hne htag
      have := h.free n.cell c.validation htag hcv
      rw [links_getElem?, hc] at this
      simp [hptr] at this
  · intro hp
    obtain ⟨a, n, _, ha, hn, hcell⟩ := h.full p hp
    exact ⟨a, ha, n, hn, hcell⟩

theorem Linked.cell_lt {m : HashMap K V} {L : List Nat} (h : Linked m L) :
    ∀ a, a ∈ L → ∀ n : Ptr, m.nodes[a]? = some (some n) → n.cell < m._data.length := by
  intro a ha n hn
  have := (h.cell_iff n.cell).1 ⟨a, ha, n, hn, rfl⟩
  have hlt := lt_of_getElem?_eq_some this
  simpa [tags] using hlt

theorem Linked.length_le {m : HashMap K V} {L : List Nat} (h : Linked m L) :
    L.length ≤ m.nodes.length := by
  have hsub : L ⊆ List.range m.nodes.length := by
    intro x hx
    exact List.mem_range.2 (h.lt_length x hx)
  have := (List.subperm_of_subset h.nodup hsub).length_le
  simpa using this

/-- On a well-formed table `_deletePtrs` returns, and the array keeps its entries, cached
hashes and tags. -/
theorem _deletePtrs_spec {m : HashMap K V} (hwf : WFList m) :
    ∃ (nodes1 : List (Option Ptr)) (data1 : List (Cell K V)),
      _deletePtrs m m._data = Except.ok (nodes1, data1) ∧ data1.length = m._data.length ∧
      ∀ (p : Nat) (c : Cell K V), m._data[p]? = some c →
        data1[p]? = some { c with ptr := none } := by
  obtain ⟨L, hL⟩ := hwf.linked
  obtain ⟨nodes1, data1, hloop, hlen, hin, hout⟩ :=
    release_loop_spec false L m.nodes.length m.nodes m._data none m._ptr hL.length_le hL.chain
      hL.nodup hL.cell_lt
  refine ⟨nodes1, data1, hloop, hlen, ?_⟩
  intro p c hc
  by_cases hp : (tags m._data)[p]? = some State.FULL
  · rw [hin p ((hL.cell_iff p).2 hp), hc]
    rfl
  · rw [hout p (fun h => hp ((hL.cell_iff p).1 h)), hc]
    have htag : (tags m._data)[p]? = some c.validation := by rw [tags_getElem?, hc]; rfl
    have hcv : c.validation ≠ State.FULL := by
      intro hcv
      rw [hcv] at htag
      exact hp htag
    have := hL.free p c.validation htag hcv
    rw [links_getElem?, hc] at this
    have hptr : c.ptr = none := by simpa using this
    cases c
    simp only at hptr
    subst hptr
    rfl

/-- The Hoare rule of the loop of `resize_`. -/
theorem reinsert_loop_rule (ins : HashMap K V → K × V → Nat → Except Error (HashMap K V))
    (old : List (Cell K V)) (Inv : Nat → HashMap K V → Prop)
    (hstep : ∀ (i : Nat) (m : HashMap K V) (c : Cell K V), Inv i m → old[i]? = some c →
      c.validation = State.FULL → ∃ m1, ins m c.element c.hash = Except.ok m1 ∧ Inv (i + 1) m1)
    (hskip : ∀ (i : Nat) (m : HashMap K V) (c : Cell K V), Inv i m → old[i]? = some c →
      c.validation ≠ State.FULL → Inv (i + 1) m) :
    ∀ (n i : Nat) (m : HashMap K V), i + n = old.length → Inv i m →
      ∃ m1, reinsert_loop ins old n i m = Except.ok m1 ∧ Inv old.length m1 := by
  intro n
  induction n with
  | zero =>
    intro i m hi hinv
    simp only [Nat.add_zero] at hi
    subst hi
    exact ⟨m, rfl, hinv⟩
  | succ n ih =>
    intro i m hi hinv
    obtain ⟨c, hc⟩ := exists_cell_of_lt old (i) (by omega)
    by_cases hv : c.validation = State.FULL
    · obtain ⟨m1, hm1, hinv1⟩ := hstep i m c hinv hc hv
      obtain ⟨m2, hm2, hinv2⟩ := ih (i + 1) m1 (by omega) hinv1
      exact ⟨m2, by simp only [reinsert_loop, readCell_eq_ok hc, ok_bind, hv, if_true, hm1, hm2],
        hinv2⟩
    · obtain ⟨m2, hm2, hinv2⟩ := ih (i + 1) m (by omega) (hskip i m c hinv hc hv)
      exact ⟨m2, by
        simp only [reinsert_loop, readCell_eq_ok hc, ok_bind, hv, if_false, pure, Except.pure, hm2],
        hinv2⟩

theorem count_take_succ (ts : List State) (i : Nat) (t s : State) (h : ts[i]? = some t) :
    (ts.take (i + 1)).count s = (ts.take i).count s + (if t = s then 1 else 0) := by
  induction ts generalizing i with
  | nil => simp at h
  | cons y ts ih =>
    cases i with
    | zero =>
      simp at h
      subst h
      simp [List.count_cons]
    | succ i =>
      simp at h
      have := ih i h
      simp only [List.take_succ_cons, List.count_cons]
      omega

theorem count_take_le (ts : List State) (i : Nat) (s : State) :
    (ts.take i).count s ≤ ts.count s :=
  (List.take_sublist i ts).count_le s

/-- Skipping a cell of the previous array that is not `FULL` keeps the loop invariant. -/
theorem Reinserted.skip {hasher : K → Nat} {old : List (Cell K V)} {i : Nat} {m : HashMap K V}
    {c : Cell K V} (h : Reinserted hasher old i m) (hc : old[i]? = some c)
    (hv : c.validation ≠ State.FULL) : Reinserted hasher old (i + 1) m := by
  refine ⟨h.list, h.content, h.deleted, ?_, ?_⟩
  · rw [count_take_succ (tags old) i c.validation State.FULL (by rw [tags_getElem?, hc]; rfl),
      if_neg hv, Nat.add_zero]
    exact h.added
  · intro e
    rw [h.stored e]
    constructor
    · rintro ⟨p, cp, hp, hcp, hpv, hpe⟩
      exact ⟨p, cp, by omega, hcp, hpv, hpe⟩
    · rintro ⟨p, cp, hp, hcp, hpv, hpe⟩
      rcases Nat.lt_succ_iff_lt_or_eq.1 hp with hlt | rfl
      · exact ⟨p, cp, hlt, hcp, hpv, hpe⟩
      · rw [hc] at hcp
        cases hcp
        exact absurd hpv hv

/-- Inserting the entry of the `FULL` cell `i` of the previous array keeps the loop
invariant. -/
theorem Reinserted.insert_step {hasher : K → Nat} {old : List (Cell K V)} {i : Nat}
    {m m1 : HashMap K V} {c : Cell K V} (h : Reinserted hasher old i m) (hc : old[i]? = some c)
    (hv : c.validation = State.FULL) (hlist : WFList m1) (hcont : WFContent hasher m1)
    (hadd : m1._added = m._added + 1) (hdel : m1._deleted = 0)
    (hst : ∀ e1, Stored m1 e1 ↔ Stored m e1 ∨ e1 = c.element) :
    Reinserted hasher old (i + 1) m1 := by
  refine ⟨hlist, hcont, hdel, ?_, ?_⟩
  · rw [count_take_succ (tags old) i c.validation State.FULL (by rw [tags_getElem?, hc]; rfl),
      if_pos hv, hadd, h.added]
  · intro e
    rw [hst e, h.stored e]
    constructor
    · rintro (⟨p, cp, hp, hcp, hpv, hpe⟩ | rfl)
      · exact ⟨p, cp, by omega, hcp, hpv, hpe⟩
      · exact ⟨i, c, by omega, hc, hv, rfl⟩
    · rintro ⟨p, cp, hp, hcp, hpv, hpe⟩
      rcases Nat.lt_succ_iff_lt_or_eq.1 hp with hlt | rfl
      · exact Or.inl ⟨p, cp, hlt, hcp, hpv, hpe⟩
      · rw [hc] at hcp
        cases hcp
        exact Or.inr hpe.symm

/-- The key of the `FULL` cell `i` of the previous array is not yet in the new table. -/
theorem Reinserted.fresh {hasher : K → Nat} {old : List (Cell K V)} {i : Nat} {m : HashMap K V}
    {c : Cell K V} (h : Reinserted hasher old i m) (hc : old[i]? = some c)
    (hv : c.validation = State.FULL)
    (huniq : ∀ (p q : Nat) (cp cq : Cell K V), old[p]? = some cp → old[q]? = some cq →
      cp.validation = State.FULL → cq.validation = State.FULL →
      cp.element.1 = cq.element.1 → p = q) :
    ¬ HasKey m c.element.1 := by
  rintro ⟨v, hst⟩
  obtain ⟨p, cp, hp, hcp, hpv, hpe⟩ := (h.stored _).1 hst
  have := huniq p i cp c hcp hc hpv hv (by rw [hpe])
  omega

/-! ## `hard_insert_with_hash_` and `resize_` -/

/-- The table `resize_` starts its loop with satisfies the loop invariant. -/
theorem Reinserted.fresh_table [Inhabited K] [Inhabited V] (hasher : K → Nat)
    (old : List (Cell K V)) (n : Nat) (nodes1 : List (Option Ptr)) :
    Reinserted hasher old 0
      { _capacity := n, _added := 0, _deleted := 0,
        _data := List.replicate n (Cell.fresh K V), _ptr := none, nodes := nodes1 } := by
  have hcell : ∀ (p : Nat) (c : Cell K V),
      (List.replicate n (Cell.fresh K V))[p]? = some c → c = Cell.fresh K V := by
    intro p c hc
    exact List.eq_of_mem_replicate (List.mem_iff_getElem?.2 ⟨p, hc⟩)
  have htags : tags (List.replicate n (Cell.fresh K V)) = List.replicate n State.EMPTY := by
    simp [tags, Cell.fresh]
  have hlinks : links (List.replicate n (Cell.fresh K V)) = List.replicate n none := by
    simp [links, Cell.fresh]
  have hnofull : ∀ p : Nat, (tags (List.replicate n (Cell.fresh K V)))[p]? ≠ some State.FULL := by
    intro p hp
    rw [htags] at hp
    have := List.eq_of_mem_replicate (List.mem_iff_getElem?.2 ⟨p, hp⟩)
    cases this
  refine ⟨⟨by simp, ?_, ?_, [], ?_⟩, ⟨?_, ?_, ?_⟩, rfl, by simp, ?_⟩
  · show 0 = _
    rw [htags, List.count_replicate]
    simp
  · show 0 = _
    rw [htags, List.count_replicate]
    simp
  · refine ⟨rfl, List.nodup_nil, ?_, ?_, ?_⟩
    · intro a ha; cases ha
    · intro p hp
      exact absurd hp (hnofull p)
    · intro p t hp _
      show (links (List.replicate n (Cell.fresh K V)))[p]? = some none
      have hlt := lt_of_getElem?_eq_some hp
      rw [htags, List.length_replicate] at hlt
      rw [hlinks, List.getElem?_replicate_of_lt hlt]
  · intro p c hc hv
    have := hcell p c hc
    subst this
    cases hv
  · intro p c hc hv
    have := hcell p c hc
    subst this
    cases hv
  · intro p q cp cq hp _ hv
    have := hcell p cp hp
    subst this
    cases hv
  · intro e
    constructor
    · rintro ⟨p, c, hc, hv, _⟩
      have := hcell p c hc
      subst this
      cases hv
    · rintro ⟨p, _, hp, _⟩
      cases hp

/-- Below the load limit `hard_insert_with_hash_` does not resize and places the entry. -/
theorem hard_insert_body_no_trigger (hasher : K → Nat)
    (resize : HashMap K V → Nat → Except Error (HashMap K V)) (m : HashMap K V) (e : K × V)
    (hlist : WFList m) (hcont : WFContent hasher m) (hfresh : ¬ HasKey m e.1)
    (hno : 4 * (m._added + m._deleted) < 3 * m._capacity) :
    ∃ m1 : HashMap K V,
      hard_insert_with_hash_body resize m e (hashOf hasher e.1) = Except.ok m1 ∧
      WFList m1 ∧ WFContent hasher m1 ∧ m1._capacity = m._capacity ∧
      m1._added = m._added + 1 ∧ m1._added + m1._deleted ≤ m._added + m._deleted + 1 ∧
      ∀ e1, Stored m1 e1 ↔ Stored m e1 ∨ e1 = e := by
  obtain ⟨m1, hm1, hrest⟩ := find_place_spec hasher m e hlist hcont (by omega) hfresh
  refine ⟨m1, ?_, hrest⟩
  have hfalse : reaches_MAX_FILL_PORTION (m._added + m._deleted) m._capacity = false := by
    simp only [reaches_MAX_FILL_PORTION, decide_eq_false_iff_not]
    omega
  have hcap : m._capacity ≠ 0 := by omega
  simp only [hard_insert_with_hash_body, hfalse, pure, Except.pure, ok_bind, hcap, if_false]
  exact hm1

/-- The rule of `resize_`: if `hard_insert_with_hash_` inserts every entry of the previous
array while keeping `Extra`, then `resize_` returns a well-formed table with the same entries,
no `DELETED` cell, and `Extra`. -/
theorem resize_rule [Inhabited K] [Inhabited V] (hasher : K → Nat) (d : Nat)
    (m : HashMap K V) (n : Nat) (hlist : WFList m) (hcont : WFContent hasher m)
    (Extra : HashMap K V → Prop)
    (hstart : ∀ nodes1 : List (Option Ptr), Extra
      { _capacity := n, _added := 0, _deleted := 0,
        _data := List.replicate n (Cell.fresh K V), _ptr := none, nodes := nodes1 })
    (hstep : ∀ (m1 : HashMap K V) (e : K × V), WFList m1 → WFContent hasher m1 →
      m1._deleted = 0 → Extra m1 → ¬ HasKey m1 e.1 → m1._added + 1 ≤ m._added →
      ∃ m2 : HashMap K V,
        hard_insert_with_hash_body (resize_ d) m1 e (hashOf hasher e.1) = Except.ok m2 ∧
        WFList m2 ∧ WFContent hasher m2 ∧ m2._added = m1._added + 1 ∧ m2._deleted = 0 ∧
        (∀ e1, Stored m2 e1 ↔ Stored m1 e1 ∨ e1 = e) ∧ Extra m2) :
    ∃ m1 : HashMap K V, resize_ (d + 1) m n = Except.ok m1 ∧
      WFList m1 ∧ WFContent hasher m1 ∧ Extra m1 ∧ m1._added = m._added ∧
      m1._deleted = 0 ∧ ∀ e, Stored m1 e ↔ Stored m e := by
  obtain ⟨nodes1, old, hdel, hlen, hold⟩ := _deletePtrs_spec hlist
  have hold_inv : ∀ (p : Nat) (c1 : Cell K V), old[p]? = some c1 →
      ∃ c : Cell K V, m._data[p]? = some c ∧ c1 = { c with ptr := none } := by
    intro p c1 hc1
    obtain ⟨c, hc⟩ := exists_cell_of_lt m._data (p)
      (by rw [← hlen]; exact lt_of_getElem?_eq_some hc1)
    have := hold p c hc
    rw [hc1] at this
    cases this
    exact ⟨c, hc, rfl⟩
  have htags : tags old = tags m._data := by
    apply List.ext_getElem?
    intro p
    rw [tags_getElem?, tags_getElem?]
    cases hc : m._data[p]? with
    | none =>
      have : old[p]? = none := by
        rw [List.getElem?_eq_none_iff, hlen, ← List.getElem?_eq_none_iff]
        exact hc
      rw [this]
    | some c => rw [hold p c hc]; rfl
  have huniq : ∀ (p q : Nat) (cp cq : Cell K V), old[p]? = some cp → old[q]? = some cq →
      cp.validation = State.FULL → cq.validation = State.FULL →
      cp.element.1 = cq.element.1 → p = q := by
    intro p q cp cq hp hq hpv hqv hk
    obtain ⟨cp0, hp0, rfl⟩ := hold_inv p cp hp
    obtain ⟨cq0, hq0, rfl⟩ := hold_inv q cq hq
    exact hcont.uniq p q cp0 cq0 hp0 hq0 hpv hqv hk
  have hloop := reinsert_loop_rule (hard_insert_with_hash_body (resize_ d)) old
    (fun i m1 => Reinserted hasher old i m1 ∧ Extra m1)
    (by
      intro i m1 c ⟨hinv, hextra⟩ hc hv
      obtain ⟨c0, hc0, rfl⟩ := hold_inv i c hc
      have hhash : c0.hash = hashOf hasher c0.element.1 := hcont.hash_ok i c0 hc0 hv
      have hcount : m1._added + 1 ≤ m._added := by
        have h1 := count_take_succ (tags old) i State.FULL State.FULL
          (by rw [tags_getElem?, hc]; simp; exact hv)
        have h2 := count_take_le (tags old) (i + 1) State.FULL
        rw [h1, ← hinv.added, htags, ← hlist.added] at h2
        simpa using h2
      have hfr := hinv.fresh hc hv huniq
      obtain ⟨m2, hm2, hl2, hc2, hadd2, hdel2, hst2, hextra2⟩ :=
        hstep m1 c0.element hinv.list hinv.content hinv.deleted hextra hfr hcount
      refine ⟨m2, ?_, hinv.insert_step hc hv hl2 hc2 hadd2 hdel2 hst2, hextra2⟩
      show hard_insert_with_hash_body (resize_ d) m1 c0.element c0.hash = _
      rw [hhash]
      exact hm2)
    (by
      intro i m1 c ⟨hinv, hextra⟩ hc hv
      exact ⟨hinv.skip hc hv, hextra⟩)
    old.length 0 _ (by omega) ⟨Reinserted.fresh_table hasher old n nodes1, hstart nodes1⟩
  obtain ⟨m1, hm1, hinv, hextra⟩ := hloop
  refine ⟨m1, ?_, hinv.list, hinv.content, hextra, ?_, hinv.deleted, ?_⟩
  · simp only [resize_, hdel, ok_bind]
    rw [← hlist.len, ← hlen]
    exact hm1
  · rw [hinv.added, List.take_of_length_le (by simp [tags]), htags, ← hlist.added]
  · intro e
    rw [hinv.stored e]
    constructor
    · rintro ⟨p, c, _, hc, hv, he⟩
      obtain ⟨c0, hc0, rfl⟩ := hold_inv p c hc
      exact ⟨p, c0, hc0, hv, he⟩
    · rintro ⟨p, c, hc, hv, he⟩
      refine ⟨p, _, ?_, hold p c hc, hv, he⟩
      rw [hlen]
      exact lt_of_getElem?_eq_some hc

/-- When no reinsertion reaches the load limit, `resize_` gives a well-formed table of the
requested capacity with the same entries and no `DELETED` cell. -/
theorem resize_no_trigger [Inhabited K] [Inhabited V] (hasher : K → Nat) (d : Nat)
    (m : HashMap K V) (n : Nat) (hlist : WFList m) (hcont : WFContent hasher m)
    (hload : 4 * m._added < 3 * n + 4) :
    ∃ m1 : HashMap K V, resize_ (d + 1) m n = Except.ok m1 ∧
      WFList m1 ∧ WFContent hasher m1 ∧ m1._capacity = n ∧ m1._added = m._added ∧
      m1._deleted = 0 ∧ ∀ e, Stored m1 e ↔ Stored m e := by
  apply resize_rule hasher d m n hlist hcont (fun m1 => m1._capacity = n) (fun _ => rfl)
  intro m1 e hl1 hc1 hd1 hcap hfr hcount
  obtain ⟨m2, hm2, hl2, hc2, hcap2, hadd2, hload2, hst2⟩ :=
    hard_insert_body_no_trigger hasher (resize_ d) m1 e hl1 hc1 hfr
      (by rw [hd1, hcap]; omega)
  exact ⟨m2, hm2, hl2, hc2, hadd2, by omega, hst2, hcap2.trans hcap⟩

/-- On a well-formed table `hard_insert_with_hash_` returns a well-formed table that holds
the new entry in addition to the old ones; the capacity doubles exactly when the load limit
was reached. -/
theorem hard_insert_body_spec [Inhabited K] [Inhabited V] (hasher : K → Nat) (d : Nat)
    (m : HashMap K V) (e : K × V) (hwf : WF hasher m) (hfresh : ¬ HasKey m e.1) :
    ∃ m1 : HashMap K V,
      hard_insert_with_hash_body (resize_ (d + 1)) m e (hashOf hasher e.1) = Except.ok m1 ∧
      WF hasher m1 ∧ m1._added = m._added + 1 ∧ m1._deleted ≤ m._deleted ∧
      (∀ e1, Stored m1 e1 ↔ Stored m e1 ∨ e1 = e) ∧
      m1._capacity = (if 3 * m._capacity ≤ 4 * (m._added + m._deleted)
        then m._capacity * 2 else m._capacity) := by
  have hcap := hwf.cap
  have hload := hwf.load
  by_cases htrig : 3 * m._capacity ≤ 4 * (m._added + m._deleted)
  · obtain ⟨m2, hm2, hl2, hc2, hcap2, hadd2, hdel2, hst2⟩ :=
      resize_no_trigger hasher d m (m._capacity * 2) hwf.list hwf.content (by omega)
    obtain ⟨m1, hm1, hl1, hc1, hcap1, hadd1, hload1, hst1⟩ :=
      find_place_spec hasher m2 e hl2 hc2 (by omega)
        (by
          rintro ⟨v, hv⟩
          exact hfresh ⟨v, (hst2 _).1 hv⟩)
    refine ⟨m1, ?_, ⟨hl1, hc1, by omega, by omega⟩, by omega, by omega, ?_, ?_⟩
    · have htrue : reaches_MAX_FILL_PORTION (m._added + m._deleted) m._capacity = true := by
        simp only [reaches_MAX_FILL_PORTION, decide_eq_true_eq]
        exact htrig
      have hne : m2._capacity ≠ 0 := by omega
      simp only [hard_insert_with_hash_body, htrue, if_true, _CAPACITY_MULTIPLIER, hm2, ok_bind,
        hne, if_false]
      exact hm1
    · intro e1
      rw [hst1 e1, hst2 e1]
    · rw [if_pos htrig, hcap1, hcap2]
  · obtain ⟨m1, hm1, hl1, hc1, hcap1, hadd1, hload1, hst1⟩ :=
      hard_insert_body_no_trigger hasher (resize_ (d + 1)) m e hwf.list hwf.content hfresh
        (by omega)
    exact ⟨m1, hm1, ⟨hl1, hc1, by omega, by omega⟩, hadd1, by omega, hst1,
      by rw [if_neg htrig, hcap1]⟩

/-- The member function `hard_insert_with_hash_` on a well-formed table and a new key. -/
theorem hard_insert_with_hash_spec [Inhabited K] [Inhabited V] (hasher : K → Nat)
    (m : HashMap K V) (e : K × V) (hwf : WF hasher m) (hfresh : ¬ HasKey m e.1) :
    ∃ m1 : HashMap K V,
      hard_insert_with_hash_ m e (hashOf hasher e.1) = Except.ok m1 ∧
      WF hasher m1 ∧ m1._added = m._added + 1 ∧ m1._deleted ≤ m._deleted ∧
      (∀ e1, Stored m1 e1 ↔ Stored m e1 ∨ e1 = e) ∧
      m1._capacity = (if 3 * m._capacity ≤ 4 * (m._added + m._deleted)
        then m._capacity * 2 else m._capacity) :=
  hard_insert_body_spec hasher 1 m e hwf hfresh

/-- For a new capacity of at least 4 (the allocation being taken to succeed), `resize_` on
a well-formed table returns a well-formed table (possibly of a larger capacity) with the same
entries. -/
theorem resize_spec [Inhabited K] [Inhabited V] (hasher : K → Nat) (d : Nat)
    (m : HashMap K V) (n : Nat) (hlist : WFList m) (hcont : WFContent hasher m)
    (hn : 4 ≤ n) :
    ∃ m1 : HashMap K V, resize_ (d + 2) m n = Except.ok m1 ∧
      WF hasher m1 ∧ m1._added = m._added ∧ m1._deleted = 0 ∧
      ∀ e, Stored m1 e ↔ Stored m e := by
  obtain ⟨m1, hm1, hl1, hc1, hextra, hadd1, hdel1, hst1⟩ :=
    resize_rule hasher (d + 1) m n hlist hcont
      (fun m1 => 4 ≤ m1._capacity ∧ 4 * (m1._added + m1._deleted) < 3 * m1._capacity + 4)
      (fun _ => ⟨hn, by show 4 * (0 + 0) < 3 * n + 4; omega⟩)
      (by
        intro m1 e hl1 hc1 hd1 hextra hfr _
        obtain ⟨m2, hm2, hwf2, hadd2, hdel2, hst2, _⟩ :=
          hard_insert_body_spec hasher d m1 e ⟨hl1, hc1, hextra.1, hextra.2⟩ hfr
        exact ⟨m2, hm2, hwf2.list, hwf2.content, hadd2, by omega, hst2, hwf2.cap, hwf2.load⟩)
  exact ⟨m1, hm1, ⟨hl1, hc1, hextra.1, hextra.2⟩, hadd1, hdel1, hst1⟩

/-! ## Taking a node out of the list -/

theorem lastOr_mem : ∀ (L : List Nat) (prev : Option Nat), L ≠ [] →
    ∃ x, x ∈ L ∧ lastOr L prev = some x := by
  intro L
  induction L with
  | nil => intro _ h; exact absurd rfl h
  | cons a L ih =>
    intro prev _
    cases L with
    | nil => exact ⟨a, List.mem_cons_self _ _, rfl⟩
    | cons b L =>
      obtain ⟨x, hx, hl⟩ := ih (some a) (by simp)
      exact ⟨x, List.mem_cons_of_mem _ hx, hl⟩

theorem lastOr_none : ∀ (L : List Nat), lastOr L none = none → L = [] := by
  intro L h
  by_contra hne
  obtain ⟨x, _, hl⟩ := lastOr_mem L none hne
  rw [h] at hl
  cases hl

/-- A chain over `L1 ++ L2` is a chain over `L1` followed by a chain over `L2`. -/
theorem Chain.append {nodes : List (Option Ptr)} :
    ∀ (L1 L2 : List Nat) (prev cur last : Option Nat),
      Chain nodes prev cur (L1 ++ L2) last ↔
        ∃ mid, Chain nodes prev cur L1 mid ∧ Chain nodes (lastOr L1 prev) mid L2 last := by
  intro L1
  induction L1 with
  | nil =>
    intro L2 prev cur last
    constructor
    · intro h
      exact ⟨cur, rfl, h⟩
    · rintro ⟨mid, hmid, h⟩
      have : cur = mid := hmid
      subst this
      exact h
  | cons a L1 ih =>
    intro L2 prev cur last
    constructor
    · rintro ⟨hcur, n, hn, hprev, hrest⟩
      obtain ⟨mid, h1, h2⟩ := (ih L2 (some a) n.next last).1 hrest
      exact ⟨mid, ⟨hcur, n, hn, hprev, h1⟩, h2⟩
    · rintro ⟨mid, ⟨hcur, n, hn, hprev, h1⟩, h2⟩
      exact ⟨hcur, n, hn, hprev, (ih L2 (some a) n.next last).2 ⟨mid, h1, h2⟩⟩

/-- Redirecting the `next` of the last node of a segment redirects the segment. -/
theorem Chain.retarget {nodes : List (Option Ptr)} (nodes1 : List (Option Ptr)) (a : Nat)
    (t : Option Nat) :
    ∀ (L : List Nat) (prev cur : Option Nat), Chain nodes prev cur L (some a) → L.Nodup →
      (∀ x, x ∈ L → ∀ xn : Ptr, nodes[x]? = some (some xn) →
        nodes1[x]? = some (some (if lastOr L prev = some x then { xn with next := t } else xn))) →
      Chain nodes1 prev (if L = [] then t else cur) L t := by
  intro L
  induction L with
  | nil =>
    intro prev cur _ _ _
    simp [Chain]
  | cons x L ih =>
    intro prev cur h hnd hstore
    obtain ⟨hcur, xn, hxn, hprev, hrest⟩ := h
    have hx := hstore x (List.mem_cons_self _ _) xn hxn
    have hih := ih (some x) xn.next hrest (List.nodup_cons.1 hnd).2
      (fun y hy yn hyn => hstore y (List.mem_cons_of_mem _ hy) yn hyn)
    simp only [if_neg (List.cons_ne_nil x L)]
    cases L with
    | nil =>
      have hnext : xn.next = some a := hrest
      simp only [lastOr, if_true] at hx
      exact ⟨hcur, _, hx, hprev, rfl⟩
    | cons y L =>
      have hne : lastOr (x :: y :: L) prev ≠ some x := by
        obtain ⟨z, hz, hl⟩ := lastOr_mem (y :: L) (some x) (by simp)
        show lastOr (y :: L) (some x) ≠ some x
        rw [hl]
        intro h
        cases h
        exact (List.nodup_cons.1 hnd).1 hz
      rw [if_neg hne] at hx
      simp only [if_neg (List.cons_ne_nil y L)] at hih
      exact ⟨hcur, xn, hx, hprev, hih⟩

/-- Replacing the `previous` of the first node of a segment. -/
theorem Chain.reprev {nodes nodes1 : List (Option Ptr)} (prev prev1 : Option Nat) :
    ∀ (L : List Nat) (cur last : Option Nat), Chain nodes prev cur L last → L.Nodup →
      (∀ x, x ∈ L → ∀ xn : Ptr, nodes[x]? = some (some xn) →
        nodes1[x]? = some (some (if cur = some x then { xn with previous := prev1 } else xn))) →
      Chain nodes1 prev1 cur L last := by
  intro L cur last h hnd hstore
  cases L with
  | nil => exact h
  | cons x L =>
    obtain ⟨hcur, xn, hxn, hprev, hrest⟩ := h
    have hx := hstore x (List.mem_cons_self _ _) xn hxn
    rw [if_pos hcur] at hx
    refine ⟨hcur, _, hx, rfl, ?_⟩
    apply Chain.congr L _ _ _ _ hrest
    intro y hy
    obtain ⟨yn, hyn⟩ := Chain.live _ _ _ _ hrest y hy
    have hyx : cur ≠ some y := by
      rw [hcur]
      intro h
      cases h
      exact (List.nodup_cons.1 hnd).1 hy
    have := hstore y (List.mem_cons_of_mem _ hy) yn hyn
    rw [if_neg hyx] at this
    rw [this, hyn]

theorem write_next_spec (nodes : List (Option Ptr)) (p t : Option Nat)
    (hlive : ∀ x, p = some x → ∃ xn : Ptr, nodes[x]? = some (some xn)) :
    ∃ nodes1 : List (Option Ptr), write_next nodes p t = Except.ok nodes1 ∧
      ∀ (x : Nat) (xn : Ptr), nodes[x]? = some (some xn) →
        nodes1[x]? = some (some (if p = some x then { xn with next := t } else xn)) := by
  cases p with
  | none =>
    refine ⟨nodes, rfl, ?_⟩
    intro x xn hx
    simpa using hx
  | some y =>
    obtain ⟨yn, hyn⟩ := hlive y rfl
    refine ⟨_, by simp only [write_next, readPtr_eq_ok hyn, ok_bind]; rfl, ?_⟩
    intro x xn hx
    by_cases hxy : y = x
    · subst hxy
      rw [hyn] at hx
      cases hx
      rw [List.getElem?_set_self (lt_of_getElem?_eq_some hyn)]
      simp
    · rw [List.getElem?_set_ne hxy, hx]
      have : ¬ (some y = some x) := fun h => hxy (Option.some.inj h)
      rw [if_neg this]

theorem write_previous_spec (nodes : List (Option Ptr)) (q t : Option Nat)
    (hlive : ∀ x, q = some x → ∃ xn : Ptr, nodes[x]? = some (some xn)) :
    ∃ nodes1 : List (Option Ptr), write_previous nodes q t = Except.ok nodes1 ∧
      ∀ (x : Nat) (xn : Ptr), nodes[x]? = some (some xn) →
        nodes1[x]? = some (some (if q = some x then { xn with previous := t } else xn)) := by
  cases q with
  | none =>
    refine ⟨nodes, rfl, ?_⟩
    intro x xn hx
    simpa using hx
  | some y =>
    obtain ⟨yn, hyn⟩ := hlive y rfl
    refine ⟨_, by simp only [write_previous, readPtr_eq_ok hyn, ok_bind]; rfl, ?_⟩
    intro x xn hx
    by_cases hxy : y = x
    · subst hxy
      rw [hyn] at hx
      cases hx
      rw [List.getElem?_set_self (lt_of_getElem?_eq_some hyn)]
      simp
    · rw [List.getElem?_set_ne hxy, hx]
      have : ¬ (some y = some x) := fun h => hxy (Option.some.inj h)
      rw [if_neg this]

/-- On a well-formed list, `unlink_` removes the node `a` and keeps the other nodes in
their order, each still pointing at its cell. -/
theorem unlink_spec (nodes : List (Option Ptr)) (head : Option Nat) (a : Nat)
    (L1 L2 : List Nat) (hchain : Chain nodes none head (L1 ++ a :: L2) none)
    (hnd : (L1 ++ a :: L2).Nodup) :
    ∃ (nodes1 : List (Option Ptr)) (head1 : Option Nat),
      unlink_ nodes head a = Except.ok (nodes1, head1) ∧
      Chain nodes1 none head1 (L1 ++ L2) none ∧
      ∀ x, x ∈ L1 ++ L2 → ∃ n n1 : Ptr, nodes[x]? = some (some n) ∧
        nodes1[x]? = some (some n1) ∧ n1.cell = n.cell := by
  obtain ⟨mid, h1, h2⟩ := (Chain.append L1 (a :: L2) none head none).1 hchain
  obtain ⟨hmid, na, hna, hprev, hrest⟩ := h2
  subst hmid
  have hnd1 : L1.Nodup := (List.nodup_append.1 hnd).1
  have hnd2' : (a :: L2).Nodup := (List.nodup_append.1 hnd).2.1
  have hnd2 : L2.Nodup := (List.nodup_cons.1 hnd2').2
  have ha2 : a ∉ L2 := (List.nodup_cons.1 hnd2').1
  have hdisj : ∀ x, x ∈ L1 → x ∈ a :: L2 → False := fun x hx1 hx2 =>
    (List.nodup_append.1 hnd).2.2 hx1 hx2
  have ha1 : a ∉ L1 := fun h => hdisj a h (List.mem_cons_self _ _)
  have hlive1 := Chain.live _ _ _ _ h1
  have hlive2 := Chain.live _ _ _ _ hrest
  -- the node before `a`
  have hprev_mem : ∀ x, na.previous = some x → x ∈ L1 := by
    intro x hx
    rw [hprev] at hx
    by_cases hL1 : L1 = []
    · subst hL1
      cases hx
    · obtain ⟨y, hy, hl⟩ := lastOr_mem L1 none hL1
      rw [hl] at hx
      cases hx
      exact hy
  -- the node after `a`
  have hnext_mem : ∀ x, na.next = some x → x ∈ L2 := by
    intro x hx
    cases L2 with
    | nil =>
      have : na.next = none := hrest
      rw [this] at hx
      cases hx
    | cons y L3 =>
      have : na.next = some y := hrest.1
      rw [this] at hx
      cases hx
      exact List.mem_cons_self _ _
  obtain ⟨s1, hs1, hs1get⟩ := write_next_spec nodes na.previous na.next
    (fun x hx => hlive1 x (hprev_mem x hx))
  have hna1 : s1[a]? = some (some na) := by
    rw [hs1get a na hna, if_neg (fun h => ha1 (hprev_mem a h))]
  obtain ⟨s2, hs2, hs2get⟩ := write_previous_spec s1 na.next na.previous
    (by
      intro x hx
      obtain ⟨xn, hxn⟩ := hlive2 x (hnext_mem x hx)
      exact ⟨_, hs1get x xn hxn⟩)
  have hna2 : s2[a]? = some (some na) := by
    rw [hs2get a na hna1, if_neg (fun h => ha2 (hnext_mem a h))]
  have hget1 : ∀ x, x ∈ L1 → ∀ xn : Ptr, nodes[x]? = some (some xn) →
      (s2.set a none)[x]? =
        some (some (if na.previous = some x then { xn with next := na.next } else xn)) := by
    intro x hx xn hxn
    have hxa : a ≠ x := by
      rintro rfl
      exact ha1 hx
    have hnx : ¬ na.next = some x := fun h =>
      hdisj x hx (List.mem_cons_of_mem _ (hnext_mem x h))
    rw [List.getElem?_set_ne hxa, hs2get x _ (hs1get x xn hxn), if_neg hnx]
  have hget2 : ∀ x, x ∈ L2 → ∀ xn : Ptr, nodes[x]? = some (some xn) →
      (s2.set a none)[x]? =
        some (some (if na.next = some x then { xn with previous := na.previous } else xn)) := by
    intro x hx xn hxn
    have hxa : a ≠ x := by
      rintro rfl
      exact ha2 hx
    have hpx : ¬ na.previous = some x := fun h =>
      hdisj x (hprev_mem x h) (List.mem_cons_of_mem _ hx)
    have := hs1get x xn hxn
    rw [if_neg hpx] at this
    rw [List.getElem?_set_ne hxa, hs2get x xn this]
  refine ⟨s2.set a none, if head = some a then na.next else head, ?_, ?_, ?_⟩
  · simp only [unlink_, readPtr_eq_ok hna, ok_bind, hs1, readPtr_eq_ok hna1, hs2,
      readPtr_eq_ok hna2]
    rfl
  · rw [Chain.append]
    refine ⟨na.next, ?_, ?_⟩
    · have hre := Chain.retarget (s2.set a none) a na.next L1 none head h1 hnd1
        (by
          intro x hx xn hxn
          rw [hget1 x hx xn hxn, hprev])
      have hhead : (if head = some a then na.next else head) =
          (if L1 = [] then na.next else head) := by
        cases L1 with
        | nil =>
          have : head = some a := h1
          simp [this]
        | cons y L =>
          have : head = some y := h1.1
          have hya : y ≠ a := by
            rintro rfl
            exact ha1 (List.mem_cons_self _ _)
          simp [this, hya]
      rw [hhead]
      exact hre
    · rw [← hprev]
      exact Chain.reprev (some a) na.previous L2 na.next none hrest hnd2
        (fun x hx xn hxn => hget2 x hx xn hxn)
  · intro x hx
    rcases List.mem_append.1 hx with hx1 | hx2
    · obtain ⟨xn, hxn⟩ := hlive1 x hx1
      refine ⟨xn, _, hxn, hget1 x hx1 xn hxn, ?_⟩
      split <;> rfl
    · obtain ⟨xn, hxn⟩ := hlive2 x hx2
      refine ⟨xn, _, hxn, hget2 x hx2 xn hxn, ?_⟩
      split <;> rfl

/-! ## `delete_` -/

/-- Turning the `FULL` cell at `p` into a `DELETED` one and unlinking its node gives the
list without that node. -/
theorem Linked.unlink {m m1 : HashMap K V} {p a : Nat} {c c1 : Cell K V} {L1 L2 : List Nat}
    (hL : Linked m (L1 ++ a :: L2)) (hc : m._data[p]? = some c)
    (hv : c.validation = State.FULL) (hptr : c.ptr = some a)
    (hc1v : c1.validation ≠ State.FULL) (hc1p : c1.ptr = none)
    (hdata : m1._data = m._data.set p c1)
    (hun : unlink_ m.nodes m._ptr a = Except.ok (m1.nodes, m1._ptr)) :
    Linked m1 (L1 ++ L2) := by
  obtain ⟨nodes1, head1, hun1, hchain1, hkeep⟩ :=
    unlink_spec m.nodes m._ptr a L1 L2 hL.chain hL.nodup
  rw [hun] at hun1
  cases hun1
  have hplt : p < m._data.length := lt_of_getElem?_eq_some hc
  have htag : (tags m._data)[p]? = some State.FULL := by rw [tags_getElem?, hc, ← hv]; rfl
  have hlink : (links m._data)[p]? = some (some a) := by rw [links_getElem?, hc, ← hptr]; rfl
  have hmemL : ∀ x, x ∈ L1 ++ L2 → x ∈ L1 ++ a :: L2 := by
    intro x hx
    rcases List.mem_append.1 hx with h | h
    · exact List.mem_append_left _ h
    · exact List.mem_append_right _ (List.mem_cons_of_mem _ h)
  have hne_a : ∀ x, x ∈ L1 ++ L2 → x ≠ a := by
    rintro x hx rfl
    have h1 : x ∉ L1 := fun h =>
      (List.nodup_append.1 hL.nodup).2.2 h (List.mem_cons_self _ _)
    have h2 : x ∉ L2 := (List.nodup_cons.1 (List.nodup_append.1 hL.nodup).2.1).1
    rcases List.mem_append.1 hx with h | h
    · exact h1 h
    · exact h2 h
  have hsub : (L1 ++ L2).Nodup := by
    have h := List.nodup_append.1 hL.nodup
    exact List.nodup_append.2 ⟨h.1, (List.nodup_cons.1 h.2.1).2,
      fun x hx1 hx2 => h.2.2 hx1 (List.mem_cons_of_mem _ hx2)⟩
  constructor
  · exact hchain1
  · exact hsub
  · intro x hx
    obtain ⟨n, n1, hn, hn1, hcell⟩ := hkeep x hx
    obtain ⟨n0, hn0, hb⟩ := hL.back x (hmemL x hx)
    rw [hn] at hn0
    cases hn0
    refine ⟨n1, hn1, ?_⟩
    have hnp : p ≠ n.cell := by
      intro h
      rw [← h, hlink] at hb
      have hxa : a = x := by simpa using hb
      exact hne_a x hx hxa.symm
    rw [hdata, links_set, hcell, List.getElem?_set_ne hnp]
    exact hb
  · intro q hq
    rw [hdata] at hq ⊢
    by_cases hqp : q = p
    · subst hqp
      rw [tags_set, List.getElem?_set_self (by simpa [tags] using hplt)] at hq
      have hq1 : c1.validation = State.FULL := by simpa using hq
      exact absurd hq1 hc1v
    · rw [tags_set, List.getElem?_set_ne (fun e => hqp e.symm)] at hq
      obtain ⟨x, n, hl, hx, hn, hcell⟩ := hL.full q hq
      have hxa : x ≠ a := by
        rintro rfl
        obtain ⟨a2, n2, hl2, _, hn2, hcell2⟩ := hL.full p htag
        rw [hlink] at hl2
        cases hl2
        rw [hn] at hn2
        cases hn2
        exact hqp (hcell.symm.trans hcell2)
      have hx' : x ∈ L1 ++ L2 := by
        rcases List.mem_append.1 hx with h | h
        · exact List.mem_append_left _ h
        · rcases List.mem_cons.1 h with h | h
          · exact absurd h hxa
          · exact List.mem_append_right _ h
      obtain ⟨n0, n1, hn0, hn1, hcell1⟩ := hkeep x hx'
      rw [hn] at hn0
      cases hn0
      refine ⟨x, n1, ?_, hx', hn1, hcell1.trans hcell⟩
      rw [links_set, List.getElem?_set_ne (fun e => hqp e.symm)]
      exact hl
  · intro q t hq ht
    rw [hdata] at hq ⊢
    by_cases hqp : q = p
    · subst hqp
      rw [links_set, List.getElem?_set_self (by simpa [links] using hplt), hc1p]
    · rw [tags_set, List.getElem?_set_ne (fun e => hqp e.symm)] at hq
      rw [links_set, List.getElem?_set_ne (fun e => hqp e.symm)]
      exact hL.free q t hq ht

/-- The content invariant survives turning a `FULL` cell into one that is neither `FULL`
nor `EMPTY`. -/
theorem WFContent.tombstone {hasher : K → Nat} {m m1 : HashMap K V} {p : Nat} {c1 : Cell K V}
    (hwf : WFContent hasher m) (hp : p < m._data.length)
    (hcap : m1._capacity = m._capacity) (hdata : m1._data = m._data.set p c1)
    (hv : c1.validation = State.DELETED) : WFContent hasher m1 := by
  have hne : c1.validation ≠ State.EMPTY := by rw [hv]; intro h; cases h
  have hget : ∀ (q : Nat) (c : Cell K V), m1._data[q]? = some c → c.validation = State.FULL →
      m._data[q]? = some c := by
    intro q c hc hcv
    rw [hdata] at hc
    by_cases hqp : q = p
    · subst hqp
      rw [List.getElem?_set_self hp] at hc
      cases hc
      rw [hv] at hcv
      cases hcv
    · rwa [List.getElem?_set_ne (fun h => hqp h.symm)] at hc
  constructor
  · intro q c hc hcv
    exact hwf.hash_ok q c (hget q c hc hcv) hcv
  · intro q c hc hcv
    rw [hdata, hcap]
    exact (hwf.probe q c (hget q c hc hcv) hcv).over_set hne
  · intro q r cq cr hq hr hqv hrv hk
    exact hwf.uniq q r cq cr (hget q cq hq hqv) (hget r cr hr hrv) hqv hrv hk

/-- On a `FULL` cell of a well-formed table `delete_` marks the cell `DELETED`, takes its
node out of the list and adjusts the counters. -/
theorem delete_spec {hasher : K → Nat} {m : HashMap K V} {p : Nat} {c : Cell K V}
    (hwf : WF hasher m) (hc : m._data[p]? = some c) (hv : c.validation = State.FULL) :
    ∃ m1 : HashMap K V, delete_ m p = Except.ok m1 ∧ WF hasher m1 ∧
      m1._capacity = m._capacity ∧ m1._added + 1 = m._added ∧
      m1._deleted = m._deleted + 1 ∧
      m1._data = m._data.set p { c with validation := State.DELETED, ptr := none } ∧
      ∀ (L1 L2 : List Nat) (a : Nat), Linked m (L1 ++ a :: L2) → c.ptr = some a →
        Linked m1 (L1 ++ L2) := by
  obtain ⟨L, hL⟩ := hwf.list.linked
  have hplt : p < m._data.length := lt_of_getElem?_eq_some hc
  have htag : (tags m._data)[p]? = some State.FULL := by rw [tags_getElem?, hc, ← hv]; rfl
  obtain ⟨a, n, hlink, haL, hn, hcell⟩ := hL.full p htag
  have hptr : c.ptr = some a := by
    rw [links_getElem?, hc] at hlink
    simpa using hlink
  obtain ⟨L1, L2, rfl⟩ := List.append_of_mem haL
  obtain ⟨nodes1, head1, hun, _, _⟩ := unlink_spec m.nodes m._ptr a L1 L2 hL.chain hL.nodup
  have hpos : 0 < m._added := by
    rw [hwf.list.added, List.count_pos_iff, List.mem_iff_getElem?]
    exact ⟨p, htag⟩
  have hdel : ∃ m1 : HashMap K V, delete_ m p = Except.ok m1 ∧
      m1._capacity = m._capacity ∧ m1._added = m._added - 1 ∧
      m1._deleted = m._deleted + 1 ∧
      m1._data = m._data.set p { c with validation := State.DELETED, ptr := none } ∧
      m1._ptr = head1 ∧ m1.nodes = nodes1 := by
    simp only [delete_, readCell_eq_ok hc, ok_bind, hv, hptr, hun, pure, Except.pure]
    exact ⟨_, rfl, rfl, decr_of_pos hpos, rfl, rfl, rfl, rfl⟩
  obtain ⟨m1, hm1, hcap, hadd, hdeleted, hdata, hhead, hnodes⟩ := hdel
  have hlinked : ∀ (L1 L2 : List Nat) (a1 : Nat), Linked m (L1 ++ a1 :: L2) → c.ptr = some a1 →
      Linked m1 (L1 ++ L2) := by
    intro M1 M2 a1 hM hptr1
    have : a1 = a := by
      rw [hptr] at hptr1
      cases hptr1
      rfl
    subst this
    exact hM.unlink hc hv hptr (by intro h; cases h) rfl hdata (by rw [hnodes, hhead]; exact hun)
  refine ⟨m1, hm1, ⟨⟨?_, ?_, ?_, ⟨_, hlinked L1 L2 a hL hptr⟩⟩, ?_, ?_, ?_⟩, hcap, by omega,
    hdeleted, hdata, hlinked⟩
  · rw [hdata, List.length_set, hcap]
    exact hwf.list.len
  · have := count_set (tags m._data) p State.FULL State.DELETED State.FULL htag
    rw [hdata, tags_set, hadd, hwf.list.added]
    dsimp only
    simp at this
    omega
  · have := count_set (tags m._data) p State.FULL State.DELETED State.DELETED htag
    rw [hdata, tags_set, hdeleted, hwf.list.deleted]
    dsimp only
    simp at this
    omega
  · exact hwf.content.tombstone hplt hcap hdata rfl
  · rw [hcap]
    exact hwf.cap
  · rw [hcap, hadd, hdeleted]
    have := hwf.load
    omega

/-! ## `clear` -/

theorem count_DELETED_map_reset (ts : List State) :
    (ts.map (fun t => if t = State.FULL then State.EMPTY else t)).count State.DELETED =
      ts.count State.DELETED := by
  induction ts with
  | nil => rfl
  | cons t ts ih =>
    cases t <;> simp [List.count_cons, ih]

/-- On a well-formed table `clear` returns; every `FULL` cell has become `EMPTY`, the other
cells are as they were, and the list is empty. -/
theorem clear_spec {hasher : K → Nat} {m : HashMap K V} (hwf : WF hasher m) :
    ∃ m1 : HashMap K V, clear m = Except.ok m1 ∧ WF hasher m1 ∧
      m1._capacity = m._capacity ∧ m1._added = 0 ∧ m1._deleted = m._deleted ∧
      (∀ (p : Nat) (c : Cell K V), m._data[p]? = some c →
        m1._data[p]? = some (if c.validation = State.FULL
          then { c with validation := State.EMPTY, ptr := none } else c)) ∧
      Linked m1 [] ∧ ∀ e, ¬ Stored m1 e := by
  obtain ⟨L, hL⟩ := hwf.list.linked
  obtain ⟨nodes1, data1, hloop, hlen, hin, hout⟩ :=
    release_loop_spec true L m.nodes.length m.nodes m._data none m._ptr hL.length_le hL.chain
      hL.nodup hL.cell_lt
  have hcell : ∀ (p : Nat) (c : Cell K V), m._data[p]? = some c →
      data1[p]? = some (if c.validation = State.FULL
        then { c with validation := State.EMPTY, ptr := none } else c) := by
    intro p c hc
    have htag : (tags m._data)[p]? = some c.validation := by rw [tags_getElem?, hc]; rfl
    by_cases hv : c.validation = State.FULL
    · rw [hin p ((hL.cell_iff p).2 (by rw [htag, hv])), hc, if_pos hv]
      rfl
    · rw [hout p (fun h => hv (by
        have := (hL.cell_iff p).1 h
        rw [htag] at this
        exact Option.some.inj this)), hc, if_neg hv]
  have hcell_inv : ∀ (p : Nat) (c1 : Cell K V), data1[p]? = some c1 →
      ∃ c : Cell K V, m._data[p]? = some c ∧ c1 = (if c.validation = State.FULL
        then { c with validation := State.EMPTY, ptr := none } else c) := by
    intro p c1 hc1
    obtain ⟨c, hc⟩ := exists_cell_of_lt m._data (p)
      (by rw [← hlen]; exact lt_of_getElem?_eq_some hc1)
    have := hcell p c hc
    rw [hc1] at this
    exact ⟨c, hc, Option.some.inj this⟩
  have hnofull : ∀ (p : Nat) (c1 : Cell K V), data1[p]? = some c1 →
      c1.validation ≠ State.FULL := by
    intro p c1 hc1
    obtain ⟨c, _, rfl⟩ := hcell_inv p c1 hc1
    by_cases hv : c.validation = State.FULL
    · rw [if_pos hv]
      intro h
      cases h
    · rw [if_neg hv]
      exact hv
  have hnoptr : ∀ (p : Nat) (c1 : Cell K V), data1[p]? = some c1 → c1.ptr = none := by
    intro p c1 hc1
    obtain ⟨c, hc, rfl⟩ := hcell_inv p c1 hc1
    by_cases hv : c.validation = State.FULL
    · rw [if_pos hv]
    · rw [if_neg hv]
      have := hL.free p c.validation (by rw [tags_getElem?, hc]; rfl) hv
      rw [links_getElem?, hc] at this
      simpa using this
  have htags : tags data1 =
      (tags m._data).map (fun t => if t = State.FULL then State.EMPTY else t) := by
    apply List.ext_getElem?
    intro p
    rw [List.getElem?_map, tags_getElem?, tags_getElem?]
    cases hc : m._data[p]? with
    | none =>
      have : data1[p]? = none := by
        rw [List.getElem?_eq_none_iff, hlen, ← List.getElem?_eq_none_iff]
        exact hc
      rw [this]
      rfl
    | some c =>
      rw [hcell p c hc]
      by_cases hv : c.validation = State.FULL
      · simp [hv]
      · simp [hv]
  have hnotag : ∀ p : Nat, (tags data1)[p]? ≠ some State.FULL := by
    intro p hp
    rw [tags_getElem?] at hp
    cases hc : data1[p]? with
    | none => rw [hc] at hp; cases hp
    | some c1 =>
      rw [hc] at hp
      exact hnofull p c1 hc (by simpa using hp)
  have hlinked : Linked
      ({ m with _added := 0, _data := data1, _ptr := none, nodes := nodes1 } : HashMap K V) [] := by
    refine ⟨rfl, List.nodup_nil, ?_, ?_, ?_⟩
    · intro a ha
      cases ha
    · intro p hp
      exact absurd hp (hnotag p)
    · intro p t hp _
      show (links data1)[p]? = some none
      rw [links_getElem?]
      rw [tags_getElem?] at hp
      cases hc : data1[p]? with
      | none => rw [hc] at hp; cases hp
      | some c1 => simp [hnoptr p c1 hc]
  refine ⟨{ m with _added := 0, _data := data1, _ptr := none, nodes := nodes1 }, ?_,
    ⟨⟨?_, ?_, ?_, ⟨[], hlinked⟩⟩, ⟨?_, ?_, ?_⟩, hwf.cap, ?_⟩, rfl, rfl, rfl, hcell, hlinked, ?_⟩
  · simp only [clear, hloop, ok_bind, pure, Except.pure]
  · show data1.length = m._capacity
    rw [hlen]
    exact hwf.list.len
  · show 0 = (tags data1).count State.FULL
    symm
    rw [List.count_eq_zero]
    intro hmem
    obtain ⟨p, hp⟩ := List.mem_iff_getElem?.1 hmem
    exact hnotag p hp
  · show m._deleted = (tags data1).count State.DELETED
    rw [htags, count_DELETED_map_reset]
    exact hwf.list.deleted
  · intro p c hc hv
    exact absurd hv (hnofull p c hc)
  · intro p c hc hv
    exact absurd hv (hnofull p c hc)
  · intro p q cp cq hp _ hv
    exact absurd hv (hnofull p cp hp)
  · show 4 * (0 + m._deleted) < 3 * m._capacity + 4
    have := hwf.load
    omega
  · rintro e ⟨p, c, hc, hv, _⟩
    exact hnofull p c hc hv

/-! ## The public operations on a well-formed table -/

/-- In a well-formed table the key of a stored pair determines the pair. -/
theorem Stored.unique {hasher : K → Nat} {m : HashMap K V} (hwf : WF hasher m) {k : K} {v w : V}
    (h1 : Stored m (k, v)) (h2 : Stored m (k, w)) : v = w := by
  obtain ⟨p, cp, hp, hpv, hpe⟩ := h1
  obtain ⟨q, cq, hq, hqv, hqe⟩ := h2
  have := hwf.content.uniq p q cp cq hp hq hpv hqv (by rw [hpe, hqe])
  subst this
  rw [hp] at hq
  cases hq
  rw [hpe] at hqe
  exact (Prod.mk.inj hqe).2

/-- In a table with an `EMPTY` cell, `find_element_` on the key of a stored pair returns its position. -/
theorem find_element_stored_room [DecidableEq K] {hasher : K → Nat} {m : HashMap K V}
    (hwf : WFRoom hasher m) {k : K} {v : V} (h : Stored m (k, v)) :
    ∃ (p : Nat) (c : Cell K V), find_element_with_hash_ m k (hashOf hasher k) = Except.ok (true, p) ∧
      m._data[p]? = some c ∧ c.validation = State.FULL ∧ c.element = (k, v) := by
  obtain ⟨p, c, hc, hv, he⟩ := h
  have := find_element_present_room hwf hc hv
  rw [he] at this
  exact ⟨p, c, this, hc, hv, he⟩

/-- The answer of `find` for a stored pair, in a table with an `EMPTY` cell. -/
theorem find_entry_stored_room [DecidableEq K] {hasher : K → Nat} {m : HashMap K V}
    (hwf : WFRoom hasher m) {k : K} {v : V} (h : Stored m (k, v)) :
    find_entry hasher m k = Except.ok (some (k, v)) := by
  obtain ⟨p, c, hfind, hc, hv, he⟩ := find_element_stored_room hwf h
  obtain ⟨L, hL⟩ := hwf.list.linked
  obtain ⟨a, n, hlink, _, hn, hcell⟩ := hL.full p (by rw [tags_getElem?, hc, ← hv]; rfl)
  have hptr : c.ptr = some a := by
    rw [links_getElem?, hc] at hlink
    simpa using hlink
  subst hcell
  simp [find_entry, find, find_element_, hfind, ok_bind, readCell_eq_ok hc, hptr, deref,
    readPtr_eq_ok hn, he, pure, Except.pure]

/-- The answer of `find` for a key that is not stored, in a table with an `EMPTY` cell. -/
theorem find_entry_absent_room [DecidableEq K] {hasher : K → Nat} {m : HashMap K V}
    (hwf : WFRoom hasher m) {k : K} (h : ¬ HasKey m k) :
    find_entry hasher m k = Except.ok none := by
  obtain ⟨q, c, hfind, _, _⟩ := find_element_absent_room hwf k (hashOf hasher k) h
  simp [find_entry, find, find_element_, hfind, ok_bind, pure, Except.pure]

/-- What `find` answers tells what is stored, in a table with an `EMPTY` cell. -/
theorem find_entry_iff_room [DecidableEq K] {hasher : K → Nat} {m : HashMap K V}
    (hwf : WFRoom hasher m) (k : K) :
    (∀ v, find_entry hasher m k = Except.ok (some (k, v)) ↔ Stored m (k, v)) ∧
    (find_entry hasher m k = Except.ok none ↔ ¬ HasKey m k) := by
  by_cases hk : HasKey m k
  · obtain ⟨v, hv⟩ := hk
    have hf := find_entry_stored_room hwf hv
    constructor
    · intro w
      constructor
      · intro hw
        rw [hf] at hw
        cases hw
        exact hv
      · intro hw
        exact find_entry_stored_room hwf hw
    · constructor
      · intro hn
        rw [hf] at hn
        cases hn
      · intro hn
        exact absurd ⟨v, hv⟩ hn
  · have hf := find_entry_absent_room hwf hk
    constructor
    · intro w
      constructor
      · intro hw
        rw [hf] at hw
        cases hw
      · intro hw
        exact absurd ⟨w, hw⟩ hk
    · exact ⟨fun _ => hk, fun _ => hf⟩

/-- Lookup of a stored pair: `find_element_` returns its position. -/
theorem find_element_stored [DecidableEq K] {hasher : K → Nat} {m : HashMap K V}
    (hwf : WF hasher m) {k : K} {v : V} (h : Stored m (k, v)) :
    ∃ (p : Nat) (c : Cell K V), find_element_with_hash_ m k (hashOf hasher k) = Except.ok (true, p) ∧
      m._data[p]? = some c ∧ c.validation = State.FULL ∧ c.element = (k, v) :=
  find_element_stored_room hwf.to_room h

/-- The answer of `find` for a stored pair. -/
theorem find_entry_stored [DecidableEq K] {hasher : K → Nat} {m : HashMap K V}
    (hwf : WF hasher m) {k : K} {v : V} (h : Stored m (k, v)) :
    find_entry hasher m k = Except.ok (some (k, v)) :=
  find_entry_stored_room hwf.to_room h

/-- The answer of `find` for a key that is not stored. -/
theorem find_entry_absent [DecidableEq K] {hasher : K → Nat} {m : HashMap K V}
    (hwf : WF hasher m) {k : K} (h : ¬ HasKey m k) :
    find_entry hasher m k = Except.ok none :=
  find_entry_absent_room hwf.to_room h

/-- What `find` answers tells what is stored. -/
theorem find_entry_iff [DecidableEq K] {hasher : K → Nat} {m : HashMap K V}
    (hwf : WF hasher m) (k : K) :
    (∀ v, find_entry hasher m k = Except.ok (some (k, v)) ↔ Stored m (k, v)) ∧
    (find_entry hasher m k = Except.ok none ↔ ¬ HasKey m k) :=
  find_entry_iff_room hwf.to_room k

/-- Two well-formed tables with the same stored pairs give the same answers to `find`. -/
theorem find_entry_congr [DecidableEq K] {hasher : K → Nat} {m m1 : HashMap K V}
    (hwf : WF hasher m) (hwf1 : WF hasher m1) (h : ∀ e, Stored m1 e ↔ Stored m e) (k : K) :
    find_entry hasher m1 k = find_entry hasher m k := by
  by_cases hk : HasKey m k
  · obtain ⟨v, hv⟩ := hk
    rw [find_entry_stored hwf hv, find_entry_stored hwf1 ((h _).2 hv)]
  · have hk1 : ¬ HasKey m1 k := by
      rintro ⟨v, hv⟩
      exact hk ⟨v, (h _).1 hv⟩
    rw [find_entry_absent hwf hk, find_entry_absent hwf1 hk1]

/-- The object before the body of a constructor runs is well formed apart from its size. -/
theorem initial_object (hasher : K → Nat) :
    WFList (initial K V) ∧ WFContent hasher (initial K V) := by
  refine ⟨⟨rfl, rfl, rfl, [], rfl, List.nodup_nil, ?_, ?_, ?_⟩, ⟨?_, ?_, ?_⟩⟩
  · intro a ha
    cases ha
  · intro p hp
    simp [tags, initial] at hp
  · intro p t hp
    simp [tags, initial] at hp
  · intro p c hc
    simp [initial] at hc
  · intro p c hc
    simp [initial] at hc
  · intro p q cp cq hp
    simp [initial] at hp

/-- The default constructor returns a well-formed empty table of capacity 128. -/
theorem construct_spec [Inhabited K] [Inhabited V] (hasher : K → Nat) :
    ∃ m : HashMap K V, construct K V = Except.ok m ∧ WF hasher m ∧ m._capacity = 128 ∧
      m._added = 0 ∧ m._deleted = 0 ∧ ∀ e, ¬ Stored m e := by
  obtain ⟨hl, hc⟩ := initial_object (K := K) (V := V) hasher
  obtain ⟨m, hm, hl1, hc1, hcap, hadd, hdel, hst⟩ :=
    resize_no_trigger hasher 1 (initial K V) 128 hl hc (by show 4 * 0 < 3 * 128 + 4; omega)
  refine ⟨m, hm, ⟨hl1, hc1, by omega, ?_⟩, hcap, hadd, hdel, ?_⟩
  · rw [hadd, hdel, hcap]
    show 4 * (0 + 0) < 3 * 128 + 4
    omega
  · intro e he
    obtain ⟨p, c, hpc, _⟩ := (hst e).1 he
    simp [initial] at hpc

/-- The member function `insert` on a well-formed table. -/
theorem insert_spec [DecidableEq K] [Inhabited K] [Inhabited V] {hasher : K → Nat}
    {m : HashMap K V} (hwf : WF hasher m) (e : K × V) :
    (HasKey m e.1 → insert hasher m e = Except.ok m) ∧
    (¬ HasKey m e.1 → ∃ m1 : HashMap K V, insert hasher m e = Except.ok m1 ∧ WF hasher m1 ∧
      m1._added = m._added + 1 ∧ m1._deleted ≤ m._deleted ∧
      (∀ e1, Stored m1 e1 ↔ Stored m e1 ∨ e1 = e) ∧
      m1._capacity = (if 3 * m._capacity ≤ 4 * (m._added + m._deleted)
        then m._capacity * 2 else m._capacity)) := by
  constructor
  · rintro ⟨v, hv⟩
    obtain ⟨p, c, hfind, _⟩ := find_element_stored hwf hv
    simp [HashMap.insert, hfind, ok_bind, pure, Except.pure]
  · intro hk
    obtain ⟨q, c, hfind, _, _⟩ := find_element_absent hwf e.1 (hashOf hasher e.1) hk
    obtain ⟨m1, hm1, hrest⟩ := hard_insert_with_hash_spec hasher m e hwf hk
    exact ⟨m1, by simp [HashMap.insert, hfind, ok_bind, hm1], hrest⟩

/-- The member function `erase` on a well-formed table. -/
theorem erase_spec [DecidableEq K] {hasher : K → Nat} {m : HashMap K V} (hwf : WF hasher m)
    (k : K) :
    (¬ HasKey m k → erase hasher m k = Except.ok m) ∧
    (∀ v, Stored m (k, v) → ∃ m1 : HashMap K V, erase hasher m k = Except.ok m1 ∧
      WF hasher m1 ∧ m1._capacity = m._capacity ∧ m1._added + 1 = m._added ∧
      m1._deleted = m._deleted + 1 ∧
      ∀ e1, Stored m1 e1 ↔ Stored m e1 ∧ e1.1 ≠ k) := by
  constructor
  · intro hk
    obtain ⟨q, c, hfind, _, _⟩ := find_element_absent hwf k (hashOf hasher k) hk
    simp [erase, find_element_, hfind, ok_bind, pure, Except.pure]
  · intro v hv
    obtain ⟨p, c, hfind, hc, hcv, he⟩ := find_element_stored hwf hv
    obtain ⟨m1, hm1, hwf1, hcap, hadd, hdel, hdata, _⟩ := delete_spec hwf hc hcv
    have hplt : p < m._data.length := lt_of_getElem?_eq_some hc
    refine ⟨m1, by simp [erase, find_element_, hfind, ok_bind, hm1], hwf1, hcap, hadd, hdel, ?_⟩
    intro e1
    constructor
    · rintro ⟨q, cq, hq, hqv, hqe⟩
      rw [hdata] at hq
      by_cases hqp : q = p
      · subst hqp
        rw [List.getElem?_set_self hplt] at hq
        cases hq
        cases hqv
      · rw [List.getElem?_set_ne (fun h => hqp h.symm)] at hq
        refine ⟨⟨q, cq, hq, hqv, hqe⟩, ?_⟩
        intro hk
        apply hqp
        exact hwf.content.uniq q p cq c hq hc hqv hcv (by rw [hqe, he]; exact hk)
    · rintro ⟨⟨q, cq, hq, hqv, hqe⟩, hne⟩
      have hqp : q ≠ p := by
        rintro rfl
        rw [hc] at hq
        cases hq
        rw [he] at hqe
        exact hne (by rw [← hqe])
      exact ⟨q, cq, by rw [hdata, List.getElem?_set_ne (fun h => hqp h.symm)]; exact hq, hqv, hqe⟩

/-- The member function `at` on a well-formed table. -/
theorem at_spec [DecidableEq K] {hasher : K → Nat} {m : HashMap K V} (hwf : WF hasher m)
    (k : K) :
    (∀ v, Stored m (k, v) → at_ hasher m k = Except.ok v) ∧
    (¬ HasKey m k → at_ hasher m k = Except.error Error.out_of_range) := by
  constructor
  · intro v hv
    obtain ⟨p, c, hfind, hc, _, he⟩ := find_element_stored hwf hv
    simp [at_, find_element_, hfind, ok_bind, readCell_eq_ok hc, he, pure, Except.pure]
  · intro hk
    obtain ⟨q, c, hfind, _, _⟩ := find_element_absent hwf k (hashOf hasher k) hk
    simp [at_, find_element_, hfind, ok_bind]

/-- The member function `operator[]` on a well-formed table. -/
theorem operator_brackets_spec [DecidableEq K] [Inhabited K] [Inhabited V] {hasher : K → Nat}
    {m : HashMap K V} (hwf : WF hasher m) (k : K) :
    (∀ v, Stored m (k, v) → operator_brackets hasher m k = Except.ok (v, m)) ∧
    (¬ HasKey m k → ∃ m1 : HashMap K V,
      operator_brackets hasher m k = Except.ok (default, m1) ∧ WF hasher m1 ∧
      m1._added = m._added + 1 ∧ ∀ e1, Stored m1 e1 ↔ Stored m e1 ∨ e1 = (k, default)) := by
  constructor
  · intro v hv
    obtain ⟨p, c, hfind, hc, _, he⟩ := find_element_stored hwf hv
    simp [operator_brackets, hfind, ok_bind, readCell_eq_ok hc, he, pure, Except.pure]
  · intro hk
    obtain ⟨q, c, hfind, _, _⟩ := find_element_absent hwf k (hashOf hasher k) hk
    obtain ⟨m1, hm1, hwf1, hadd, _, hst, _⟩ :=
      hard_insert_with_hash_spec hasher m (k, default) hwf hk
    obtain ⟨p, c1, hfind1, hc1, _, he1⟩ :=
      find_element_stored hwf1 ((hst (k, default)).2 (Or.inr rfl))
    refine ⟨m1, ?_, hwf1, hadd, hst⟩
    simp [operator_brackets, hfind, ok_bind, hm1, hfind1, readCell_eq_ok hc1, he1, pure,
      Except.pure]

/-- Every table obtained from the default constructor by `insert`, `erase`, `operator[]` and
`clear` is well formed. -/
theorem Reachable.wf [DecidableEq K] [Inhabited K] [Inhabited V] {hasher : K → Nat}
    {m : HashMap K V} (h : Reachable hasher m) : WF hasher m := by
  induction h with
  | construct m hm =>
    obtain ⟨m0, hm0, hwf, _⟩ := construct_spec (K := K) (V := V) hasher
    rw [hm] at hm0
    cases hm0
    exact hwf
  | insert m m1 e _ hm ih =>
    by_cases hk : HasKey m e.1
    · rw [(insert_spec ih e).1 hk] at hm
      cases hm
      exact ih
    · obtain ⟨m2, hm2, hwf, _⟩ := (insert_spec ih e).2 hk
      rw [hm] at hm2
      cases hm2
      exact hwf
  | erase m m1 k _ hm ih =>
    by_cases hk : HasKey m k
    · obtain ⟨v, hv⟩ := hk
      obtain ⟨m2, hm2, hwf, _⟩ := (erase_spec ih k).2 v hv
      rw [hm] at hm2
      cases hm2
      exact hwf
    · rw [(erase_spec ih k).1 hk] at hm
      cases hm
      exact ih
  | operator_brackets m m1 k v _ hm ih =>
    by_cases hk : HasKey m k
    · obtain ⟨w, hw⟩ := hk
      rw [(operator_brackets_spec ih k).1 w hw] at hm
      cases hm
      exact ih
    · obtain ⟨m2, hm2, hwf, _⟩ := (operator_brackets_spec ih k).2 hk
      rw [hm] at hm2
      cases hm2
      exact hwf
  | clear m m1 _ hm ih =>
    obtain ⟨m2, hm2, hwf, _⟩ := clear_spec ih
    rw [hm] at hm2
    cases hm2
    exact hwf

/-! ## Iteration -/

theorem forall2_mem_right {α β : Type} {R : α → β → Prop} {l : List α} {r : List β}
    (h : List.Forall₂ R l r) : ∀ b, b ∈ r → ∃ a, a ∈ l ∧ R a b := by
  induction h with
  | nil => intro b hb; cases hb
  | cons hab _ ih =>
    intro b hb
    rcases List.mem_cons.1 hb with rfl | hb
    · exact ⟨_, List.mem_cons_self _ _, hab⟩
    · obtain ⟨a, ha, hr⟩ := ih b hb
      exact ⟨a, List.mem_cons_of_mem _ ha, hr⟩

theorem forall2_mem_left {α β : Type} {R : α → β → Prop} {l : List α} {r : List β}
    (h : List.Forall₂ R l r) : ∀ a, a ∈ l → ∃ b, b ∈ r ∧ R a b := by
  induction h with
  | nil => intro a ha; cases ha
  | cons hab _ ih =>
    intro a ha
    rcases List.mem_cons.1 ha with rfl | ha
    · exact ⟨_, List.mem_cons_self _ _, hab⟩
    · obtain ⟨b, hb, hr⟩ := ih a ha
      exact ⟨b, List.mem_cons_of_mem _ hb, hr⟩

theorem forall2_nodup {α β γ : Type} {R : α → β → Prop} (g : β → γ) {l : List α} {r : List β}
    (h : List.Forall₂ R l r) (hnd : l.Nodup)
    (hinj : ∀ a a1 b b1, a ∈ l → a1 ∈ l → R a b → R a1 b1 → g b = g b1 → a = a1) :
    (r.map g).Nodup := by
  induction h with
  | nil => exact List.nodup_nil
  | @cons a b l r hab hrest ih =>
    rw [List.map_cons, List.nodup_cons]
    refine ⟨?_, ih (List.nodup_cons.1 hnd).2 (fun x x1 y y1 hx hx1 =>
      hinj x x1 y y1 (List.mem_cons_of_mem _ hx) (List.mem_cons_of_mem _ hx1))⟩
    intro hmem
    obtain ⟨b1, hb1, hg⟩ := List.mem_map.1 hmem
    obtain ⟨a1, ha1, hr1⟩ := forall2_mem_right hrest b1 hb1
    have := hinj a a1 b b1 (List.mem_cons_self _ _) (List.mem_cons_of_mem _ ha1) hab hr1 hg.symm
    subst this
    exact (List.nodup_cons.1 hnd).1 ha1

/-- A list without duplicates of the positions tagged `FULL` has as many members as there
are `FULL` tags. -/
theorem length_eq_count_FULL : ∀ (ts : List State) (P : List Nat), P.Nodup →
    (∀ p, p ∈ P ↔ ts[p]? = some State.FULL) → P.length = ts.count State.FULL := by
  intro ts
  induction ts with
  | nil =>
    intro P _ hmem
    cases P with
    | nil => rfl
    | cons p P =>
      have := (hmem p).1 (List.mem_cons_self _ _)
      simp at this
  | cons t ts ih =>
    intro P hnd hmem
    have hfm : (P.filterMap (fun p => if p = 0 then none else some (p - 1))).length =
        ts.count State.FULL := by
      apply ih
      · apply hnd.filterMap
        intro a a1 b hb hb1
        simp only [Option.mem_def] at hb hb1
        by_cases ha : a = 0
        · simp [ha] at hb
        · by_cases ha1 : a1 = 0
          · simp [ha1] at hb1
          · simp only [if_neg ha, if_neg ha1, Option.some.injEq] at hb hb1
            omega
      · intro q
        rw [List.mem_filterMap]
        constructor
        · rintro ⟨p, hp, hq⟩
          split at hq
          · cases hq
          · cases hq
            have := (hmem p).1 hp
            obtain ⟨p1, rfl⟩ : ∃ p1, p = p1 + 1 := ⟨p - 1, by omega⟩
            simpa using this
        · intro hq
          exact ⟨q + 1, (hmem (q + 1)).2 (by simpa using hq), by simp⟩
    have hsplit : P.length =
        (P.filterMap (fun p => if p = 0 then none else some (p - 1))).length + P.count 0 := by
      clear hfm hmem hnd ih
      induction P with
      | nil => rfl
      | cons p P ihP =>
        by_cases hp : p = 0
        · subst hp
          simp [List.filterMap_cons, ihP]
          omega
        · simp [List.filterMap_cons, hp, List.count_cons, ihP]
          omega
    have hzero : P.count 0 = if t = State.FULL then 1 else 0 := by
      by_cases ht : t = State.FULL
      · rw [if_pos ht]
        exact List.count_eq_one_of_mem hnd ((hmem 0).2 (by simp [ht]))
      · rw [if_neg ht, List.count_eq_zero]
        intro h0
        have := (hmem 0).1 h0
        simp at this
        exact ht this
    rw [hsplit, hfm, hzero, List.count_cons]
    simp only [beq_iff_eq]

/-- The list of a well-formed table has `size()` nodes. -/
theorem Linked.length_eq {m : HashMap K V} {L : List Nat} (h : Linked m L) (hwf : WFList m) :
    L.length = m._added := by
  have hP : ((L.map (fun a => match m.nodes[a]? with
      | some (some n) => n.cell
      | _ => 0)).length = (tags m._data).count State.FULL) := by
    apply length_eq_count_FULL
    · rw [List.nodup_map_iff_inj_on h.nodup]
      intro a ha a1 ha1 heq
      obtain ⟨n, hn, hb⟩ := h.back a ha
      obtain ⟨n1, hn1, hb1⟩ := h.back a1 ha1
      simp only [hn, hn1] at heq
      rw [heq, hb1] at hb
      simpa using hb.symm
    · intro p
      rw [← h.cell_iff p, List.mem_map]
      constructor
      · rintro ⟨a, ha, hp⟩
        obtain ⟨n, hn, _⟩ := h.back a ha
        simp only [hn] at hp
        exact ⟨a, ha, n, hn, hp⟩
      · rintro ⟨a, ha, n, hn, hp⟩
        exact ⟨a, ha, by simp only [hn]; exact hp⟩
  rw [List.length_map] at hP
  rw [hP, hwf.added]

/-- The loop of a full iteration visits the nodes of the chain in order and yields the
entry of the cell of each. -/
theorem iterate_loop_spec (m : HashMap K V) :
    ∀ (L : List Nat) (fuel : Nat) (prev cur : Option Nat), Chain m.nodes prev cur L none →
      L.length ≤ fuel →
      (∀ a, a ∈ L → ∀ n : Ptr, m.nodes[a]? = some (some n) → n.cell < m._data.length) →
      ∃ Ls : List (K × V), iterate_loop m fuel cur = Except.ok Ls ∧
        List.Forall₂ (fun a e => ∃ (n : Ptr) (c : Cell K V), m.nodes[a]? = some (some n) ∧
          m._data[n.cell]? = some c ∧ c.element = e) L Ls := by
  intro L
  induction L with
  | nil =>
    intro fuel prev cur hchain _ _
    have hcur : cur = none := hchain
    subst hcur
    refine ⟨[], ?_, List.Forall₂.nil⟩
    cases fuel <;> simp [iterate_loop]
  | cons a L ih =>
    intro fuel prev cur hchain hfuel hcells
    obtain ⟨hcur, n, hn, _, hrest⟩ := hchain
    subst hcur
    obtain ⟨f, rfl⟩ : ∃ f, fuel = f + 1 := ⟨fuel - 1, by simp at hfuel; omega⟩
    obtain ⟨c, hc⟩ := exists_cell_of_lt _ _ (hcells a (List.mem_cons_self _ _) n hn)
    obtain ⟨Ls, hLs, hall⟩ := ih f (some a) n.next hrest (by simp at hfuel; omega)
      (fun x hx => hcells x (List.mem_cons_of_mem _ hx))
    refine ⟨c.element :: Ls, ?_, List.Forall₂.cons ⟨n, c, hn, hc, rfl⟩ hall⟩
    simp [iterate_loop, deref, readPtr_eq_ok hn, readCell_eq_ok hc, ok_bind, hLs, pure,
      Except.pure]

/-- A full iteration over a table with a well-formed list and content ends; it visits `size()` entries, exactly the
stored pairs, and no key twice. -/
theorem iterate_spec_lists {hasher : K → Nat} {m : HashMap K V} (hlist : WFList m)
    (hcont : WFContent hasher m) :
    ∃ Ls : List (K × V), iterate m = Except.ok Ls ∧ Ls.length = m._added ∧
      (∀ e, e ∈ Ls ↔ Stored m e) ∧ (Ls.map Prod.fst).Nodup := by
  obtain ⟨L, hL⟩ := hlist.linked
  obtain ⟨Ls, hLs, hall⟩ := iterate_loop_spec m L m.nodes.length none m._ptr hL.chain
    hL.length_le hL.cell_lt
  have hfull : ∀ (a : Nat) (n : Ptr) (c : Cell K V), a ∈ L → m.nodes[a]? = some (some n) →
      m._data[n.cell]? = some c → c.validation = State.FULL := by
    intro a n c ha hn hc
    have := (hL.cell_iff n.cell).1 ⟨a, ha, n, hn, rfl⟩
    rw [tags_getElem?, hc] at this
    simpa using this
  refine ⟨Ls, hLs, ?_, ?_, ?_⟩
  · rw [← hall.length_eq]
    exact hL.length_eq hlist
  · intro e
    constructor
    · intro he
      obtain ⟨a, ha, n, c, hn, hc, hce⟩ := forall2_mem_right hall e he
      exact ⟨n.cell, c, hc, hfull a n c ha hn hc, hce⟩
    · rintro ⟨p, c, hc, hv, hce⟩
      obtain ⟨a, n, _, ha, hn, hcell⟩ := hL.full p (by rw [tags_getElem?, hc, ← hv]; rfl)
      obtain ⟨e1, he1, n1, c1, hn1, hc1, hce1⟩ := forall2_mem_left hall a ha
      rw [hn] at hn1
      cases hn1
      rw [hcell, hc] at hc1
      cases hc1
      rw [← hce, hce1]
      exact he1
  · apply forall2_nodup Prod.fst hall hL.nodup
    rintro a a1 e e1 ha ha1 ⟨n, c, hn, hc, hce⟩ ⟨n1, c1, hn1, hc1, hce1⟩ hk
    have hcell : n.cell = n1.cell :=
      hcont.uniq _ _ c c1 hc hc1 (hfull a n c ha hn hc) (hfull a1 n1 c1 ha1 hn1 hc1)
        (by rw [hce, hce1]; exact hk)
    obtain ⟨n2, hn2, hb⟩ := hL.back a ha
    obtain ⟨n3, hn3, hb1⟩ := hL.back a1 ha1
    rw [hn] at hn2
    cases hn2
    rw [hn1] at hn3
    cases hn3
    rw [hcell, hb1] at hb
    simpa using hb.symm

/-- A full iteration over a well-formed table ends; it visits `size()` entries, exactly the
stored pairs, and no key twice. -/
theorem iterate_spec {hasher : K → Nat} {m : HashMap K V} (hwf : WF hasher m) :
    ∃ Ls : List (K × V), iterate m = Except.ok Ls ∧ Ls.length = m._added ∧
      (∀ e, e ∈ Ls ↔ Stored m e) ∧ (Ls.map Prod.fst).Nodup :=
  iterate_spec_lists hwf.list hwf.content

/-! ## The copy constructor -/

/-- The pair at a node of the list is a stored pair. -/
theorem EntryAt.stored {m : HashMap K V} {L : List Nat} (hL : Linked m L) {a : Nat} {e : K × V}
    (ha : a ∈ L) (h : EntryAt m a e) : Stored m e := by
  obtain ⟨n, c, hn, hc, hce⟩ := h
  have := (hL.cell_iff n.cell).1 ⟨a, ha, n, hn, rfl⟩
  rw [tags_getElem?, hc] at this
  exact ⟨n.cell, c, hc, by simpa using this, hce⟩

/-- Every stored pair is the pair at some node of the list. -/
theorem Stored.entryAt {m : HashMap K V} {L : List Nat} (hL : Linked m L) {e : K × V}
    (h : Stored m e) : ∃ a, a ∈ L ∧ EntryAt m a e := by
  obtain ⟨p, c, hc, hv, hce⟩ := h
  obtain ⟨a, n, _, ha, hn, hcell⟩ := hL.full p (by rw [tags_getElem?, hc, ← hv]; rfl)
  exact ⟨a, ha, n, c, hn, by rw [hcell]; exact hc, hce⟩

/-- Two nodes of the list whose pairs have the same key are the same node. -/
theorem EntryAt.inj {hasher : K → Nat} {m : HashMap K V} {L : List Nat} (hwf : WF hasher m)
    (hL : Linked m L) {a a1 : Nat} {e e1 : K × V} (ha : a ∈ L) (ha1 : a1 ∈ L)
    (h : EntryAt m a e) (h1 : EntryAt m a1 e1) (hk : e.1 = e1.1) : a = a1 := by
  obtain ⟨p, c, hc, hv, hce⟩ := h.stored hL ha
  obtain ⟨p1, c1, hc1, hv1, hce1⟩ := h1.stored hL ha1
  obtain ⟨n, c2, hn, hc2, hce2⟩ := h
  obtain ⟨n1, c3, hn1, hc3, hce3⟩ := h1
  have hv2 : c2.validation = State.FULL := by
    have := (hL.cell_iff n.cell).1 ⟨a, ha, n, hn, rfl⟩
    rw [tags_getElem?, hc2] at this
    simpa using this
  have hv3 : c3.validation = State.FULL := by
    have := (hL.cell_iff n1.cell).1 ⟨a1, ha1, n1, hn1, rfl⟩
    rw [tags_getElem?, hc3] at this
    simpa using this
  have hcell : n.cell = n1.cell :=
    hwf.content.uniq _ _ c2 c3 hc2 hc3 hv2 hv3 (by rw [hce2, hce3]; exact hk)
  obtain ⟨n2, hn2, hb⟩ := hL.back a ha
  obtain ⟨n3, hn3, hb1⟩ := hL.back a1 ha1
  rw [hn] at hn2
  cases hn2
  rw [hn1] at hn3
  cases hn3
  rw [hcell, hb1] at hb
  simpa using hb.symm

/-- The loop of the copy constructor over the part `L` of the list of the source `s` that
is still to be visited. -/
theorem copy_loop_spec [Inhabited K] [Inhabited V] {hasher : K → Nat} {s : HashMap K V}
    (hs : WF hasher s) {Lfull : List Nat} (hfull : Linked s Lfull) :
    ∀ (L : List Nat) (fuel : Nat) (prev cur : Option Nat) (m : HashMap K V),
      Chain s.nodes prev cur L none → L.length ≤ fuel → L.Nodup → (∀ a, a ∈ L → a ∈ Lfull) →
      WFList m → WFContent hasher m → m._capacity = s._capacity → m._deleted = 0 →
      4 * (m._added + L.length) < 3 * s._capacity + 4 →
      (∀ a e, a ∈ L → EntryAt s a e → ¬ HasKey m e.1) →
      ∃ m1 : HashMap K V, copy_loop hasher s fuel cur m = Except.ok m1 ∧
        WFList m1 ∧ WFContent hasher m1 ∧ m1._capacity = s._capacity ∧ m1._deleted = 0 ∧
        m1._added = m._added + L.length ∧
        ∀ e, Stored m1 e ↔ Stored m e ∨ ∃ a, a ∈ L ∧ EntryAt s a e := by
  intro L
  induction L with
  | nil =>
    intro fuel prev cur m hchain _ _ _ hl hc hcap hdel _ _
    have hcur : cur = none := hchain
    subst hcur
    refine ⟨m, ?_, hl, hc, hcap, hdel, rfl, ?_⟩
    · cases fuel <;> simp [copy_loop]
    · intro e
      constructor
      · exact Or.inl
      · rintro (h | ⟨a, ha, _⟩)
        · exact h
        · cases ha
  | cons a L ih =>
    intro fuel prev cur m hchain hfuel hnd hsub hl hc hcap hdel hload hfresh
    obtain ⟨hcur, n, hn, _, hrest⟩ := hchain
    subst hcur
    obtain ⟨f, rfl⟩ : ∃ f, fuel = f + 1 := ⟨fuel - 1, by simp at hfuel; omega⟩
    have haL : a ∈ Lfull := hsub a (List.mem_cons_self _ _)
    obtain ⟨c, hcell⟩ := exists_cell_of_lt _ _ (hfull.cell_lt a haL n hn)
    have hentry : EntryAt s a c.element := ⟨n, c, hn, hcell, rfl⟩
    simp only [List.length_cons] at hload
    obtain ⟨m2, hm2, hl2, hc2, hcap2, hadd2, hload2, hst2⟩ :=
      hard_insert_body_no_trigger hasher (resize_ RESIZE_DEPTH) m c.element hl hc
        (hfresh a c.element (List.mem_cons_self _ _) hentry) (by rw [hdel, hcap]; omega)
    obtain ⟨m1, hm1, hl1, hc1, hcap1, hdel1, hadd1, hst1⟩ :=
      ih f (some a) n.next m2 hrest (by simp at hfuel; omega) (List.nodup_cons.1 hnd).2
        (fun x hx => hsub x (List.mem_cons_of_mem _ hx)) hl2 hc2 (hcap2.trans hcap) (by omega)
        (by rw [hadd2]; omega)
        (by
          rintro x e hx hxe ⟨v, hv⟩
          rcases (hst2 _).1 hv with hold | hnew
          · exact hfresh x e (List.mem_cons_of_mem _ hx) hxe ⟨v, hold⟩
          · have hk : e.1 = c.element.1 := by rw [← hnew]
            have := hxe.inj hs hfull (hsub x (List.mem_cons_of_mem _ hx)) haL hentry hk
            subst this
            exact (List.nodup_cons.1 hnd).1 hx)
    refine ⟨m1, ?_, hl1, hc1, hcap1, hdel1, by rw [hadd1, hadd2, List.length_cons]; omega, ?_⟩
    · simp only [copy_loop, deref, readPtr_eq_ok hn, readCell_eq_ok hcell, ok_bind, pure,
        Except.pure, hard_insert_, hard_insert_with_hash_, hm2, hm1]
    · intro e
      rw [hst1 e, hst2 e]
      constructor
      · rintro ((h | rfl) | ⟨x, hx, hxe⟩)
        · exact Or.inl h
        · exact Or.inr ⟨a, List.mem_cons_self _ _, hentry⟩
        · exact Or.inr ⟨x, List.mem_cons_of_mem _ hx, hxe⟩
      · rintro (h | ⟨x, hx, hxe⟩)
        · exact Or.inl (Or.inl h)
        · rcases List.mem_cons.1 hx with rfl | hx
          · obtain ⟨n1, c1, hn1, hc1', hce1⟩ := hxe
            rw [hn] at hn1
            cases hn1
            rw [hcell] at hc1'
            cases hc1'
            exact Or.inl (Or.inr hce1.symm)
          · exact Or.inr ⟨x, hx, hxe⟩

/-- The copy constructor applied to a well-formed table returns a well-formed table of the
same capacity with the same stored pairs. -/
theorem copy_construct_spec [Inhabited K] [Inhabited V] {hasher : K → Nat} {s : HashMap K V}
    (hs : WF hasher s) :
    ∃ c : HashMap K V, copy_construct hasher s = Except.ok c ∧ WF hasher c ∧
      c._capacity = s._capacity ∧ c._added = s._added ∧ ∀ e, Stored c e ↔ Stored s e := by
  obtain ⟨L, hL⟩ := hs.list.linked
  obtain ⟨hl0, hc0⟩ := initial_object (K := K) (V := V) hasher
  obtain ⟨m0, hm0, hl, hc, hcap, hadd, hdel, hst⟩ :=
    resize_no_trigger hasher 1 (initial K V) s._capacity hl0 hc0
      (by show 4 * 0 < 3 * s._capacity + 4; omega)
  have hnone : ∀ e, ¬ Stored m0 e := by
    intro e he
    obtain ⟨p, c, hpc, _⟩ := (hst e).1 he
    simp [initial] at hpc
  have hlen := hL.length_eq hs.list
  have hload := hs.load
  have hadd0 : m0._added = 0 := hadd
  have hm0' : resize_ RESIZE_DEPTH (initial K V) s._capacity = Except.ok m0 := hm0
  obtain ⟨c, hc1, hlc, hcc, hcapc, hdelc, haddc, hstc⟩ :=
    copy_loop_spec hs hL L s.nodes.length none s._ptr m0 hL.chain hL.length_le hL.nodup
      (fun _ h => h) hl hc hcap hdel (by omega)
      (by
        rintro a e _ _ ⟨v, hv⟩
        exact hnone _ hv)
  have hcadd : c._added = s._added := by omega
  have hcap4 := hs.cap
  refine ⟨c, ?_, ⟨hlc, hcc, by omega, by omega⟩, hcapc, hcadd, ?_⟩
  · simp only [copy_construct, hm0', ok_bind]
    exact hc1
  · intro e
    rw [hstc e]
    constructor
    · rintro (h | ⟨a, ha, hae⟩)
      · exact absurd h (hnone e)
      · exact hae.stored hL ha
    · intro h
      exact Or.inr (h.entryAt hL)

/-! ## The concrete tables are reachable -/

set_option maxRecDepth 100000

theorem exEmpty_reachable : Reachable id exEmpty :=
  Reachable.construct exEmpty rfl

theorem exOne_reachable : Reachable id exOne :=
  Reachable.insert exEmpty exOne (1, 10) exEmpty_reachable rfl

theorem exErased_reachable : Reachable id exErased :=
  Reachable.erase exOne exErased 1 exOne_reachable rfl

theorem exTwo_reachable : Reachable id exTwo :=
  Reachable.insert exOne exTwo (2, 20) exOne_reachable rfl

theorem exThree_reachable : Reachable id exThree :=
  Reachable.insert exTwo exThree (3, 30) exTwo_reachable rfl

/-- In a table whose cells are all `FULL` and none of which holds `key`, the lookup loop
does not return, however many iterations it is given. -/
theorem find_element_loop_full [DecidableEq K] (m : HashMap K V) (key : K)
    (hcap : 0 < m._capacity) (hlen : m._data.length = m._capacity)
    (hall : ∀ (p : Nat) (c : Cell K V), m._data[p]? = some c →
      c.validation = State.FULL ∧ c.element.1 ≠ key) :
    ∀ (fuel position : Nat), position < m._capacity →
      find_element_loop m key fuel position = Except.error Error.no_return := by
  intro fuel
  induction fuel with
  | zero => intro position _; rfl
  | succ f ih =>
    intro position hpos
    obtain ⟨c, hc⟩ := exists_cell_of_lt m._data position (by omega)
    obtain ⟨hv, hk⟩ := hall position c hc
    simp only [find_element_loop, readCell_eq_ok hc, ok_bind, hv, if_neg hk]
    exact ih _ (Nat.mod_lt _ hcap)

/-! ## The claims -/

/-- In a well-formed table `find` answers `end()` or a pair with the key asked for. -/
theorem find_entry_cases [DecidableEq K] {hasher : K → Nat} {m : HashMap K V}
    (hwf : WF hasher m) (k : K) :
    (find_entry hasher m k = Except.ok none ∧ ¬ HasKey m k) ∨
    ∃ v, find_entry hasher m k = Except.ok (some (k, v)) ∧ Stored m (k, v) := by
  by_cases hk : HasKey m k
  · obtain ⟨v, hv⟩ := hk
    exact Or.inr ⟨v, find_entry_stored hwf hv, hv⟩
  · exact Or.inl ⟨find_entry_absent hwf hk, hk⟩

/-- C1: in a table reachable from the default constructor, `insert((k, v))` for a key `k`
that `find` reports absent returns, and in the table it leaves `find(k)` reports the pair
`(k, v)` and `size()` is one larger than before. -/
theorem insert_new_key [DecidableEq K] [Inhabited K] [Inhabited V] (hasher : K → Nat)
    (m : HashMap K V) (k : K) (v : V) (hr : Reachable hasher m)
    (habs : find_entry hasher m k = Except.ok none) :
    ∃ m1 : HashMap K V, HashMap.insert hasher m (k, v) = Except.ok m1 ∧
      find_entry hasher m1 k = Except.ok (some (k, v)) ∧ m1.size = m.size + 1 := by
  have hwf := hr.wf
  have hk : ¬ HasKey m k := ((find_entry_iff hwf k).2).1 habs
  obtain ⟨m1, hm1, hwf1, hadd, _, hst, _⟩ := (insert_spec hwf (k, v)).2 hk
  exact ⟨m1, hm1, find_entry_stored hwf1 ((hst _).2 (Or.inr rfl)), hadd⟩

theorem insert_new_key_witness :
    Reachable id exEmpty ∧ find_entry id exEmpty 5 = Except.ok none ∧
    ∃ m1 : HashMap Nat Nat, HashMap.insert id exEmpty (5, 7) = Except.ok m1 ∧
      find_entry id m1 5 = Except.ok (some (5, 7)) ∧ m1.size = exEmpty.size + 1 :=
  ⟨exEmpty_reachable, rfl, insert_new_key id exEmpty 5 7 exEmpty_reachable rfl⟩

/-- C2: in a table reachable from the default constructor in which `find(k)` reports the
pair `(k, v)`, `insert((k, w))` returns the table unchanged: `find(k)` still reports
`(k, v)` and `size()` is the same. -/
theorem insert_existing_key [DecidableEq K] [Inhabited K] [Inhabited V] (hasher : K → Nat)
    (m : HashMap K V) (k : K) (v w : V) (hr : Reachable hasher m)
    (hpres : find_entry hasher m k = Except.ok (some (k, v))) :
    ∃ m1 : HashMap K V, HashMap.insert hasher m (k, w) = Except.ok m1 ∧ m1 = m ∧
      find_entry hasher m1 k = Except.ok (some (k, v)) ∧ m1.size = m.size := by
  have hwf := hr.wf
  have hk : HasKey m k := ⟨v, ((find_entry_iff hwf k).1 v).1 hpres⟩
  exact ⟨m, (insert_spec hwf (k, w)).1 hk, rfl, hpres, rfl⟩

theorem insert_existing_key_witness :
    Reachable id exOne ∧ find_entry id exOne 1 = Except.ok (some (1, 10)) ∧
    ∃ m1 : HashMap Nat Nat, HashMap.insert id exOne (1, 99) = Except.ok m1 ∧ m1 = exOne ∧
      find_entry id m1 1 = Except.ok (some (1, 10)) ∧ m1.size = exOne.size :=
  ⟨exOne_reachable, rfl, insert_existing_key id exOne 1 10 99 exOne_reachable rfl⟩

/-- C3: in a table reachable from the default constructor, `erase(k)` returns; afterwards
`find(k)` reports not-found, and `size()` is one less than before when `find(k)` reported
a pair before, and unchanged when it reported not-found. -/
theorem erase_then_absent [DecidableEq K] [Inhabited K] [Inhabited V] (hasher : K → Nat)
    (m : HashMap K V) (k : K) (hr : Reachable hasher m) :
    ∃ m1 : HashMap K V, erase hasher m k = Except.ok m1 ∧
      find_entry hasher m1 k = Except.ok none ∧
      ((∃ v, find_entry hasher m k = Except.ok (some (k, v))) → m1.size + 1 = m.size) ∧
      (find_entry hasher m k = Except.ok none → m1.size = m.size) := by
  have hwf := hr.wf
  rcases find_entry_cases hwf k with ⟨hnone, hk⟩ | ⟨v, hsome, hv⟩
  · refine ⟨m, (erase_spec hwf k).1 hk, hnone, ?_, fun _ => rfl⟩
    rintro ⟨v, hv⟩
    rw [hnone] at hv
    cases hv
  · obtain ⟨m1, hm1, hwf1, _, hadd, _, hst⟩ := (erase_spec hwf k).2 v hv
    refine ⟨m1, hm1, ?_, fun _ => hadd, ?_⟩
    · apply find_entry_absent hwf1
      rintro ⟨w, hw⟩
      exact ((hst _).1 hw).2 rfl
    · intro hnone
      rw [hsome] at hnone
      cases hnone

theorem erase_then_absent_witness :
    Reachable id exOne ∧
    ∃ m1 : HashMap Nat Nat, erase id exOne 1 = Except.ok m1 ∧
      find_entry id m1 1 = Except.ok none ∧
      ((∃ v, find_entry id exOne 1 = Except.ok (some (1, v))) → m1.size + 1 = exOne.size) ∧
      (find_entry id exOne 1 = Except.ok none → m1.size = exOne.size) :=
  ⟨exOne_reachable, erase_then_absent id exOne 1 exOne_reachable⟩

/-- C4: in a table reachable from the default constructor, a full iteration from `begin()`
to `end()` ends; the entries it visits are exactly the pairs held by `FULL` cells, no key is
visited twice, and their number is `size()`. -/
theorem iterate_visits_entries [DecidableEq K] [Inhabited K] [Inhabited V] (hasher : K → Nat)
    (m : HashMap K V) (hr : Reachable hasher m) :
    ∃ Ls : List (K × V), iterate m = Except.ok Ls ∧ (∀ e, e ∈ Ls ↔ Stored m e) ∧
      (Ls.map Prod.fst).Nodup ∧ Ls.length = m.size := by
  obtain ⟨Ls, hLs, hlen, hmem, hnd⟩ := iterate_spec hr.wf
  exact ⟨Ls, hLs, hmem, hnd, hlen⟩

theorem iterate_visits_entries_witness :
    Reachable id exOne ∧
    ∃ Ls : List (Nat × Nat), iterate exOne = Except.ok Ls ∧ (∀ e, e ∈ Ls ↔ Stored exOne e) ∧
      (Ls.map Prod.fst).Nodup ∧ Ls.length = exOne.size :=
  ⟨exOne_reachable, iterate_visits_entries id exOne exOne_reachable⟩

/-- C5: in a table reachable from the default constructor, `at(k)` returns the value `find`
reports for `k` when `find(k)` reports a pair, and throws `std::out_of_range` exactly when
`find(k)` reports not-found.  (`at` is a `const` member: it returns no new table state.) -/
theorem at_value_or_out_of_range [DecidableEq K] [Inhabited K] [Inhabited V]
    (hasher : K → Nat) (m : HashMap K V) (k : K) (hr : Reachable hasher m) :
    (∀ v, find_entry hasher m k = Except.ok (some (k, v)) → at_ hasher m k = Except.ok v) ∧
    (at_ hasher m k = Except.error Error.out_of_range ↔
      find_entry hasher m k = Except.ok none) := by
  have hwf := hr.wf
  refine ⟨fun v hv => (at_spec hwf k).1 v (((find_entry_iff hwf k).1 v).1 hv), ?_, ?_⟩
  · intro hat
    rcases find_entry_cases hwf k with ⟨hnone, _⟩ | ⟨v, _, hv⟩
    · exact hnone
    · rw [(at_spec hwf k).1 v hv] at hat
      cases hat
  · intro hnone
    exact (at_spec hwf k).2 (((find_entry_iff hwf k).2).1 hnone)

theorem at_value_or_out_of_range_witness :
    Reachable id exOne ∧
    ((∀ v, find_entry id exOne 1 = Except.ok (some (1, v)) → at_ id exOne 1 = Except.ok v) ∧
    (at_ id exOne 1 = Except.error Error.out_of_range ↔
      find_entry id exOne 1 = Except.ok none)) :=
  ⟨exOne_reachable, at_value_or_out_of_range id exOne 1 exOne_reachable⟩

/-- C6: in a table reachable from the default constructor, `operator[](k)` returns the
value `find` reports for `k` and leaves the table as it is when `find(k)` reports a pair;
when `find(k)` reports not-found it returns a default-constructed value and leaves a table
in which `find(k)` reports `(k, default)` and `size()` is one larger. -/
theorem operator_brackets_value [DecidableEq K] [Inhabited K] [Inhabited V]
    (hasher : K → Nat) (m : HashMap K V) (k : K) (hr : Reachable hasher m) :
    (∀ v, find_entry hasher m k = Except.ok (some (k, v)) →
      operator_brackets hasher m k = Except.ok (v, m)) ∧
    (find_entry hasher m k = Except.ok none →
      ∃ m1 : HashMap K V, operator_brackets hasher m k = Except.ok (default, m1) ∧
        find_entry hasher m1 k = Except.ok (some (k, default)) ∧ m1.size = m.size + 1) := by
  have hwf := hr.wf
  refine ⟨fun v hv => (operator_brackets_spec hwf k).1 v (((find_entry_iff hwf k).1 v).1 hv), ?_⟩
  intro hnone
  obtain ⟨m1, hm1, hwf1, hadd, hst⟩ :=
    (operator_brackets_spec hwf k).2 (((find_entry_iff hwf k).2).1 hnone)
  exact ⟨m1, hm1, find_entry_stored hwf1 ((hst _).2 (Or.inr rfl)), hadd⟩

theorem operator_brackets_value_witness :
    Reachable id exOne ∧
    ((∀ v, find_entry id exOne 2 = Except.ok (some (2, v)) →
      operator_brackets id exOne 2 = Except.ok (v, exOne)) ∧
    (find_entry id exOne 2 = Except.ok none →
      ∃ m1 : HashMap Nat Nat, operator_brackets id exOne 2 = Except.ok (default, m1) ∧
        find_entry id m1 2 = Except.ok (some (2, default)) ∧ m1.size = exOne.size + 1)) :=
  ⟨exOne_reachable, operator_brackets_value id exOne 2 exOne_reachable⟩

/-- C7, on the code: the table `b` built by the fixed-list constructor from `{{7, 70}}` and
emptied by `erase(7)` has capacity 2, and the assignment `a = b` to the reachable table `a`
holding the keys 1 and 2 runs `resize_(2)` on `a`.  The allocation of two cells succeeds and
`resize_(2)` returns: the two pairs and `size()` are kept, but both cells of the new array
are `FULL`, and `find(3)`, which reported not-found before the resize, meets neither the key
nor an `EMPTY` cell and never returns, whatever number of iterations its loop is given. -/
theorem resize_fills_small_table :
    construct_list id [(7, 70)] = Except.ok exSeven ∧
    erase id exSeven 7 = Except.ok exSevenErased ∧
    exSevenErased._capacity = 2 ∧
    Reachable id exTwo ∧
    resize_ RESIZE_DEPTH exTwo exSevenErased._capacity = Except.ok exTwoResized ∧
    operator_assign id exTwo exSevenErased = Except.ok exTwoResized ∧
    exTwoResized.size = exTwo.size ∧
    find_entry id exTwoResized 1 = Except.ok (some (1, 10)) ∧
    find_entry id exTwoResized 2 = Except.ok (some (2, 20)) ∧
    find_entry id exTwo 3 = Except.ok none ∧
    find_entry id exTwoResized 3 = Except.error Error.no_return ∧
    (∀ fuel, find_element_loop exTwoResized 3 fuel (hashOf id 3 % exTwoResized._capacity) =
      Except.error Error.no_return) := by
  refine ⟨rfl, rfl, rfl, exTwo_reachable, rfl, rfl, rfl, rfl, rfl, rfl, rfl, ?_⟩
  intro fuel
  apply find_element_loop_full exTwoResized 3 (by decide) rfl _ fuel _ (by decide)
  intro p c hc
  have hp : p < 2 := lt_of_getElem?_eq_some hc
  have hp2 : p = 0 ∨ p = 1 := by omega
  rcases hp2 with rfl | rfl
  · cases hc
    exact ⟨rfl, by decide⟩
  · cases hc
    exact ⟨rfl, by decide⟩

/-- C8: the copy constructor applied to a table `s` reachable from the default constructor
returns a table with the capacity of `s`, the `size()` of `s`, and the same answer of
`find(k)` as `s` for every key `k`. -/
theorem copy_construct_same [DecidableEq K] [Inhabited K] [Inhabited V] (hasher : K → Nat)
    (s : HashMap K V) (hr : Reachable hasher s) :
    ∃ c : HashMap K V, copy_construct hasher s = Except.ok c ∧ c._capacity = s._capacity ∧
      c.size = s.size ∧ ∀ k, find_entry hasher c k = find_entry hasher s k := by
  have hwf := hr.wf
  obtain ⟨c, hc, hwfc, hcap, hadd, hst⟩ := copy_construct_spec hwf
  exact ⟨c, hc, hcap, hadd, fun k => find_entry_congr hwf hwfc hst k⟩

theorem copy_construct_same_witness :
    Reachable id exOne ∧
    ∃ c : HashMap Nat Nat, copy_construct id exOne = Except.ok c ∧
      c._capacity = exOne._capacity ∧ c.size = exOne.size ∧
      ∀ k, find_entry id c k = find_entry id exOne k :=
  ⟨exOne_reachable, copy_construct_same id exOne exOne_reachable⟩

/-- C9: in a table reachable from the default constructor, `clear()` returns; afterwards
`size()` is 0, `empty()` is true, the capacity is what it was, and `find(k)` reports
not-found for every key `k`. -/
theorem clear_empties [DecidableEq K] [Inhabited K] [Inhabited V] (hasher : K → Nat)
    (m : HashMap K V) (hr : Reachable hasher m) :
    ∃ m1 : HashMap K V, clear m = Except.ok m1 ∧ m1.size = 0 ∧ m1.empty = true ∧
      m1._capacity = m._capacity ∧ ∀ k, find_entry hasher m1 k = Except.ok none := by
  obtain ⟨m1, hm1, hwf1, hcap, hadd, _, _, _, hnone⟩ := clear_spec hr.wf
  refine ⟨m1, hm1, hadd, by simp [HashMap.empty, hadd], hcap, fun k => ?_⟩
  apply find_entry_absent hwf1
  rintro ⟨v, hv⟩
  exact hnone _ hv

theorem clear_empties_witness :
    Reachable id exOne ∧
    ∃ m1 : HashMap Nat Nat, clear exOne = Except.ok m1 ∧ m1.size = 0 ∧ m1.empty = true ∧
      m1._capacity = exOne._capacity ∧ ∀ k, find_entry id m1 k = Except.ok none :=
  ⟨exOne_reachable, clear_empties id exOne exOne_reachable⟩

/-- C10, as amended: in a table reachable from the default constructor, `clear()` returns
and leaves no `FULL` cell: every cell that was `FULL` is `EMPTY`, and every other cell
keeps its tag, so an `EMPTY` cell stays `EMPTY` and a `DELETED` cell stays `DELETED`. -/
theorem clear_resets_full_cells [DecidableEq K] [Inhabited K] [Inhabited V]
    (hasher : K → Nat) (m : HashMap K V) (hr : Reachable hasher m) :
    ∃ m1 : HashMap K V, clear m = Except.ok m1 ∧ m1._data.length = m._data.length ∧
      ∀ (p : Nat) (c : Cell K V), m._data[p]? = some c →
        ∃ c1 : Cell K V, m1._data[p]? = some c1 ∧
          c1.validation = (if c.validation = State.FULL then State.EMPTY else c.validation) := by
  have hwf := hr.wf
  obtain ⟨m1, hm1, hwf1, hcap, _, _, hcell, _, _⟩ := clear_spec hwf
  refine ⟨m1, hm1, by rw [hwf1.list.len, hwf.list.len, hcap], ?_⟩
  intro p c hc
  refine ⟨_, hcell p c hc, ?_⟩
  by_cases hv : c.validation = State.FULL
  · simp [hv]
  · simp [hv]

theorem clear_resets_full_cells_witness :
    Reachable id exOne ∧
    ∃ m1 : HashMap Nat Nat, clear exOne = Except.ok m1 ∧
      m1._data.length = exOne._data.length ∧
      ∀ (p : Nat) (c : Cell Nat Nat), exOne._data[p]? = some c →
        ∃ c1 : Cell Nat Nat, m1._data[p]? = some c1 ∧
          c1.validation = (if c.validation = State.FULL then State.EMPTY else c.validation) :=
  ⟨exOne_reachable, clear_resets_full_cells id exOne exOne_reachable⟩

/-- C10, as stated, fails: the table left by `insert({1, 10})` and `erase(1)` is reachable
and holds a `DELETED` cell at position 1; `clear()` returns it as it is, so that cell is
still `DELETED` and not `EMPTY`. -/
theorem clear_keeps_tombstone_counterexample :
    Reachable id exErased ∧ clear exErased = Except.ok exErased ∧
    (exErased._data[1]?).map (fun c => c.validation) = some State.DELETED ∧
    ¬ ∃ m1 : HashMap Nat Nat, clear exErased = Except.ok m1 ∧
      ∀ (p : Nat) (c : Cell Nat Nat), m1._data[p]? = some c → c.validation = State.EMPTY := by
  have hclear : clear exErased = Except.ok exErased := rfl
  refine ⟨exErased_reachable, hclear, rfl, ?_⟩
  rintro ⟨m1, hm1, hall⟩
  rw [hclear] at hm1
  cases hm1
  have := hall 1 { element := (1, 10), hash := 1, validation := State.DELETED, ptr := none } rfl
  cases this

/-! ## The fixed-list constructor on short lists -/

/-- C11, on the code: the fixed-list constructor gives the one-pair list `{{1, 10}}` a table
of capacity 2, and `insert({3, 30})` fills it without a resize.  From then on the lookup
probe of `find(5)`, an absent key, meets neither the key nor an `EMPTY` cell and never
returns, whatever number of iterations it is given; `insert({5, 50})`, which looks the key up
first, does not return either. -/
theorem find_after_short_list_never_returns :
    construct_list id [(1, 10)] = Except.ok exList ∧
    HashMap.insert id exList (3, 30) = Except.ok exListFull ∧
    exListFull._capacity = 2 ∧
    find_entry id exListFull 5 = Except.error Error.no_return ∧
    (∀ fuel, find_element_loop exListFull 5 fuel (hashOf id 5 % exListFull._capacity) =
      Except.error Error.no_return) ∧
    HashMap.insert id exListFull (5, 50) = Except.error Error.no_return := by
  refine ⟨rfl, rfl, rfl, rfl, ?_, rfl⟩
  intro fuel
  apply find_element_loop_full exListFull 5 (by decide) rfl _ fuel _ (by decide)
  intro p c hc
  have hp : p < 2 := lt_of_getElem?_eq_some hc
  have hp2 : p = 0 ∨ p = 1 := by omega
  rcases hp2 with rfl | rfl
  · cases hc
    exact ⟨rfl, by decide⟩
  · cases hc
    exact ⟨rfl, by decide⟩

/-- C12, on the code: the fixed-list constructor gives the empty list a table of capacity 0,
and on that table `find`, `insert`, `erase`, `at` and `operator[]` all compute
`hash % _capacity` with `_capacity = 0`. -/
theorem empty_list_table_divides_by_zero :
    construct_list id ([] : List (Nat × Nat)) = Except.ok (initial Nat Nat) ∧
    (initial Nat Nat)._capacity = 0 ∧
    find_entry id (initial Nat Nat) 1 = Except.error Error.undefined ∧
    HashMap.insert id (initial Nat Nat) (1, 10) = Except.error Error.undefined ∧
    erase id (initial Nat Nat) 1 = Except.error Error.undefined ∧
    at_ id (initial Nat Nat) 1 = Except.error Error.undefined ∧
    operator_brackets id (initial Nat Nat) 1 = Except.error Error.undefined :=
  ⟨rfl, rfl, rfl, rfl, rfl, rfl, rfl⟩

/-! ## The fixed-list constructor -/

/-- The member function `insert` on a table with an `EMPTY` cell that is below the load
limit: the capacity stays. -/
theorem insert_room_spec [DecidableEq K] [Inhabited K] [Inhabited V] {hasher : K → Nat}
    {m : HashMap K V} (hwf : WFRoom hasher m) (e : K × V) :
    (HasKey m e.1 → HashMap.insert hasher m e = Except.ok m) ∧
    (¬ HasKey m e.1 → 4 * (m._added + m._deleted) < 3 * m._capacity →
      ∃ m1 : HashMap K V, HashMap.insert hasher m e = Except.ok m1 ∧ WFList m1 ∧
        WFContent hasher m1 ∧ m1._capacity = m._capacity ∧ m1._added = m._added + 1 ∧
        m1._added + m1._deleted ≤ m._added + m._deleted + 1 ∧
        ∀ e1, Stored m1 e1 ↔ Stored m e1 ∨ e1 = e) := by
  constructor
  · rintro ⟨v, hv⟩
    obtain ⟨p, c, hfind, _⟩ := find_element_stored_room hwf hv
    simp [HashMap.insert, hfind, ok_bind, pure, Except.pure]
  · intro hk hno
    obtain ⟨q, c, hfind, _, _⟩ := find_element_absent_room hwf e.1 (hashOf hasher e.1) hk
    obtain ⟨m1, hm1, hrest⟩ :=
      hard_insert_body_no_trigger hasher (resize_ RESIZE_DEPTH) m e hwf.list hwf.content hk hno
    exact ⟨m1, by simp [HashMap.insert, hfind, ok_bind, hard_insert_with_hash_, hm1], hrest⟩

/-- The insertion loop of the constructors on a table that stays below the load limit: the
capacity stays, and of the pairs of the list exactly those are added that are the first
with their key and whose key was not stored. -/
theorem insert_each_no_trigger [DecidableEq K] [Inhabited K] [Inhabited V] (hasher : K → Nat)
    (c N : Nat) (hN : 4 * N ≤ 3 * c) :
    ∀ (R : List (K × V)) (m : HashMap K V), WFList m → WFContent hasher m → m._deleted = 0 →
      m._capacity = c → m._added + R.length ≤ N →
      ∃ m1 : HashMap K V, insert_each hasher R m = Except.ok m1 ∧ WFList m1 ∧
        WFContent hasher m1 ∧ m1._deleted = 0 ∧ m1._capacity = c ∧ m1._added ≤ N ∧
        ∀ e, Stored m1 e ↔
          (Stored m e ∨ (¬ HasKey m e.1 ∧ R.find? (fun x => decide (x.1 = e.1)) = some e)) := by
  intro R
  induction R with
  | nil =>
    intro m hl hc hd hcap hcount
    refine ⟨m, rfl, hl, hc, hd, hcap, by simpa using hcount, ?_⟩
    intro e
    simp
  | cons e R ih =>
    intro m hl hc hd hcap hcount
    simp only [List.length_cons] at hcount
    have hroom : WFRoom hasher m := ⟨hl, hc, by omega⟩
    by_cases hk : HasKey m e.1
    · have hins := (insert_room_spec hroom e).1 hk
      obtain ⟨m1, hm1, hl1, hc1, hd1, hcap1, hadd1, hst1⟩ := ih m hl hc hd hcap (by omega)
      refine ⟨m1, by simp only [insert_each, hins, ok_bind, hm1], hl1, hc1, hd1, hcap1, hadd1, ?_⟩
      intro x
      rw [hst1 x]
      constructor
      · rintro (h | ⟨hx, hf⟩)
        · exact Or.inl h
        · refine Or.inr ⟨hx, ?_⟩
          have hne : ¬ e.1 = x.1 := fun h => hx (h ▸ hk)
          rw [List.find?_cons_of_neg _ (by simpa using hne)]
          exact hf
      · rintro (h | ⟨hx, hf⟩)
        · exact Or.inl h
        · refine Or.inr ⟨hx, ?_⟩
          have hne : ¬ e.1 = x.1 := fun h => hx (h ▸ hk)
          rw [List.find?_cons_of_neg _ (by simpa using hne)] at hf
          exact hf
    · obtain ⟨m2, hm2, hl2, hc2, hcap2, hadd2, hload2, hst2⟩ :=
        (insert_room_spec hroom e).2 hk (by omega)
      obtain ⟨m1, hm1, hl1, hc1, hd1, hcap1, hadd1, hst1⟩ :=
        ih m2 hl2 hc2 (by omega) (hcap2.trans hcap) (by omega)
      refine ⟨m1, by simp only [insert_each, hm2, ok_bind, hm1], hl1, hc1, hd1, hcap1, hadd1, ?_⟩
      intro x
      rw [hst1 x]
      have hkey2 : HasKey m2 x.1 ↔ HasKey m x.1 ∨ x.1 = e.1 := by
        constructor
        · rintro ⟨v, hv⟩
          rcases (hst2 _).1 hv with h | h
          · exact Or.inl ⟨v, h⟩
          · exact Or.inr (by rw [← h])
        · rintro (⟨v, hv⟩ | h)
          · exact ⟨v, (hst2 _).2 (Or.inl hv)⟩
          · exact ⟨e.2, (hst2 _).2 (Or.inr (by rw [h]))⟩
      by_cases hxe : e.1 = x.1
      · rw [List.find?_cons_of_pos _ (by simpa using hxe)]
        have hnx : ¬ HasKey m x.1 := by rw [← hxe]; exact hk
        constructor
        · rintro (h | ⟨hx, _⟩)
          · rcases (hst2 x).1 h with h | h
            · exact absurd ⟨x.2, h⟩ hnx
            · exact Or.inr ⟨hnx, by rw [h]⟩
          · exact absurd (hkey2.2 (Or.inr hxe.symm)) hx
        · rintro (h | ⟨_, hf⟩)
          · exact Or.inl ((hst2 x).2 (Or.inl h))
          · exact Or.inl ((hst2 x).2 (Or.inr (Option.some.inj hf).symm))
      · rw [List.find?_cons_of_neg _ (by simpa using hxe)]
        have hxne : x ≠ e := fun h => hxe (by rw [h])
        constructor
        · rintro (h | ⟨hx, hf⟩)
          · rcases (hst2 x).1 h with h | h
            · exact Or.inl h
            · exact absurd h hxne
          · exact Or.inr ⟨fun h => hx (hkey2.2 (Or.inl h)), hf⟩
        · rintro (h | ⟨hx, hf⟩)
          · exact Or.inl ((hst2 x).2 (Or.inl h))
          · refine Or.inr ⟨?_, hf⟩
            intro h
            rcases hkey2.1 h with h | h
            · exact hx h
            · exact hxe h.symm

/-- C13: for every list `L` of pairs the fixed-list constructor returns a table of capacity
exactly `2 * length(L)` whose `size()` is the number of distinct keys in `L`, and in which
`find(k)`, for every key `k` that occurs in `L`, reports the first pair of `L` with key
`k`. -/
theorem construct_list_first_wins [DecidableEq K] [Inhabited K] [Inhabited V]
    (hasher : K → Nat) (L : List (K × V)) :
    ∃ m : HashMap K V, construct_list hasher L = Except.ok m ∧
      m._capacity = 2 * L.length ∧ m.size = (L.map Prod.fst).dedup.length ∧
      ∀ k v, L.find? (fun x => decide (x.1 = k)) = some (k, v) →
        find_entry hasher m k = Except.ok (some (k, v)) := by
  obtain ⟨hl0, hc0⟩ := initial_object (K := K) (V := V) hasher
  obtain ⟨m0, hm0, hl, hc, hcap, hadd, hdel, hst0⟩ :=
    resize_no_trigger hasher 1 (initial K V) (L.length * 2) hl0 hc0
      (by show 4 * 0 < 3 * (L.length * 2) + 4; omega)
  have hm0' : resize_ RESIZE_DEPTH (initial K V) (L.length * _CAPACITY_MULTIPLIER) =
      Except.ok m0 := hm0
  have hadd0 : m0._added = 0 := hadd
  have hnone : ∀ e, ¬ Stored m0 e := by
    intro e he
    obtain ⟨p, c, hpc, _⟩ := (hst0 e).1 he
    simp [initial] at hpc
  obtain ⟨m, hm, hlm, hcm, hdm, hcapm, haddm, hstm⟩ :=
    insert_each_no_trigger hasher (L.length * 2) L.length (by omega) L m0 hl hc hdel hcap
      (by omega)
  have hstored : ∀ e, Stored m e ↔ L.find? (fun x => decide (x.1 = e.1)) = some e := by
    intro e
    rw [hstm e]
    constructor
    · rintro (h | ⟨_, h⟩)
      · exact absurd h (hnone e)
      · exact h
    · intro h
      refine Or.inr ⟨?_, h⟩
      rintro ⟨v, hv⟩
      exact hnone _ hv
  refine ⟨m, by simp only [construct_list, hm0', ok_bind]; exact hm, by omega, ?_, ?_⟩
  · obtain ⟨Ls, _, hlen, hmem, hnd⟩ := iterate_spec_lists hlm hcm
    show m._added = _
    rw [← hlen, ← List.length_map Ls Prod.fst]
    apply Nat.le_antisymm
    · apply (List.subperm_of_subset hnd _).length_le
      intro k hk
      obtain ⟨e, he, rfl⟩ := List.mem_map.1 hk
      rw [List.mem_dedup]
      exact List.mem_map.2
        ⟨e, List.mem_of_find?_eq_some ((hstored e).1 ((hmem e).1 he)), rfl⟩
    · apply (List.subperm_of_subset (List.nodup_dedup _) _).length_le
      intro k hk
      rw [List.mem_dedup] at hk
      obtain ⟨e, he, rfl⟩ := List.mem_map.1 hk
      have hsome : (L.find? (fun x => decide (x.1 = e.1))).isSome := by
        rw [List.find?_isSome]
        exact ⟨e, he, by simp⟩
      obtain ⟨x, hx⟩ := Option.isSome_iff_exists.1 hsome
      have hxk : x.1 = e.1 := by simpa using List.find?_some hx
      have hx' : L.find? (fun y => decide (y.1 = x.1)) = some x := by rw [hxk]; exact hx
      exact List.mem_map.2 ⟨x, (hmem x).2 ((hstored x).2 hx'), hxk⟩
  · intro k v hfind
    have hne : 0 < L.length := by
      cases L with
      | nil => simp at hfind
      | cons e L => simp
    have hroom : WFRoom hasher m := ⟨hlm, hcm, by omega⟩
    exact find_entry_stored_room hroom ((hstored (k, v)).2 hfind)

theorem construct_list_first_wins_witness :
    ∃ m : HashMap Nat Nat, construct_list id [(1, 10), (1, 11), (2, 20)] = Except.ok m ∧
      m._capacity = 6 ∧ m.size = 2 ∧
      find_entry id m 1 = Except.ok (some (1, 10)) ∧
      find_entry id m 2 = Except.ok (some (2, 20)) :=
  match construct_list_first_wins id [(1, 10), (1, 11), (2, 20)] with
  | ⟨m, h1, h2, h3, h4⟩ => ⟨m, h1, h2, h3.trans (by decide), h4 1 10 rfl, h4 2 20 rfl⟩

/-! ## Assignment -/

/-- C14, on the code: assigning the empty table `exEmpty` to the table `exOne`, which holds
the pair `(1, 10)`, leaves a table of `size()` 1 in which `find(1)` still reports `(1, 10)`,
while the source has `size()` 0 and reports not-found: `resize_` has put the old entry of the
target back.  Assigning a second table that holds `(1, 10)` leaves the pair twice: `size()`
is 2 and iteration visits `(1, 10)` two times. -/
theorem assignment_keeps_old_entries :
    Reachable id exOne ∧ Reachable id exEmpty ∧
    operator_assign id exOne exEmpty = Except.ok exAssigned ∧
    exAssigned.size = 1 ∧ exEmpty.size = 0 ∧
    find_entry id exAssigned 1 = Except.ok (some (1, 10)) ∧
    find_entry id exEmpty 1 = Except.ok none ∧
    operator_assign id exOne exOne = Except.ok exAssignedTwice ∧
    exAssignedTwice.size = 2 ∧ exOne.size = 1 ∧
    iterate exAssignedTwice = Except.ok [(1, 10), (1, 10)] :=
  ⟨exOne_reachable, exEmpty_reachable, rfl, rfl, rfl, rfl, rfl, rfl, rfl, rfl, rfl⟩

/-! ## The enumeration order after an insert -/

/-- The nodes after `place_` on a cell that has no node: the old ones, with one node for
the cell pushed in front. -/
theorem place_nodes (m : HashMap K V) (hash q : Nat) (e : K × V) (c : Cell K V)
    (m1 : HashMap K V) (hc : m._data[q]? = some c) (hptr : c.ptr = none)
    (h : place_ m hash q e = Except.ok m1) :
    push_front_ m.nodes m._ptr q = Except.ok m1.nodes ∧ m1._ptr = some m.nodes.length ∧
      ∃ c1 : Cell K V, m1._data[q]? = some c1 ∧ c1.validation = State.FULL := by
  have hq : q < m._data.length := lt_of_getElem?_eq_some hc
  simp only [place_, readCell_eq_ok hc, ok_bind, hptr, pure, Except.pure] at h
  cases hp : push_front_ m.nodes m._ptr q with
  | error err =>
    rw [hp] at h
    cases h
  | ok nodes3 =>
    rw [hp] at h
    have h1 := Except.ok.inj h
    subst h1
    exact ⟨rfl, rfl, _, List.getElem?_set_self hq, rfl⟩

/-- The loop of `find_place_`, when it returns, has created one node, for a cell that was
not `FULL`, in front of the list; the other nodes are the ones of the table it started
from, whatever swaps it made on the way. -/
theorem find_place_loop_nodes :
    ∀ (fuel : Nat) (m : HashMap K V) (hash pos : Nat) (e : K × V) (m1 : HashMap K V),
    (∀ (p : Nat) (c : Cell K V), m._data[p]? = some c → c.validation ≠ State.FULL →
      c.ptr = none) →
    find_place_loop fuel m hash pos e = Except.ok m1 →
    ∃ (q : Nat) (c : Cell K V), m._data[q]? = some c ∧ c.validation ≠ State.FULL ∧
      push_front_ m.nodes m._ptr q = Except.ok m1.nodes ∧ m1._ptr = some m.nodes.length ∧
      ∃ c1 : Cell K V, m1._data[q]? = some c1 ∧ c1.validation = State.FULL := by
  intro fuel
  induction fuel with
  | zero =>
    intro m hash pos e m1 _ h
    simp [find_place_loop] at h
  | succ f ih =>
    intro m hash pos e m1 hfree h
    cases hd : m._data[pos]? with
    | none => simp [find_place_loop, readCell, hd, error_bind] at h
    | some c =>
      simp only [find_place_loop, readCell_eq_ok hd, ok_bind] at h
      cases hcv : c.validation with
      | EMPTY =>
        simp only [hcv] at h
        have hv : c.validation ≠ State.FULL := by simp [hcv]
        exact ⟨pos, c, hd, hv, place_nodes m hash pos e c m1 hd (hfree pos c hd hv) h⟩
      | DELETED =>
        simp only [hcv] at h
        have hv : c.validation ≠ State.FULL := by simp [hcv]
        exact ⟨pos, c, hd, hv, place_nodes m hash pos e c m1 hd (hfree pos c hd hv) h⟩
      | FULL =>
        simp only [hcv] at h
        cases hd1 : get_delta_ m hash pos with
        | error err =>
          rw [hd1] at h
          cases h
        | ok d1 =>
          cases hd2 : get_delta_ m c.hash pos with
          | error err =>
            rw [hd1, hd2] at h
            cases h
          | ok d2 =>
            simp only [hd1, hd2, ok_bind] at h
            by_cases hsw : d2 < d1
            · simp only [hsw, if_true] at h
              have hfree1 : ∀ (p : Nat) (c1 : Cell K V),
                  (m._data.set pos (Cell.mk e hash State.FULL c.ptr))[p]? = some c1 →
                  c1.validation ≠ State.FULL → c1.ptr = none := by
                intro p c1 hc1 hv1
                by_cases hp : pos = p
                · subst hp
                  rw [List.getElem?_set_self (lt_of_getElem?_eq_some hd)] at hc1
                  have := Option.some.inj hc1
                  subst this
                  exact absurd rfl hv1
                · rw [List.getElem?_set_ne hp] at hc1
                  exact hfree p c1 hc1 hv1
              obtain ⟨q, c1, hc1, hv1, hpush, hptr, hfull⟩ := ih _ _ _ _ m1 hfree1 h
              have hne : pos ≠ q := by
                rintro rfl
                dsimp only at hc1
                rw [List.getElem?_set_self (lt_of_getElem?_eq_some hd)] at hc1
                have := Option.some.inj hc1
                subst this
                exact hv1 rfl
              dsimp only at hc1
              rw [List.getElem?_set_ne hne] at hc1
              exact ⟨q, c1, hc1, hv1, hpush, hptr, hfull⟩
            · simp only [hsw, if_false] at h
              exact ih _ _ _ _ m1 hfree h

/-- The loop of `iterate_cells` visits the nodes of the chain in order and yields the
position of the cell of each. -/
theorem iterate_cells_loop_spec (m : HashMap K V) :
    ∀ (L : List Nat) (fuel : Nat) (prev cur : Option Nat), Chain m.nodes prev cur L none →
      L.length ≤ fuel →
      ∃ P : List Nat, iterate_cells_loop m fuel cur = Except.ok P ∧
        List.Forall₂ (fun a p => ∃ n : Ptr, m.nodes[a]? = some (some n) ∧ n.cell = p) L P := by
  intro L
  induction L with
  | nil =>
    intro fuel prev cur hchain _
    have hcur : cur = none := hchain
    subst hcur
    refine ⟨[], ?_, List.Forall₂.nil⟩
    cases fuel <;> simp [iterate_cells_loop]
  | cons a L ih =>
    intro fuel prev cur hchain hfuel
    obtain ⟨hcur, n, hn, _, hrest⟩ := hchain
    subst hcur
    obtain ⟨f, rfl⟩ : ∃ f, fuel = f + 1 := ⟨fuel - 1, by simp at hfuel; omega⟩
    obtain ⟨P, hP, hall⟩ := ih f (some a) n.next hrest (by simp at hfuel; omega)
    refine ⟨n.cell :: P, ?_, List.Forall₂.cons ⟨n, hn, rfl⟩ hall⟩
    simp [iterate_cells_loop, readPtr_eq_ok hn, ok_bind, hP, pure, Except.pure]

/-- Two stores whose nodes of `L` point at the same cells give the same list of cells. -/
theorem forall2_cells_eq {nodes nodes1 : List (Option Ptr)} :
    ∀ (L P P1 : List Nat),
      List.Forall₂ (fun a p => ∃ n : Ptr, nodes[a]? = some (some n) ∧ n.cell = p) L P →
      List.Forall₂ (fun a p => ∃ n : Ptr, nodes1[a]? = some (some n) ∧ n.cell = p) L P1 →
      (∀ x, x ∈ L → ∃ n n1 : Ptr, nodes[x]? = some (some n) ∧ nodes1[x]? = some (some n1) ∧
        n1.cell = n.cell) →
      P1 = P := by
  intro L
  induction L with
  | nil =>
    intro P P1 h h1 _
    cases h
    cases h1
    rfl
  | cons a L ih =>
    intro P P1 h h1 hsame
    cases h with
    | cons hp hrest =>
      cases h1 with
      | cons hp1 hrest1 =>
        obtain ⟨n, hn, hcell⟩ := hp
        obtain ⟨n1, hn1, hcell1⟩ := hp1
        obtain ⟨n2, n3, hn2, hn3, hc⟩ := hsame a (List.mem_cons_self _ _)
        rw [hn] at hn2
        rw [hn1] at hn3
        have e2 : n = n2 := by simpa using hn2
        have e3 : n1 = n3 := by simpa using hn3
        subst e2
        subst e3
        rw [← hcell, ← hcell1, hc,
          ih _ _ hrest hrest1 (fun x hx => hsame x (List.mem_cons_of_mem _ hx))]

theorem exOnlyTwo_reachable : Reachable id exOnlyTwo :=
  Reachable.insert exEmpty exOnlyTwo (2, 20) exEmpty_reachable rfl

theorem exPair_reachable : Reachable id exPair :=
  Reachable.insert exOnlyTwo exPair (1, 10) exOnlyTwo_reachable rfl

/-- C15, amended: in a table reachable from the default constructor, an `insert` of a key
that `find` reports absent and that triggers no resize leaves a table whose iteration visits
first a cell `q` that was not `FULL` before and is `FULL` now (the cell of the final
placement, whose node is created at the head of the list), and then the cells the iteration
visited before the insert, in the order it visited them: a cell rewritten by a displacement
swap keeps its node and its place in the order. -/
theorem insert_visits_placed_cell_first [DecidableEq K] [Inhabited K] [Inhabited V]
    (hasher : K → Nat) (m : HashMap K V) (k : K) (v : V) (hr : Reachable hasher m)
    (habs : find_entry hasher m k = Except.ok none)
    (hno : 4 * (m._added + m._deleted) < 3 * m._capacity) :
    ∃ (m1 : HashMap K V) (q : Nat) (P : List Nat) (c c1 : Cell K V),
      HashMap.insert hasher m (k, v) = Except.ok m1 ∧ m1._capacity = m._capacity ∧
      m._data[q]? = some c ∧ c.validation ≠ State.FULL ∧
      m1._data[q]? = some c1 ∧ c1.validation = State.FULL ∧
      iterate_cells m = Except.ok P ∧ iterate_cells m1 = Except.ok (q :: P) := by
  have hwf := hr.wf
  have hk : ¬ HasKey m k := ((find_entry_iff hwf k).2).1 habs
  obtain ⟨m1, hins, _, _, _, _, hcap⟩ := (insert_spec hwf (k, v)).2 hk
  rw [if_neg (by omega)] at hcap
  obtain ⟨q0, c0, hfind, _, _⟩ := find_element_absent hwf k (hashOf hasher k) hk
  have hfalse : reaches_MAX_FILL_PORTION (m._added + m._deleted) m._capacity = false := by
    simp only [reaches_MAX_FILL_PORTION, decide_eq_false_iff_not]
    omega
  have hcap0 : m._capacity ≠ 0 := by have := hwf.cap; omega
  have hloop : find_place_loop m._capacity m (hashOf hasher k)
      (hashOf hasher k % m._capacity) (k, v) = Except.ok m1 := by
    have h := hins
    simp only [HashMap.insert, hfind, ok_bind, hard_insert_with_hash_,
      hard_insert_with_hash_body, hfalse, pure, Except.pure, hcap0, if_false,
      find_place_] at h
    simpa using h
  obtain ⟨L, hL⟩ := hwf.list.linked
  have hfree : ∀ (p : Nat) (c : Cell K V), m._data[p]? = some c →
      c.validation ≠ State.FULL → c.ptr = none := by
    intro p c hc hv
    have := hL.free p c.validation (by rw [tags_getElem?, hc]; rfl) hv
    rw [links_getElem?, hc] at this
    simpa using this
  obtain ⟨q, c, hc, hv, hpush, hptr, c1, hc1, hv1⟩ :=
    find_place_loop_nodes _ m _ _ _ m1 hfree hloop
  obtain ⟨nodes1, hpush1, hnew, hold, hchain⟩ :=
    push_front_spec m.nodes m._ptr L q hL.chain hL.nodup
  rw [hpush] at hpush1
  have hn1 : m1.nodes = nodes1 := Except.ok.inj hpush1
  subst hn1
  obtain ⟨P, hP, hall⟩ := iterate_cells_loop_spec m L m.nodes.length none m._ptr hL.chain
    hL.length_le
  have hlen : m.nodes.length < m1.nodes.length := lt_of_getElem?_eq_some hnew
  obtain ⟨P1, hP1, hall1⟩ := iterate_cells_loop_spec m1 (m.nodes.length :: L)
    m1.nodes.length none m1._ptr (by rw [hptr]; exact ⟨rfl, _, hnew, rfl, hchain⟩)
    (by have := hL.length_le; simp only [List.length_cons]; omega)
  obtain ⟨b, P2, hhead, htail, rfl⟩ := List.forall₂_cons_left_iff.1 hall1
  obtain ⟨n, hn, hcell⟩ := hhead
  rw [hnew] at hn
  have en : n = { cell := q, next := m._ptr, previous := none } := by simpa using hn.symm
  subst en
  have htl : P2 = P := forall2_cells_eq L P P2 hall htail
    (fun x hx => by
      obtain ⟨n, n1, h1, h2, h3, _⟩ := hold x hx
      exact ⟨n, n1, h1, h2, h3⟩)
  rw [htl, ← hcell] at hP1
  exact ⟨m1, q, P, c, c1, hins, hcap, hc, hv, hc1, hv1, hP, hP1⟩

theorem insert_visits_placed_cell_first_witness :
    Reachable id exPair ∧ find_entry id exPair 129 = Except.ok none ∧
    4 * (exPair._added + exPair._deleted) < 3 * exPair._capacity ∧
    ∃ (m1 : HashMap Nat Nat) (q : Nat) (P : List Nat) (c c1 : Cell Nat Nat),
      HashMap.insert id exPair (129, 7) = Except.ok m1 ∧ m1._capacity = exPair._capacity ∧
      exPair._data[q]? = some c ∧ c.validation ≠ State.FULL ∧
      m1._data[q]? = some c1 ∧ c1.validation = State.FULL ∧
      iterate_cells exPair = Except.ok P ∧ iterate_cells m1 = Except.ok (q :: P) :=
  ⟨exPair_reachable, rfl, by decide,
    insert_visits_placed_cell_first id exPair 129 7 exPair_reachable rfl (by decide)⟩

/-- C15, as stated: on the reachable table `exPair` (keys 2 and 1 in cells 2 and 1), the
insert of the absent key 129 triggers no resize, leaves cell 1 as it was, swaps the new entry
into cell 2 and places the displaced entry in cell 3; the iteration afterwards visits the
cells 3, 1, 2, so the cell 2 that was written comes after the cell 1 that was not. -/
theorem swapped_cell_keeps_place_counterexample :
    Reachable id exPair ∧ find_entry id exPair 129 = Except.ok none ∧
    HashMap.insert id exPair (129, 7) = Except.ok exPairSwapped ∧
    exPairSwapped._capacity = exPair._capacity ∧
    exPairSwapped._data[1]? = exPair._data[1]? ∧
    exPair._data[2]? = some
      { element := (2, 20), hash := 2, validation := State.FULL, ptr := some 0 } ∧
    exPairSwapped._data[2]? = some
      { element := (129, 7), hash := 129, validation := State.FULL, ptr := some 0 } ∧
    iterate_cells exPair = Except.ok [1, 2] ∧
    iterate_cells exPairSwapped = Except.ok [3, 1, 2] ∧
    iterate exPairSwapped = Except.ok [(2, 20), (1, 10), (129, 7)] :=
  ⟨exPair_reachable, rfl, rfl, rfl, rfl, rfl, rfl, rfl, rfl, rfl⟩

/-! ## Growth -/

/-- A run of `insert` calls with pairwise different keys that are not stored adds every
pair of the run and never shrinks the table. -/
theorem insert_each_spec [DecidableEq K] [Inhabited K] [Inhabited V] (hasher : K → Nat) :
    ∀ (R : List (K × V)) (m : HashMap K V), WF hasher m → (R.map Prod.fst).Nodup →
      (∀ e, e ∈ R → ¬ HasKey m e.1) →
      ∃ m1 : HashMap K V, insert_each hasher R m = Except.ok m1 ∧ WF hasher m1 ∧
        m1._added = m._added + R.length ∧ m._capacity ≤ m1._capacity ∧
        ∀ e1, Stored m1 e1 ↔ Stored m e1 ∨ e1 ∈ R := by
  intro R
  induction R with
  | nil =>
    intro m hwf _ _
    exact ⟨m, rfl, hwf, rfl, le_refl _, by simp⟩
  | cons e R ih =>
    intro m hwf hnd hfresh
    obtain ⟨hnotin, hnd1⟩ := List.nodup_cons.1 hnd
    obtain ⟨m1, hins, hwf1, hadd1, _, hst1, hcap1⟩ :=
      (insert_spec hwf e).2 (hfresh e (List.mem_cons_self _ _))
    have hfresh1 : ∀ x, x ∈ R → ¬ HasKey m1 x.1 := by
      rintro x hx ⟨v, hv⟩
      rcases (hst1 _).1 hv with h | h
      · exact hfresh x (List.mem_cons_of_mem _ hx) ⟨v, h⟩
      · apply hnotin
        have he : e.1 = x.1 := by rw [← h]
        rw [he]
        exact List.mem_map_of_mem Prod.fst hx
    obtain ⟨m2, hm2, hwf2, hadd2, hcap2, hst2⟩ := ih m1 hwf1 hnd1 hfresh1
    refine ⟨m2, by simp only [insert_each, hins, ok_bind, hm2], hwf2, ?_, ?_, ?_⟩
    · rw [hadd2, hadd1, List.length_cons]
      omega
    · refine le_trans ?_ hcap2
      rw [hcap1]
      split <;> omega
    · intro e1
      rw [hst2, hst1, List.mem_cons, or_assoc]

/-- C16: in a table reachable from the default constructor, `insert((k, v))` for a key `k`
that `find` reports absent returns a table whose capacity is exactly twice the capacity `c`
before if `4 * (occupied cells + tombstone cells) ≥ 3 * c`, and is `c` otherwise, and these
are different outcomes; and a run of `insert` calls with 200 pairs of pairwise different
keys on the default-constructed table returns a table of capacity greater than 128 in which
`find` reports every one of the 200 pairs. -/
theorem insert_growth_trigger [DecidableEq K] [Inhabited K] [Inhabited V] (hasher : K → Nat) :
    (∀ (m : HashMap K V) (k : K) (v : V), Reachable hasher m →
      find_entry hasher m k = Except.ok none →
      ∃ m1 : HashMap K V, HashMap.insert hasher m (k, v) = Except.ok m1 ∧
        (3 * m._capacity ≤ 4 * ((tags m._data).count State.FULL +
            (tags m._data).count State.DELETED) → m1._capacity = 2 * m._capacity) ∧
        (4 * ((tags m._data).count State.FULL + (tags m._data).count State.DELETED) <
            3 * m._capacity → m1._capacity = m._capacity) ∧
        2 * m._capacity ≠ m._capacity) ∧
    (∀ L : List (K × V), L.length = 200 → (L.map Prod.fst).Nodup →
      ∃ m0 m1 : HashMap K V, construct K V = Except.ok m0 ∧ m0._capacity = 128 ∧
        insert_each hasher L m0 = Except.ok m1 ∧ 128 < m1._capacity ∧
        ∀ e, e ∈ L → find_entry hasher m1 e.1 = Except.ok (some e)) := by
  constructor
  · intro m k v hr habs
    have hwf := hr.wf
    have hk : ¬ HasKey m k := ((find_entry_iff hwf k).2).1 habs
    obtain ⟨m1, hins, _, _, _, _, hcap⟩ := (insert_spec hwf (k, v)).2 hk
    rw [hwf.list.added, hwf.list.deleted] at hcap
    refine ⟨m1, hins, ?_, ?_, ?_⟩
    · intro h
      rw [hcap, if_pos h]
      omega
    · intro h
      rw [hcap, if_neg (by omega)]
    · have := hwf.cap
      omega
  · intro L hlen hnd
    obtain ⟨m0, hm0, hwf0, hcap0, hadd0, _, hst0⟩ := construct_spec (K := K) (V := V) hasher
    obtain ⟨m1, hm1, hwf1, hadd1, _, hst1⟩ := insert_each_spec hasher L m0 hwf0 hnd
      (by
        rintro e _ ⟨v, hv⟩
        exact hst0 _ hv)
    refine ⟨m0, m1, hm0, hcap0, hm1, ?_, ?_⟩
    · have := hwf1.load
      omega
    · intro e he
      exact find_entry_stored hwf1 ((hst1 (e.1, e.2)).2 (Or.inr he))

theorem insert_growth_trigger_witness :
    (Reachable id exErased ∧ find_entry id exErased 5 = Except.ok none ∧
      ∃ m1 : HashMap Nat Nat, HashMap.insert id exErased (5, 7) = Except.ok m1 ∧
        (3 * exErased._capacity ≤ 4 * ((tags exErased._data).count State.FULL +
            (tags exErased._data).count State.DELETED) →
          m1._capacity = 2 * exErased._capacity) ∧
        (4 * ((tags exErased._data).count State.FULL +
            (tags exErased._data).count State.DELETED) < 3 * exErased._capacity →
          m1._capacity = exErased._capacity) ∧
        2 * exErased._capacity ≠ exErased._capacity) ∧
    (((List.range 200).map (fun i => (i, i + 1))).length = 200 ∧
      (((List.range 200).map (fun i => (i, i + 1))).map Prod.fst).Nodup ∧
      ∃ m0 m1 : HashMap Nat Nat, construct Nat Nat = Except.ok m0 ∧ m0._capacity = 128 ∧
        insert_each id ((List.range 200).map (fun i => (i, i + 1))) m0 = Except.ok m1 ∧
        128 < m1._capacity ∧
        ∀ e, e ∈ (List.range 200).map (fun i => (i, i + 1)) →
          find_entry id m1 e.1 = Except.ok (some e)) :=
  ⟨⟨exErased_reachable, rfl, (insert_growth_trigger id).1 exErased 5 7 exErased_reachable rfl⟩,
    by simp,
    by simpa [List.map_map, Function.comp_def] using List.nodup_range 200,
    (insert_growth_trigger id).2 ((List.range 200).map (fun i => (i, i + 1))) (by simp)
      (by simpa [List.map_map, Function.comp_def] using List.nodup_range 200)⟩

/-! ## Where a present key is, and the probe distance -/

/-- C17: in a table reachable from the default constructor, when `find(k)` reports the pair
`(k, v)` there is a position `p` whose cell is `FULL` and holds `(k, v)`, no other position
has a `FULL` cell with key `k`, and `p` is reached from the ideal position
`hash(k) % capacity` by `n < capacity` steps of the probe sequence, none of the cells passed
before `p` being `EMPTY`. -/
theorem present_key_one_cell_on_probe [DecidableEq K] [Inhabited K] [Inhabited V]
    (hasher : K → Nat) (m : HashMap K V) (k : K) (v : V) (hr : Reachable hasher m)
    (hpres : find_entry hasher m k = Except.ok (some (k, v))) :
    ∃ (p : Nat) (c : Cell K V), m._data[p]? = some c ∧ c.validation = State.FULL ∧
      c.element = (k, v) ∧
      (∀ (q : Nat) (cq : Cell K V), m._data[q]? = some cq → cq.validation = State.FULL →
        cq.element.1 = k → q = p) ∧
      ∃ n, n < m._capacity ∧ (hashOf hasher k % m._capacity + n) % m._capacity = p ∧
        ∀ j, j < n → ∃ cj : Cell K V,
          m._data[(hashOf hasher k % m._capacity + j) % m._capacity]? = some cj ∧
          cj.validation ≠ State.EMPTY := by
  have hwf := hr.wf
  obtain ⟨p, c, hc, hv, he⟩ := ((find_entry_iff hwf k).1 v).1 hpres
  have hk : c.element.1 = k := by rw [he]
  refine ⟨p, c, hc, hv, he, ?_, ?_⟩
  · intro q cq hq hqv hqk
    exact hwf.content.uniq q p cq c hq hc hqv hv (by rw [hqk, hk])
  · obtain ⟨n, hn, hpath⟩ := hwf.content.probe p c hc hv
    rw [hwf.content.hash_ok p c hc hv, hk] at hn hpath
    exact ⟨n, path_length_lt hwf.list.len hwf.to_room.has_EMPTY hpath, hn, hpath⟩

theorem present_key_one_cell_on_probe_witness :
    Reachable id exPairSwapped ∧ find_entry id exPairSwapped 129 = Except.ok (some (129, 7)) ∧
    ∃ (p : Nat) (c : Cell Nat Nat), exPairSwapped._data[p]? = some c ∧
      c.validation = State.FULL ∧ c.element = (129, 7) ∧
      (∀ (q : Nat) (cq : Cell Nat Nat), exPairSwapped._data[q]? = some cq →
        cq.validation = State.FULL → cq.element.1 = 129 → q = p) ∧
      ∃ n, n < exPairSwapped._capacity ∧
        (hashOf id 129 % exPairSwapped._capacity + n) % exPairSwapped._capacity = p ∧
        ∀ j, j < n → ∃ cj : Cell Nat Nat,
          exPairSwapped._data[(hashOf id 129 % exPairSwapped._capacity + j) %
            exPairSwapped._capacity]? = some cj ∧
          cj.validation ≠ State.EMPTY :=
  ⟨Reachable.insert exPair exPairSwapped (129, 7) exPair_reachable rfl, rfl,
    present_key_one_cell_on_probe id exPairSwapped 129 7
      (Reachable.insert exPair exPairSwapped (129, 7) exPair_reachable rfl) rfl⟩

/-- C18: for a capacity `c` with `0 < c < 2^63`, a position `p < c` and any hash `h` (in
particular every 64-bit one), `get_delta_(h, p)`, computed with the subtraction and the
addition wrapping at `2^64`, returns a `d < c` with `((h % c) + d) % c = p`. -/
theorem get_delta_forward_distance (m : HashMap K V) (h p : Nat) (hc0 : 0 < m._capacity)
    (hc : m._capacity < 2 ^ 63) (hp : p < m._capacity) :
    ∃ d, get_delta_ m h p = Except.ok d ∧ d < m._capacity ∧
      (h % m._capacity + d) % m._capacity = p := by
  have hi : h % m._capacity < m._capacity := Nat.mod_lt _ hc0
  have hne : m._capacity ≠ 0 := by omega
  refine ⟨(((p + SIZE - h % m._capacity) % SIZE + m._capacity) % SIZE) % m._capacity,
    by simp only [get_delta_, hne, if_false], Nat.mod_lt _ hc0, ?_⟩
  generalize h % m._capacity = i at hi
  generalize m._capacity = c at *
  by_cases hpi : i ≤ p
  · have e1 : (p + SIZE - i) % SIZE = p - i := by
      unfold SIZE
      omega
    have e2 : (p - i + c) % SIZE = p - i + c := by
      unfold SIZE
      omega
    rw [e1, e2, Nat.add_mod_right, Nat.mod_eq_of_lt (by omega : p - i < c)]
    rw [show i + (p - i) = p by omega, Nat.mod_eq_of_lt hp]
  · have e1 : (p + SIZE - i) % SIZE = p + SIZE - i := by
      unfold SIZE
      omega
    have e2 : (p + SIZE - i + c) % SIZE = p + c - i := by
      unfold SIZE
      omega
    rw [e1, e2, Nat.mod_eq_of_lt (by omega : p + c - i < c)]
    rw [show i + (p + c - i) = p + c by omega, Nat.add_mod_right, Nat.mod_eq_of_lt hp]

theorem get_delta_forward_distance_witness :
    0 < exEmpty._capacity ∧ exEmpty._capacity < 2 ^ 63 ∧ 1 < exEmpty._capacity ∧
    ∃ d, get_delta_ exEmpty 130 1 = Except.ok d ∧ d < exEmpty._capacity ∧
      (130 % exEmpty._capacity + d) % exEmpty._capacity = 1 :=
  ⟨by decide, by decide, by decide,
    get_delta_forward_distance exEmpty 130 1 (by decide) (by decide) (by decide)⟩

/-! ## The enumeration order after an erase, and the other keys -/

theorem forall2_append_left {α β : Type} {R : α → β → Prop} :
    ∀ (l1 l2 : List α) (r : List β), List.Forall₂ R (l1 ++ l2) r →
      ∃ r1 r2 : List β, r = r1 ++ r2 ∧ List.Forall₂ R l1 r1 ∧ List.Forall₂ R l2 r2 := by
  intro l1
  induction l1 with
  | nil =>
    intro l2 r h
    exact ⟨[], r, rfl, List.Forall₂.nil, h⟩
  | cons a l1 ih =>
    intro l2 r h
    obtain ⟨b, r0, hab, hrest, rfl⟩ := List.forall₂_cons_left_iff.1 h
    obtain ⟨r1, r2, rfl, h1, h2⟩ := ih l2 r0 hrest
    exact ⟨b :: r1, r2, rfl, List.Forall₂.cons hab h1, h2⟩

theorem forall2_append {α β : Type} {R : α → β → Prop} :
    ∀ (l1 l2 : List α) (r1 r2 : List β), List.Forall₂ R l1 r1 → List.Forall₂ R l2 r2 →
      List.Forall₂ R (l1 ++ l2) (r1 ++ r2) := by
  intro l1 l2 r1 r2 h1 h2
  induction h1 with
  | nil => exact h2
  | cons hab _ ih => exact List.Forall₂.cons hab ih

/-- Two relations that agree on the elements of `l` relate `l` to the same list. -/
theorem forall2_functional {α β : Type} {R R1 : α → β → Prop} :
    ∀ (l : List α) (r r1 : List β), List.Forall₂ R l r → List.Forall₂ R1 l r1 →
      (∀ a, a ∈ l → ∀ b b1, R a b → R1 a b1 → b1 = b) → r1 = r := by
  intro l
  induction l with
  | nil =>
    intro r r1 h h1 _
    cases h
    cases h1
    rfl
  | cons a l ih =>
    intro r r1 h h1 hsame
    obtain ⟨b, r0, hab, hrest, rfl⟩ := List.forall₂_cons_left_iff.1 h
    obtain ⟨b1, r2, hab1, hrest1, rfl⟩ := List.forall₂_cons_left_iff.1 h1
    rw [hsame a (List.mem_cons_self _ _) b b1 hab hab1,
      ih r0 r2 hrest hrest1 (fun x hx => hsame x (List.mem_cons_of_mem _ hx))]

/-- The answer of `find` for a key depends only on the pairs stored with that key. -/
theorem find_entry_congr_key [DecidableEq K] {hasher : K → Nat} {m m1 : HashMap K V}
    (hwf : WF hasher m) (hwf1 : WF hasher m1) (k : K)
    (h : ∀ v, Stored m1 (k, v) ↔ Stored m (k, v)) :
    find_entry hasher m1 k = find_entry hasher m k := by
  by_cases hk : HasKey m k
  · obtain ⟨v, hv⟩ := hk
    rw [find_entry_stored hwf hv, find_entry_stored hwf1 ((h _).2 hv)]
  · have hk1 : ¬ HasKey m1 k := by
      rintro ⟨v, hv⟩
      exact hk ⟨v, (h _).1 hv⟩
    rw [find_entry_absent hwf hk, find_entry_absent hwf1 hk1]

/-- C19: in a table reachable from the default constructor in which `find(k)` reports the
pair `(k, v)`, the iteration visits `Ls1 ++ (k, v) :: Ls2` for some lists `Ls1` and `Ls2`
(either of which may be empty: the node of `k` may be the head, in the middle or the tail),
`erase(k)` returns, and the iteration over the table it leaves visits `Ls1 ++ Ls2`; no
entry of `Ls1` or `Ls2` has the key `k`. -/
theorem erase_keeps_iteration_order [DecidableEq K] [Inhabited K] [Inhabited V]
    (hasher : K → Nat) (m : HashMap K V) (k : K) (v : V) (hr : Reachable hasher m)
    (hpres : find_entry hasher m k = Except.ok (some (k, v))) :
    ∃ (m1 : HashMap K V) (Ls1 Ls2 : List (K × V)),
      iterate m = Except.ok (Ls1 ++ (k, v) :: Ls2) ∧ erase hasher m k = Except.ok m1 ∧
      iterate m1 = Except.ok (Ls1 ++ Ls2) ∧ ∀ e, e ∈ Ls1 ++ Ls2 → e.1 ≠ k := by
  have hwf := hr.wf
  have hst : Stored m (k, v) := ((find_entry_iff hwf k).1 v).1 hpres
  obtain ⟨p, c, hfind, hc, hcv, he⟩ := find_element_stored hwf hst
  obtain ⟨m1, hdel, hwf1, _, _, _, hdata, hlinked⟩ := delete_spec hwf hc hcv
  have herase : erase hasher m k = Except.ok m1 := by
    simp [erase, find_element_, hfind, ok_bind, hdel]
  obtain ⟨L, hL⟩ := hwf.list.linked
  have htag : (tags m._data)[p]? = some State.FULL := by rw [tags_getElem?, hc, ← hcv]; rfl
  obtain ⟨a, n, hlink, haL, hn, hcell⟩ := hL.full p htag
  have hptr : c.ptr = some a := by
    rw [links_getElem?, hc] at hlink
    simpa using hlink
  obtain ⟨L1, L2, rfl⟩ := List.append_of_mem haL
  have hL1 : Linked m1 (L1 ++ L2) := hlinked L1 L2 a hL hptr
  obtain ⟨nodes1, head1, hun, _, hkeep⟩ := unlink_spec m.nodes m._ptr a L1 L2 hL.chain hL.nodup
  have hnodes : m1.nodes = nodes1 := by
    have h := hdel
    simp only [delete_, readCell_eq_ok hc, ok_bind, hcv, hptr, hun, pure, Except.pure] at h
    have h1 := Except.ok.inj h
    rw [← h1]
  obtain ⟨Ls, hLs, hall⟩ := iterate_loop_spec m (L1 ++ a :: L2) m.nodes.length none m._ptr
    hL.chain hL.length_le hL.cell_lt
  obtain ⟨Ls1, Ls0, rfl, hall1, hall0⟩ := forall2_append_left L1 (a :: L2) Ls hall
  obtain ⟨e, Ls2, hae, hall2, rfl⟩ := List.forall₂_cons_left_iff.1 hall0
  have hekv : e = (k, v) := by
    obtain ⟨n1, c1, hn1, hc1, hce⟩ := hae
    rw [hn] at hn1
    have en : n = n1 := by simpa using hn1
    subst en
    rw [hcell, hc] at hc1
    have ec : c = c1 := by simpa using hc1
    subst ec
    rw [← hce, he]
  subst hekv
  obtain ⟨Ls3, hLs3, hall3⟩ := iterate_loop_spec m1 (L1 ++ L2) m1.nodes.length none m1._ptr
    hL1.chain hL1.length_le hL1.cell_lt
  have hnotin : a ∉ L1 ++ L2 := by
    have h1 := (List.nodup_middle.1 hL.nodup)
    exact (List.nodup_cons.1 h1).1
  have hsame : Ls3 = Ls1 ++ Ls2 := by
    refine forall2_functional (L1 ++ L2) (Ls1 ++ Ls2) Ls3
      (forall2_append L1 L2 Ls1 Ls2 hall1 hall2) hall3 ?_
    rintro x hx b b1 ⟨nx, cx, hnx, hcx, hbx⟩ ⟨ny, cy, hny, hcy, hby⟩
    obtain ⟨n2, n3, h2, h3, hcells⟩ := hkeep x hx
    rw [hnx] at h2
    have e2 : nx = n2 := by simpa using h2
    subst e2
    rw [hnodes, h3] at hny
    have e3 : n3 = ny := by simpa using hny
    subst e3
    have hxL : x ∈ L1 ++ a :: L2 := by
      rcases List.mem_append.1 hx with h | h
      · exact List.mem_append_left _ h
      · exact List.mem_append_right _ (List.mem_cons_of_mem _ h)
    have hne : p ≠ nx.cell := by
      intro hp
      obtain ⟨n4, hn4, hback⟩ := hL.back x hxL
      rw [hnx] at hn4
      have e4 : nx = n4 := by simpa using hn4
      subst e4
      rw [← hp, hlink] at hback
      have : a = x := by simpa using hback
      subst this
      exact hnotin hx
    rw [hcells, hdata, List.getElem?_set_ne hne, hcx] at hcy
    have e5 : cx = cy := by simpa using hcy
    rw [← hby, ← hbx, e5]
  rw [hsame] at hLs3
  refine ⟨m1, Ls1, Ls2, hLs, herase, hLs3, ?_⟩
  obtain ⟨Ls4, hLs4, _, _, hnd⟩ := iterate_spec hwf
  have hLs' : iterate m = Except.ok (Ls1 ++ (k, v) :: Ls2) := hLs
  rw [hLs'] at hLs4
  have e6 := Except.ok.inj hLs4
  subst e6
  rw [List.map_append, List.map_cons, List.nodup_middle, List.nodup_cons] at hnd
  intro e he hk
  have hmem : e.1 ∈ (Ls1 ++ Ls2).map Prod.fst := List.mem_map_of_mem Prod.fst he
  rw [hk, List.map_append] at hmem
  exact hnd.1 hmem

theorem erase_keeps_iteration_order_witness :
    Reachable id exPairSwapped ∧ find_entry id exPairSwapped 1 = Except.ok (some (1, 10)) ∧
    ∃ (m1 : HashMap Nat Nat) (Ls1 Ls2 : List (Nat × Nat)),
      iterate exPairSwapped = Except.ok (Ls1 ++ (1, 10) :: Ls2) ∧
      erase id exPairSwapped 1 = Except.ok m1 ∧
      iterate m1 = Except.ok (Ls1 ++ Ls2) ∧ ∀ e, e ∈ Ls1 ++ Ls2 → e.1 ≠ 1 :=
  ⟨Reachable.insert exPair exPairSwapped (129, 7) exPair_reachable rfl, rfl,
    erase_keeps_iteration_order id exPairSwapped 1 10
      (Reachable.insert exPair exPairSwapped (129, 7) exPair_reachable rfl) rfl⟩

/-- C20: in a table reachable from the default constructor, for keys `j ≠ k`, both
`insert((k, v))` and `erase(k)` return, and in the tables they leave `find(j)` gives the
answer it gave before (the same pair, or not-found), whether or not `k` was present, and
whether or not the insert swaps entries or resizes. -/
theorem find_other_key_unchanged [DecidableEq K] [Inhabited K] [Inhabited V]
    (hasher : K → Nat) (m : HashMap K V) (k j : K) (v : V) (hr : Reachable hasher m)
    (hjk : j ≠ k) :
    (∃ m1 : HashMap K V, HashMap.insert hasher m (k, v) = Except.ok m1 ∧
      find_entry hasher m1 j = find_entry hasher m j) ∧
    (∃ m2 : HashMap K V, erase hasher m k = Except.ok m2 ∧
      find_entry hasher m2 j = find_entry hasher m j) := by
  have hwf := hr.wf
  constructor
  · by_cases hk : HasKey m k
    · exact ⟨m, (insert_spec hwf (k, v)).1 hk, rfl⟩
    · obtain ⟨m1, hins, hwf1, _, _, hst, _⟩ := (insert_spec hwf (k, v)).2 hk
      refine ⟨m1, hins, find_entry_congr_key hwf hwf1 j ?_⟩
      intro w
      rw [hst]
      constructor
      · rintro (h | h)
        · exact h
        · exact absurd (congrArg Prod.fst h) hjk
      · exact Or.inl
  · by_cases hk : HasKey m k
    · obtain ⟨w, hw⟩ := hk
      obtain ⟨m2, her, hwf2, _, _, _, hst⟩ := (erase_spec hwf k).2 w hw
      refine ⟨m2, her, find_entry_congr_key hwf hwf2 j ?_⟩
      intro u
      rw [hst]
      exact ⟨fun h => h.1, fun h => ⟨h, hjk⟩⟩
    · exact ⟨m, (erase_spec hwf k).1 hk, rfl⟩

theorem find_other_key_unchanged_witness :
    Reachable id exPair ∧ (2 : Nat) ≠ 129 ∧
    (∃ m1 : HashMap Nat Nat, HashMap.insert id exPair (129, 7) = Except.ok m1 ∧
      find_entry id m1 2 = find_entry id exPair 2) ∧
    (∃ m2 : HashMap Nat Nat, erase id exPair 129 = Except.ok m2 ∧
      find_entry id m2 2 = find_entry id exPair 2) :=
  ⟨exPair_reachable, by decide,
    find_other_key_unchanged id exPair 129 2 7 exPair_reachable (by decide)⟩

/-! ## The robin-hood ordering -/

/-- With a capacity below `2^63`, `get_delta_` at the position `n < _capacity` steps after
the ideal position of `h` returns `n`. -/
theorem get_delta_steps (m : HashMap K V) (h n : Nat) (hc : m._capacity < 2 ^ 63)
    (hn : n < m._capacity) :
    get_delta_ m h ((h % m._capacity + n) % m._capacity) = Except.ok n := by
  have hc0 : 0 < m._capacity := by omega
  have hne : m._capacity ≠ 0 := by omega
  have hi : h % m._capacity < m._capacity := Nat.mod_lt _ hc0
  simp only [get_delta_, hne, if_false]
  congr 1
  generalize h % m._capacity = i at hi
  generalize m._capacity = c at *
  by_cases hw : i + n < c
  · rw [Nat.mod_eq_of_lt hw]
    have e1 : (i + n + SIZE - i) % SIZE = n := by
      unfold SIZE
      omega
    have e2 : (n + c) % SIZE = n + c := by
      unfold SIZE
      omega
    rw [e1, e2, Nat.add_mod_right, Nat.mod_eq_of_lt hn]
  · have hp : (i + n) % c = i + n - c := by
      rw [Nat.mod_eq_sub_mod (by omega), Nat.mod_eq_of_lt (by omega)]
    rw [hp]
    have e1 : (i + n - c + SIZE - i) % SIZE = n + SIZE - c := by
      unfold SIZE
      omega
    have e2 : (n + SIZE - c + c) % SIZE = n := by
      unfold SIZE
      omega
    rw [e1, e2, Nat.mod_eq_of_lt hn]

theorem get_delta_same_capacity {m m1 : HashMap K V} (h : m1._capacity = m._capacity)
    (hash p : Nat) : get_delta_ m1 hash p = get_delta_ m hash p := by
  simp only [get_delta_, h]

theorem succ_mod_eq {c q : Nat} (hq : q < c) :
    (q + 1) % c = if q + 1 < c then q + 1 else 0 := by
  split
  · rename_i h
    exact Nat.mod_eq_of_lt h
  · have : q + 1 = c := by omega
    rw [this, Nat.mod_self]

theorem succ_mod_inj {c q q1 : Nat} (hq : q < c) (hq1 : q1 < c)
    (h : (q + 1) % c = (q1 + 1) % c) : q = q1 := by
  rw [succ_mod_eq hq, succ_mod_eq hq1] at h
  split at h <;> split at h <;> omega

theorem succ_mod_ne {c q : Nat} (hc : 1 < c) (hq : q < c) : (q + 1) % c ≠ q := by
  rw [succ_mod_eq hq]
  split <;> omega

/-- A table that counts no deleted element has no `DELETED` cell. -/
theorem no_DELETED_of_zero {m : HashMap K V} (hl : WFList m) (hd : m._deleted = 0) :
    ∀ (p : Nat) (c : Cell K V), m._data[p]? = some c → c.validation ≠ State.DELETED := by
  intro p c hc hv
  have hmem : State.DELETED ∈ tags m._data :=
    List.mem_iff_getElem?.2 ⟨p, by rw [tags_getElem?, hc, ← hv]; rfl⟩
  have := List.count_pos_iff.2 hmem
  rw [← hl.deleted, hd] at this
  omega

/-- The probe that reaches a cell which is not `EMPTY` after `n` steps can take one more
step without coming round. -/
theorem path_succ_lt {data : List (Cell K V)} {cap h n p : Nat} (hlen : data.length = cap)
    (hE : ∃ (p : Nat) (c : Cell K V), data[p]? = some c ∧ c.validation = State.EMPTY)
    (hn : (h % cap + n) % cap = p)
    (hpath : ∀ j, j < n → NonEmptyAt data ((h % cap + j) % cap))
    (hp : NonEmptyAt data p) : n + 1 < cap := by
  apply path_length_lt hlen hE (h := h)
  intro j hj
  rcases Nat.lt_succ_iff_lt_or_eq.1 hj with hlt | rfl
  · exact hpath j hlt
  · rw [hn]
    exact hp

/-- The loop of `find_place_` on a table without `DELETED` cells and with a capacity below
`2^63` keeps the robin-hood ordering: a swap puts the carried entry, which is further from
its ideal position than the resident, into the cell, and the final placement is into an
`EMPTY` cell, which no pushed entry follows. -/
theorem find_place_loop_robin (hasher : K → Nat) :
    ∀ (fuel : Nat) (m : HashMap K V) (hash pos : Nat) (e : K × V) (m1 : HashMap K V),
    Candidate hasher m hash e pos → m._deleted = 0 → m._capacity < 2 ^ 63 →
    (∃ (p : Nat) (c : Cell K V), m._data[p]? = some c ∧ c.validation = State.EMPTY) →
    RobinHood m → Pushed m hash pos →
    find_place_loop fuel m hash pos e = Except.ok m1 → RobinHood m1 := by
  intro fuel
  induction fuel with
  | zero =>
    intro m hash pos e m1 _ _ _ _ _ _ h
    simp [find_place_loop] at h
  | succ f ih =>
    intro m hash pos e m1 hcand hdel hcap hE hrob hpush h
    have hc0 := hcand.cap
    have hlen := hcand.list.len
    obtain ⟨n, hn, hpath⟩ := hcand.path
    have hnlt : n < m._capacity := path_length_lt hlen hE hpath
    have hposlt : pos < m._capacity := by
      rw [← hn]
      exact Nat.mod_lt _ hc0
    have hposlen : pos < m._data.length := by rw [hlen]; exact hposlt
    have hdn : get_delta_ m hash pos = Except.ok n := by
      rw [← hn]
      exact get_delta_steps m hash n hcap hnlt
    obtain ⟨c, hd⟩ := exists_cell_of_lt m._data pos hposlen
    obtain ⟨el, ha, va, pt⟩ := c
    cases va with
    | DELETED => exact absurd rfl (no_DELETED_of_zero hcand.list hdel pos _ hd)
    | EMPTY =>
      simp only [find_place_loop, readCell_eq_ok hd, ok_bind] at h
      obtain ⟨m2, hm2, hcap2, _, _, _, hdata, _, _⟩ :=
        place_spec m hash pos e _ hcand.list hd (by intro hv; cases hv)
      rw [h] at hm2
      have hm : m1 = m2 := Except.ok.inj hm2
      subst hm
      have hfree : ∀ (q : Nat) (c1 : Cell K V), m._data[q]? = some c1 →
          c1.validation = State.FULL → pos ≠ q := by
        rintro q c1 hc1 hv1 rfl
        rw [hd] at hc1
        have := Option.some.inj hc1
        subst this
        cases hv1
      intro q c1 d hq hc1 hv1 hd1 hdpos
      rw [hcap2] at hq hc1
      rw [get_delta_same_capacity hcap2, hcap2] at hd1
      rw [hdata] at hc1
      by_cases hs : (q + 1) % m._capacity = pos
      · rw [hs, List.getElem?_set_self hposlen] at hc1
        have := Option.some.inj hc1
        subst this
        rw [hs] at hd1
        obtain ⟨q1, c2, d2, hq1, hs1, hc2, hv2, hd2, hle⟩ := hpush d hd1 hdpos
        have hqq : q1 = q := succ_mod_inj hq1 hq (hs1.trans hs.symm)
        subst hqq
        refine ⟨c2, d2, ?_, hv2, ?_, hle⟩
        · rw [hdata, List.getElem?_set_ne (hfree q1 c2 hc2 hv2)]
          exact hc2
        · rw [get_delta_same_capacity hcap2]
          exact hd2
      · rw [List.getElem?_set_ne (fun h => hs h.symm)] at hc1
        obtain ⟨c2, d2, hc2, hv2, hd2, hle⟩ := hrob q c1 d hq hc1 hv1 hd1 hdpos
        refine ⟨c2, d2, ?_, hv2, ?_, hle⟩
        · rw [hdata, List.getElem?_set_ne (hfree q c2 hc2 hv2)]
          exact hc2
        · rw [get_delta_same_capacity hcap2]
          exact hd2
    | FULL =>
      have hne : NonEmptyAt m._data pos := ⟨_, hd, by intro hv; cases hv⟩
      obtain ⟨n2, hn2, hpath2⟩ := hcand.content.probe pos _ hd rfl
      have hn2 : (ha % m._capacity + n2) % m._capacity = pos := hn2
      have hpath2 : ∀ j, j < n2 → NonEmptyAt m._data ((ha % m._capacity + j) % m._capacity) :=
        hpath2
      have hn2lt : n2 < m._capacity := path_length_lt hlen hE hpath2
      have hdn2 : get_delta_ m ha pos = Except.ok n2 := by
        rw [← hn2]
        exact get_delta_steps m ha n2 hcap hn2lt
      have hn1 : n + 1 < m._capacity := path_succ_lt hlen hE hn hpath hne
      have hn21 : n2 + 1 < m._capacity := path_succ_lt hlen hE hn2 hpath2 hne
      have hnext : get_delta_ m hash ((pos + 1) % m._capacity) = Except.ok (n + 1) := by
        rw [← hn, Nat.mod_add_mod, Nat.add_assoc]
        exact get_delta_steps m hash (n + 1) hcap hn1
      have hnext2 : get_delta_ m ha ((pos + 1) % m._capacity) = Except.ok (n2 + 1) := by
        rw [← hn2, Nat.mod_add_mod, Nat.add_assoc]
        exact get_delta_steps m ha (n2 + 1) hcap hn21
      obtain ⟨hkeep, hswap⟩ := hcand.next hd rfl
      simp only [find_place_loop, readCell_eq_ok hd, ok_bind, hdn, hdn2] at h
      by_cases hsw : n2 < n
      · simp only [hsw, if_true] at h
        have hcap1 : 1 < m._capacity := by omega
        refine ih _ _ _ _ m1 hswap hdel hcap ?_ ?_ ?_ h
        · obtain ⟨x, cx, hx, hvx⟩ := hE
          have hxp : pos ≠ x := by
            rintro rfl
            rw [hd] at hx
            have := Option.some.inj hx
            subst this
            cases hvx
          exact ⟨x, cx, by
            show (m._data.set pos _)[x]? = some cx
            rw [List.getElem?_set_ne hxp]
            exact hx, hvx⟩
        · intro q c1 d hq hc1 hv1 hd1 hdpos
          have hq : q < m._capacity := hq
          have hc1 : (m._data.set pos (Cell.mk e hash State.FULL pt))[(q + 1) % m._capacity]? =
            some c1 := hc1
          have hd1 : get_delta_ m c1.hash ((q + 1) % m._capacity) = Except.ok d := by
            rw [← hd1]
            exact (get_delta_same_capacity rfl _ _).symm
          show ∃ (c2 : Cell K V) (d2 : Nat),
            (m._data.set pos (Cell.mk e hash State.FULL pt))[q]? = some c2 ∧
              c2.validation = State.FULL ∧ get_delta_ m c2.hash q = Except.ok d2 ∧ d ≤ d2 + 1
          by_cases hs : (q + 1) % m._capacity = pos
          · rw [hs, List.getElem?_set_self hposlen] at hc1
            have := Option.some.inj hc1
            subst this
            rw [hs, hdn] at hd1
            have hnd : n = d := Except.ok.inj hd1
            subst hnd
            obtain ⟨q1, c2, d2, hq1, hs1, hc2, hv2, hd2, hle⟩ := hpush n hdn hdpos
            have hqq : q1 = q := succ_mod_inj hq1 hq (hs1.trans hs.symm)
            subst hqq
            have hqp : pos ≠ q1 := by
              rw [← hs]
              exact succ_mod_ne hcap1 hq
            exact ⟨c2, d2, by rw [List.getElem?_set_ne hqp]; exact hc2, hv2, hd2, hle⟩
          · rw [List.getElem?_set_ne (fun h => hs h.symm)] at hc1
            obtain ⟨c2, d2, hc2, hv2, hd2, hle⟩ := hrob q c1 d hq hc1 hv1 hd1 hdpos
            by_cases hqp : pos = q
            · subst hqp
              rw [hd] at hc2
              have := Option.some.inj hc2
              subst this
              rw [hdn2] at hd2
              have hnd : n2 = d2 := Except.ok.inj hd2
              subst hnd
              exact ⟨_, n, List.getElem?_set_self hposlen, rfl, hdn, by omega⟩
            · exact ⟨c2, d2, by rw [List.getElem?_set_ne hqp]; exact hc2, hv2, hd2, hle⟩
        · intro d hd1 hdpos
          have hd1 : get_delta_ m ha ((pos + 1) % m._capacity) = Except.ok d := by
            rw [← hd1]
            exact (get_delta_same_capacity rfl _ _).symm
          rw [hnext2] at hd1
          have hnd : n2 + 1 = d := Except.ok.inj hd1
          subst hnd
          exact ⟨pos, _, n, hposlt, rfl, List.getElem?_set_self hposlen, rfl, hdn, by omega⟩
      · simp only [hsw, if_false] at h
        refine ih _ _ _ _ m1 hkeep hdel hcap hE hrob ?_ h
        intro d hd1 hdpos
        rw [hnext] at hd1
        have hnd : n + 1 = d := Except.ok.inj hd1
        subst hnd
        exact ⟨pos, _, n2, hposlt, rfl, hd, rfl, hdn2, by omega⟩

/-- `find_place_` from the ideal position keeps the robin-hood ordering. -/
theorem find_place_robin (hasher : K → Nat) (m : HashMap K V) (e : K × V) (m1 : HashMap K V)
    (hlist : WFList m) (hcont : WFContent hasher m) (hdel : m._deleted = 0)
    (hroom : m._added < m._capacity) (hcap : m._capacity < 2 ^ 63)
    (hfresh : ¬ HasKey m e.1) (hrob : RobinHood m)
    (h : find_place_ m (hashOf hasher e.1) (hashOf hasher e.1 % m._capacity) e =
      Except.ok m1) : RobinHood m1 := by
  have hc0 : 0 < m._capacity := by omega
  have hE := exists_EMPTY_of_count m._data
    (by rw [← hlist.added, ← hlist.deleted, hdel, hlist.len]; omega)
  have hcand : Candidate hasher m (hashOf hasher e.1) e (hashOf hasher e.1 % m._capacity) :=
    ⟨hlist, hcont, hc0, rfl, hfresh, 0, by simp, fun j hj => absurd hj (Nat.not_lt_zero _)⟩
  refine find_place_loop_robin hasher _ m _ _ e m1 hcand hdel hcap hE hrob ?_ h
  intro d hd hdpos
  have h0 := get_delta_steps m (hashOf hasher e.1) 0 hcap hc0
  rw [Nat.add_zero, Nat.mod_mod] at h0
  rw [h0] at hd
  have : 0 = d := Except.ok.inj hd
  omega

/-- Below the load limit `hard_insert_with_hash_` is `find_place_` from the ideal
position. -/
theorem hard_insert_body_eq_find_place
    (resize : HashMap K V → Nat → Except Error (HashMap K V)) (m : HashMap K V) (e : K × V)
    (hash : Nat) (hno : 4 * (m._added + m._deleted) < 3 * m._capacity) :
    hard_insert_with_hash_body resize m e hash =
      find_place_ m hash (hash % m._capacity) e := by
  have hfalse : reaches_MAX_FILL_PORTION (m._added + m._deleted) m._capacity = false := by
    simp only [reaches_MAX_FILL_PORTION, decide_eq_false_iff_not]
    omega
  have hcap : m._capacity ≠ 0 := by omega
  simp only [hard_insert_with_hash_body, hfalse, pure, Except.pure, ok_bind, hcap, if_false]
  rfl

/-- At the load limit `hard_insert_with_hash_` is `find_place_` on the resized table. -/
theorem hard_insert_body_eq_resized
    (resize : HashMap K V → Nat → Except Error (HashMap K V)) (m m2 : HashMap K V)
    (e : K × V) (hash : Nat) (htrig : 3 * m._capacity ≤ 4 * (m._added + m._deleted))
    (hm2 : resize m (m._capacity * 2) = Except.ok m2) (hne : m2._capacity ≠ 0) :
    hard_insert_with_hash_body resize m e hash =
      find_place_ m2 hash (hash % m2._capacity) e := by
  have htrue : reaches_MAX_FILL_PORTION (m._added + m._deleted) m._capacity = true := by
    simp only [reaches_MAX_FILL_PORTION, decide_eq_true_eq]
    exact htrig
  simp only [hard_insert_with_hash_body, htrue, if_true, _CAPACITY_MULTIPLIER, hm2, ok_bind,
    hne, if_false]

/-- The array of a table without `FULL` cells has the robin-hood ordering. -/
theorem RobinHood.of_no_FULL {m : HashMap K V}
    (h : ∀ (p : Nat) (c : Cell K V), m._data[p]? = some c → c.validation ≠ State.FULL) :
    RobinHood m := by
  intro q c d _ hc hv
  exact absurd hv (h _ c hc)

/-- The member function `hard_insert_with_hash_` keeps the robin-hood ordering of a table
without `DELETED` cells, when the capacity it ends with is below `2^63`. -/
theorem hard_insert_body_robin [Inhabited K] [Inhabited V] (hasher : K → Nat) (d : Nat)
    (m : HashMap K V) (e : K × V) (m1 : HashMap K V) (hwf : WF hasher m)
    (hdel : m._deleted = 0) (hfresh : ¬ HasKey m e.1) (hrob : RobinHood m)
    (hcap1 : m1._capacity < 2 ^ 63)
    (h : hard_insert_with_hash_body (resize_ (d + 1)) m e (hashOf hasher e.1) =
      Except.ok m1) : RobinHood m1 := by
  obtain ⟨m3, hm3, _, _, _, _, hcapeq⟩ := hard_insert_body_spec hasher d m e hwf hfresh
  rw [h] at hm3
  have hm : m1 = m3 := Except.ok.inj hm3
  subst hm
  have hload := hwf.load
  have hcap4 := hwf.cap
  by_cases htrig : 3 * m._capacity ≤ 4 * (m._added + m._deleted)
  · rw [if_pos htrig] at hcapeq
    rw [hcapeq] at hcap1
    obtain ⟨m2, hm2, hl2, hc2, ⟨hcap2, hrob2⟩, hadd2, hdel2, hst2⟩ :=
      resize_rule hasher d m (m._capacity * 2) hwf.list hwf.content
        (fun x => x._capacity = m._capacity * 2 ∧ RobinHood x)
        (fun nodes1 => ⟨rfl, RobinHood.of_no_FULL (by
          intro p c hc hv
          have hc : (List.replicate (m._capacity * 2) (Cell.fresh K V))[p]? = some c := hc
          have := List.eq_of_mem_replicate (List.mem_iff_getElem?.2 ⟨p, hc⟩)
          subst this
          cases hv)⟩)
        (by
          intro x e1 hlx hcx hdx ⟨hcapx, hrobx⟩ hfrx hcount
          have hnox : 4 * (x._added + x._deleted) < 3 * x._capacity := by
            rw [hdx, hcapx]
            omega
          obtain ⟨x1, hx1, hl1, hc1, hcapx1, hadd1, hload1, hst1⟩ :=
            hard_insert_body_no_trigger hasher (resize_ d) x e1 hlx hcx hfrx hnox
          refine ⟨x1, hx1, hl1, hc1, hadd1, by omega, hst1, hcapx1.trans hcapx, ?_⟩
          rw [hard_insert_body_eq_find_place (resize_ d) x e1 _ hnox] at hx1
          exact find_place_robin hasher x e1 x1 hlx hcx hdx (by omega) (by rw [hcapx]; exact hcap1)
            hfrx hrobx hx1)
    rw [hard_insert_body_eq_resized (resize_ (d + 1)) m m2 e _ htrig hm2 (by omega)] at h
    exact find_place_robin hasher m2 e m1 hl2 hc2 hdel2 (by omega) (by rw [hcap2]; exact hcap1)
      (by
        rintro ⟨v, hv⟩
        exact hfresh ⟨v, (hst2 _).1 hv⟩)
      hrob2 h
  · rw [if_neg htrig] at hcapeq
    rw [hcapeq] at hcap1
    rw [hard_insert_body_eq_find_place (resize_ (d + 1)) m e _ (by omega)] at h
    exact find_place_robin hasher m e m1 hwf.list hwf.content hdel (by omega) hcap1 hfresh
      hrob h

/-- What `insert` does to the table: nothing, or `hard_insert_with_hash_` of a new key. -/
theorem insert_cases [DecidableEq K] [Inhabited K] [Inhabited V] {hasher : K → Nat}
    {m m1 : HashMap K V} (hwf : WF hasher m) (e : K × V)
    (h : HashMap.insert hasher m e = Except.ok m1) :
    m1 = m ∨ (¬ HasKey m e.1 ∧
      hard_insert_with_hash_ m e (hashOf hasher e.1) = Except.ok m1) := by
  by_cases hk : HasKey m e.1
  · rw [(insert_spec hwf e).1 hk] at h
    exact Or.inl (Except.ok.inj h).symm
  · obtain ⟨q, c, hfind, _, _⟩ := find_element_absent hwf e.1 (hashOf hasher e.1) hk
    refine Or.inr ⟨hk, ?_⟩
    simpa [HashMap.insert, hfind, ok_bind] using h

/-- What `operator[]` does to the table: nothing, or `hard_insert_with_hash_` of a new
key with the default value. -/
theorem operator_brackets_cases [DecidableEq K] [Inhabited K] [Inhabited V]
    {hasher : K → Nat} {m m1 : HashMap K V} (hwf : WF hasher m) (k : K) (v : V)
    (h : operator_brackets hasher m k = Except.ok (v, m1)) :
    m1 = m ∨ (¬ HasKey m k ∧
      hard_insert_with_hash_ m (k, default) (hashOf hasher k) = Except.ok m1) := by
  by_cases hk : HasKey m k
  · obtain ⟨w, hw⟩ := hk
    rw [(operator_brackets_spec hwf k).1 w hw] at h
    have := Except.ok.inj h
    exact Or.inl (congrArg Prod.snd this).symm
  · obtain ⟨m2, hm2, hwf2, _, _, hst, _⟩ :=
      hard_insert_with_hash_spec hasher m (k, default) hwf hk
    obtain ⟨m3, hm3, _⟩ := (operator_brackets_spec hwf k).2 hk
    obtain ⟨q, c, hfind, _, _⟩ := find_element_absent hwf k (hashOf hasher k) hk
    obtain ⟨p, c1, hfind1, hc1, _, he1⟩ :=
      find_element_stored hwf2 ((hst (k, default)).2 (Or.inr rfl))
    have h2 : operator_brackets hasher m k = Except.ok (default, m2) := by
      simp [operator_brackets, hfind, ok_bind, hm2, hfind1, readCell_eq_ok hc1, he1, pure,
        Except.pure]
    rw [h] at h2
    have := Except.ok.inj h2
    have hm : m1 = m2 := congrArg Prod.snd this
    subst hm
    exact Or.inr ⟨hk, hm2⟩

/-- Every table obtained by `insert` and `operator[]` only is one of the reachable tables. -/
theorem InsertOnly.reachable [DecidableEq K] [Inhabited K] [Inhabited V] {hasher : K → Nat}
    {m : HashMap K V} (h : InsertOnly hasher m) : Reachable hasher m := by
  induction h with
  | construct m hm => exact Reachable.construct m hm
  | insert m m1 e _ hm ih => exact Reachable.insert m m1 e ih hm
  | operator_brackets m m1 k v _ hm ih => exact Reachable.operator_brackets m m1 k v ih hm

/-- One `hard_insert_with_hash_` of a new key keeps "no deleted element" and, for tables of
capacity below `2^63`, the robin-hood ordering. -/
theorem hard_insert_robin_step [Inhabited K] [Inhabited V] {hasher : K → Nat}
    {m m1 : HashMap K V} (hwf : WF hasher m) (e : K × V) (hk : ¬ HasKey m e.1)
    (hins : hard_insert_with_hash_ m e (hashOf hasher e.1) = Except.ok m1)
    (ih : m._deleted = 0 ∧ (m._capacity < 2 ^ 63 → RobinHood m)) :
    m1._deleted = 0 ∧ (m1._capacity < 2 ^ 63 → RobinHood m1) := by
  obtain ⟨m3, hm3, _, _, hdel3, _, hcapeq⟩ := hard_insert_with_hash_spec hasher m e hwf hk
  rw [hins] at hm3
  have hm : m1 = m3 := Except.ok.inj hm3
  subst hm
  refine ⟨by have := ih.1; omega, ?_⟩
  intro hcap1
  have hle : m._capacity ≤ m1._capacity := by
    rw [hcapeq]
    split <;> omega
  exact hard_insert_body_robin hasher 1 m e m1 hwf ih.1 hk (ih.2 (by omega)) hcap1 hins

/-- The tables obtained by `insert` and `operator[]` only count no deleted element and,
with a capacity below `2^63`, have the robin-hood ordering. -/
theorem InsertOnly.robin [DecidableEq K] [Inhabited K] [Inhabited V] {hasher : K → Nat}
    {m : HashMap K V} (h : InsertOnly hasher m) :
    m._deleted = 0 ∧ (m._capacity < 2 ^ 63 → RobinHood m) := by
  induction h with
  | construct m hm =>
    obtain ⟨m0, hm0, _, _, _, hdel, hst⟩ := construct_spec (K := K) (V := V) hasher
    rw [hm] at hm0
    have hmm : m = m0 := Except.ok.inj hm0
    subst hmm
    refine ⟨hdel, fun _ => RobinHood.of_no_FULL ?_⟩
    intro p c hc hv
    exact hst c.element ⟨p, c, hc, hv, rfl⟩
  | insert m m1 e hr hm ih =>
    rcases insert_cases hr.reachable.wf e hm with rfl | ⟨hk, hins⟩
    · exact ih
    · exact hard_insert_robin_step hr.reachable.wf e hk hins ih
  | operator_brackets m m1 k v hr hm ih =>
    rcases operator_brackets_cases hr.reachable.wf k v hm with rfl | ⟨hk, hins⟩
    · exact ih
    · exact hard_insert_robin_step hr.reachable.wf (k, default) hk hins ih

theorem pred_succ_mod {c p : Nat} (hp : p < c) : ((p + c - 1) % c + 1) % c = p := by
  by_cases h0 : p = 0
  · subst h0
    rw [Nat.zero_add, Nat.mod_eq_of_lt (by omega : c - 1 < c),
      show c - 1 + 1 = c by omega, Nat.mod_self]
  · rw [show p + c - 1 = p - 1 + c by omega, Nat.add_mod_right,
      Nat.mod_eq_of_lt (by omega : p - 1 < c), show p - 1 + 1 = p by omega,
      Nat.mod_eq_of_lt hp]

theorem exChainThree_insert_only : InsertOnly id exChainThree :=
  InsertOnly.insert exChainTwo exChainThree (257, 9)
    (InsertOnly.insert exOne exChainTwo (129, 7)
      (InsertOnly.insert exEmpty exOne (1, 10) (InsertOnly.construct exEmpty rfl) rfl)
      rfl)
    rfl

/-- C21: in a table obtained from the default constructor by `insert` and `operator[]`
calls only, of a capacity below `2^63`, every `FULL` cell at a position `p` for which
`get_delta_` returns a displacement `d > 0` has a `FULL` cell at the position
`(p - 1) mod capacity` for which `get_delta_` returns a displacement of at least
`d - 1`. -/
theorem robin_hood_ordering [DecidableEq K] [Inhabited K] [Inhabited V] (hasher : K → Nat)
    (m : HashMap K V) (p d : Nat) (c : Cell K V) (hr : InsertOnly hasher m)
    (hcap : m._capacity < 2 ^ 63) (hc : m._data[p]? = some c)
    (hv : c.validation = State.FULL) (hd : get_delta_ m c.hash p = Except.ok d)
    (hpos : 0 < d) :
    ∃ (c1 : Cell K V) (d1 : Nat),
      m._data[(p + m._capacity - 1) % m._capacity]? = some c1 ∧
      c1.validation = State.FULL ∧
      get_delta_ m c1.hash ((p + m._capacity - 1) % m._capacity) = Except.ok d1 ∧
      d - 1 ≤ d1 := by
  have hwf := hr.reachable.wf
  have hp : p < m._capacity := by
    rw [← hwf.list.len]
    exact lt_of_getElem?_eq_some hc
  have hq : (p + m._capacity - 1) % m._capacity < m._capacity := Nat.mod_lt _ (by omega)
  have hs := pred_succ_mod hp
  obtain ⟨c1, d1, hc1, hv1, hd1, hle⟩ := hr.robin.2 hcap _ c d hq (by rw [hs]; exact hc) hv
    (by rw [hs]; exact hd) hpos
  exact ⟨c1, d1, hc1, hv1, hd1, by omega⟩

theorem robin_hood_ordering_witness :
    InsertOnly id exChainThree ∧ exChainThree._capacity < 2 ^ 63 ∧
    exChainThree._data[3]? = some (Cell.mk (257, 9) 257 State.FULL (some 2)) ∧
    get_delta_ exChainThree 257 3 = Except.ok 2 ∧
    ∃ (c1 : Cell Nat Nat) (d1 : Nat),
      exChainThree._data[(3 + exChainThree._capacity - 1) % exChainThree._capacity]? =
        some c1 ∧
      c1.validation = State.FULL ∧
      get_delta_ exChainThree c1.hash
        ((3 + exChainThree._capacity - 1) % exChainThree._capacity) = Except.ok d1 ∧
      2 - 1 ≤ d1 :=
  ⟨exChainThree_insert_only, by decide, rfl, rfl,
    robin_hood_ordering id exChainThree 3 2 (Cell.mk (257, 9) 257 State.FULL (some 2))
      exChainThree_insert_only (by decide) rfl rfl rfl (by decide)⟩

end Cifoviko
